import Mathlib

/-!
# Line rasterisation into a byte buffer (`src/gl/line/image_draw.cpp`)

A shallow embedding of `draw_line` (integer Bresenham stepping with a per-pixel
bounds check) and of `draw_lines` (the batch loop over one shared buffer), in two layers.

* `Machine.draw_line`, `Machine.draw_lines`, `Machine.visited` are the code: every result
  of C `int` arithmetic is wrapped to 32 bits, two's complement (`wrap32`). That covers the
  differences, `abs`, the negation and the sums of lines 24-26, the stepping of lines
  35-37, the pixel offset of line 31 and the narrowing of `buf.shape` from `ssize_t` to
  `int` in lines 48-53. The theorems on the behaviour of the code are about these
  definitions.
* `draw_line`, `draw_lines`, `visited` are the same functions over unbounded integers: the
  algorithm without overflow. The code is shown to agree with them for endpoints in
  `[-2 ^ 28, 2 ^ 28]` (`machine_visited_eq`) on an image of at most `2 ^ 31 - 1` bytes
  (`machine_plot_eq`), and the properties of the algorithm are carried over to the code on
  that range.
* Bytes (`uint8_t`) are `Nat`; they are only copied from the color into the image, never
  computed with.
* The image and the color are raw pointers in the source. They are lists here, and an
  access outside the list (undefined behaviour in C) is the error `outOfRange`.
* `while (true)` is run with a fuel counter; running out of fuel is the error
  `outOfFuel`. The termination theorems show which fuel is enough, and a run that never
  ends is one that returns no buffer whatever the fuel.
-/

namespace ImageDraw

/-- The two ways a run of the model can stop without a buffer. -/
inductive DrawError where
  | outOfFuel
  | outOfRange
  deriving DecidableEq, Repr

/-- The result of a run: the final buffer, or the reason there is none. -/
inductive Outcome where
  | ok (img : List Nat)
  | error (e : DrawError)
  deriving DecidableEq, Repr

/-- Sequencing of a run with a continuation on its buffer. -/
def Outcome.andThen : Outcome → (List Nat → Outcome) → Outcome
  | .ok img, k => k img
  | .error e, _ => .error e

/-- The assignment `img[idx] = v` on a raw pointer: defined only inside the buffer. -/
def store (img : List Nat) (idx : Int) (v : Nat) : Outcome :=
  if 0 ≤ idx ∧ idx < img.length then .ok (img.set idx.toNat v) else .error .outOfRange

/-- The byte `img[idx]` at an integer offset, when the offset is inside the buffer. -/
def byte_at (img : List Nat) (idx : Int) : Option Nat :=
  if 0 ≤ idx then img[idx.toNat]? else none

/-- One byte assignment `img[o.1] = color[o.2]`: the color is read, then the image is
written. -/
def put (color : List Nat) (img : List Nat) (o : Int × Nat) : Outcome :=
  match color[o.2]? with
  | none => .error .outOfRange
  | some c => store img o.1 c

/-- The statement `img[y0 * width * channel + x0 * channel + i] = color[i]` (line 31), the
offset an unbounded integer. -/
def write_channel (width channel x0 y0 : Int) (color : List Nat) (img : List Nat) (i : Nat) :
    Outcome :=
  put color img (y0 * width * channel + x0 * channel + i, i)

/-- Runs `f` over the list from left to right, stopping at the first error. -/
def foldOutcome {α : Type} (f : List Nat → α → Outcome) : List Nat → List α → Outcome
  | img, [] => .ok img
  | img, a :: as => (f img a).andThen (fun img1 => foldOutcome f img1 as)

/-- The loop `for (int i = 0; i < channel; i++)` of lines 30-32. -/
def write_pixel (img : List Nat) (width channel x0 y0 : Int) (color : List Nat) : Outcome :=
  foldOutcome (write_channel width channel x0 y0 color) img (List.range channel.toNat)

/-- The bounds test `x0 >= 0 && x0 < width && y0 >= 0 && y0 < height` of line 29. -/
def in_image (width height : Int) (p : Int × Int) : Prop :=
  0 ≤ p.1 ∧ p.1 < width ∧ 0 ≤ p.2 ∧ p.2 < height

instance (width height : Int) (p : Int × Int) : Decidable (in_image width height p) := by
  unfold in_image; infer_instance

/-- The bounds check of line 29 around the channel loop. -/
def plot (width height channel : Int) (color : List Nat) (img : List Nat) (p : Int × Int) :
    Outcome :=
  if in_image width height p then
    write_pixel img width channel p.1 p.2 color
  else .ok img

/-- The loop variables `x0`, `y0`, `err`. -/
structure LineState where
  x : Int
  y : Int
  err : Int
  deriving DecidableEq, Repr

/-- Lines 35-37: `e2 = 2 * err; if (e2 >= dy) ...; if (e2 <= dx) ...`, over unbounded
integers. -/
def bresenham_step (dx dy sx sy : Int) (s : LineState) : LineState :=
  let e2 := 2 * s.err
  let s1 : LineState := if e2 ≥ dy then { s with err := s.err + dy, x := s.x + sx } else s
  if e2 ≤ dx then { s1 with err := s1.err + dx, y := s1.y + sy } else s1

/-- The direction `x0 < x1 ? 1 : -1` of lines 24 and 25. -/
def step_sign (u v : Int) : Int := if u < v then 1 else -1

/-- The `while (true)` loop of lines 28-38, with the buffer. -/
def draw_line_loop (width height channel x1 y1 dx dy sx sy : Int) (color : List Nat) :
    Nat → List Nat → LineState → Outcome
  | 0, _, _ => .error .outOfFuel
  | fuel + 1, img, s =>
    (plot width height channel color img (s.x, s.y)).andThen fun img1 =>
      if s.x = x1 ∧ s.y = y1 then .ok img1
      else draw_line_loop width height channel x1 y1 dx dy sx sy color fuel img1
        (bresenham_step dx dy sx sy s)

/-- The function `draw_line` (lines 23-39) over unbounded integers. -/
def draw_line (fuel : Nat) (img : List Nat) (width height channel x0 y0 x1 y1 : Int)
    (color : List Nat) : Outcome :=
  let dx := |x1 - x0|
  let sx := step_sign x0 x1
  let dy := -|y1 - y0|
  let sy := step_sign y0 y1
  let err := dx + dy
  draw_line_loop width height channel x1 y1 dx dy sx sy color fuel img ⟨x0, y0, err⟩

/-- The same loop as `draw_line_loop` with the buffer left out: the sequence of pixel
coordinates at which line 29 is reached, `none` when the fuel runs out. -/
def line_pixels_loop (x1 y1 dx dy sx sy : Int) : Nat → LineState → Option (List (Int × Int))
  | 0, _ => none
  | fuel + 1, s =>
    if s.x = x1 ∧ s.y = y1 then some [(s.x, s.y)]
    else (line_pixels_loop x1 y1 dx dy sx sy fuel (bresenham_step dx dy sx sy s)).map
      fun ps => (s.x, s.y) :: ps

/-- The pixels visited by `draw_line` on `(x0, y0, x1, y1)`, in order, over unbounded
integers. -/
def visited (fuel : Nat) (x0 y0 x1 y1 : Int) : Option (List (Int × Int)) :=
  let dx := |x1 - x0|
  let sx := step_sign x0 x1
  let dy := -|y1 - y0|
  let sy := step_sign y0 y1
  let err := dx + dy
  line_pixels_loop x1 y1 dx dy sx sy fuel ⟨x0, y0, err⟩

/-- Fuel that is enough for the segment: one iteration per pixel of the longer axis. -/
def line_fuel (x0 y0 x1 y1 : Int) : Nat :=
  max (x1 - x0).natAbs (y1 - y0).natAbs + 1

/-- The pixels visited by `draw_line` on `(x0, y0, x1, y1)` when the fuel is enough. -/
def line_pixels (x0 y0 x1 y1 : Int) : List (Int × Int) :=
  (visited (line_fuel x0 y0 x1 y1) x0 y0 x1 y1).getD []

/-- One segment `(x0, y0, x1, y1)` of the batch. -/
abbrev Segment := Int × Int × Int × Int

/-- Lines 50-54: `channel = 1; if (buf.ndim == 3) channel = buf.shape[2];`. -/
def shape_channel (shape : List Int) : Int :=
  if shape.length = 3 then shape.getD 2 1 else 1

/-- The function `draw_lines` (lines 41-64) over unbounded integers: `shape` is
`buf.shape`, `buf.ndim` its length; reading `shape[0]` or `shape[1]` of a shorter vector is
out of range. -/
def draw_lines (fuel : Nat) (img : List Nat) (shape : List Int) (lines : List Segment)
    (color : List Nat) : Outcome :=
  match shape[1]?, shape[0]? with
  | some width, some height =>
    let channel : Int := shape_channel shape
    foldOutcome (fun im (l : Segment) =>
      draw_line fuel im width height channel l.1 l.2.1 l.2.2.1 l.2.2.2 color) img lines
  | _, _ => .error .outOfRange

/-- Fuel that is enough for a segment of the batch. -/
def segment_fuel (l : Segment) : Nat := line_fuel l.1 l.2.1 l.2.2.1 l.2.2.2

/-- The pixels visited on a segment of the batch. -/
def segment_pixels (l : Segment) : List (Int × Int) := line_pixels l.1 l.2.1 l.2.2.1 l.2.2.2

/-! ## The stepping with 32-bit `int` arithmetic -/

/-- The value of a C `int` result wrapped to 32 bits, two's complement. -/
def wrap32 (n : Int) : Int := (n + 2147483648) % 4294967296 - 2147483648

/-- The range of a 32-bit `int`. -/
def in_int32 (n : Int) : Prop := -2147483648 ≤ n ∧ n ≤ 2147483647

/-- Lines 35-37 with every arithmetic result wrapped to 32 bits. -/
def bresenham_step32 (dx dy sx sy : Int) (s : LineState) : LineState :=
  let e2 := wrap32 (2 * s.err)
  let s1 : LineState :=
    if e2 ≥ dy then { s with err := wrap32 (s.err + dy), x := wrap32 (s.x + sx) } else s
  if e2 ≤ dx then { s1 with err := wrap32 (s1.err + dx), y := wrap32 (s1.y + sy) } else s1

/-- The loop of lines 28-38 stepping with `bresenham_step32`. -/
def draw_line_loop32 (width height channel x1 y1 dx dy sx sy : Int) (color : List Nat) :
    Nat → List Nat → LineState → Outcome
  | 0, _, _ => .error .outOfFuel
  | fuel + 1, img, s =>
    (plot width height channel color img (s.x, s.y)).andThen fun img1 =>
      if s.x = x1 ∧ s.y = y1 then .ok img1
      else draw_line_loop32 width height channel x1 y1 dx dy sx sy color fuel img1
        (bresenham_step32 dx dy sx sy s)

/-- The function `draw_line` with the stepping arithmetic of lines 24-26 and 35-37 (the
differences, `abs`, the negation, the sums) wrapped to 32 bits. -/
def draw_line32 (fuel : Nat) (img : List Nat) (width height channel x0 y0 x1 y1 : Int)
    (color : List Nat) : Outcome :=
  let dx := wrap32 |wrap32 (x1 - x0)|
  let sx := step_sign x0 x1
  let dy := wrap32 (-wrap32 |wrap32 (y1 - y0)|)
  let sy := step_sign y0 y1
  let err := wrap32 (dx + dy)
  draw_line_loop32 width height channel x1 y1 dx dy sx sy color fuel img ⟨x0, y0, err⟩

/-- The loop variables of `draw_line` on `(x0, y0, x1, y1)` after `k` iterations. -/
def line_state (x0 y0 x1 y1 : Int) (k : Nat) : LineState :=
  (bresenham_step |x1 - x0| (-|y1 - y0|) (step_sign x0 x1) (step_sign y0 y1))^[k]
    ⟨x0, y0, |x1 - x0| + -|y1 - y0|⟩

/-! ## The code with 32-bit `int` arithmetic throughout

The definitions of `Machine` are the functions of the source with every `int` operation
wrapped to 32 bits: the stepping (`bresenham_step32`), the pixel offset of line 31 and the
narrowing of the shape entries to `int` in lines 48-53. -/

namespace Machine

/-- Line 31's index `y0 * width * channel + x0 * channel + i`, each product and sum an
`int`. -/
def offset (width channel x0 y0 : Int) (i : Nat) : Int :=
  wrap32 (wrap32 (wrap32 (wrap32 (y0 * width) * channel) + wrap32 (x0 * channel)) + (i : Int))

/-- The statement `img[y0 * width * channel + x0 * channel + i] = color[i]` (line 31). -/
def write_channel (width channel x0 y0 : Int) (color : List Nat) (img : List Nat) (i : Nat) :
    Outcome :=
  put color img (offset width channel x0 y0 i, i)

/-- The loop `for (int i = 0; i < channel; i++)` of lines 30-32. -/
def write_pixel (img : List Nat) (width channel x0 y0 : Int) (color : List Nat) : Outcome :=
  foldOutcome (write_channel width channel x0 y0 color) img (List.range channel.toNat)

/-- The bounds check of line 29 around the channel loop. -/
def plot (width height channel : Int) (color : List Nat) (img : List Nat) (p : Int × Int) :
    Outcome :=
  if in_image width height p then
    write_pixel img width channel p.1 p.2 color
  else .ok img

/-- The `while (true)` loop of lines 28-38, with the buffer. -/
def draw_line_loop (width height channel x1 y1 dx dy sx sy : Int) (color : List Nat) :
    Nat → List Nat → LineState → Outcome
  | 0, _, _ => .error .outOfFuel
  | fuel + 1, img, s =>
    (plot width height channel color img (s.x, s.y)).andThen fun img1 =>
      if s.x = x1 ∧ s.y = y1 then .ok img1
      else draw_line_loop width height channel x1 y1 dx dy sx sy color fuel img1
        (bresenham_step32 dx dy sx sy s)

/-- The value of `dx` in line 24: `std::abs(x1 - x0)` as an `int`. -/
def delta (u v : Int) : Int := wrap32 |wrap32 (v - u)|

/-- Embedding of `draw_line` (lines 23-39). -/
def draw_line (fuel : Nat) (img : List Nat) (width height channel x0 y0 x1 y1 : Int)
    (color : List Nat) : Outcome :=
  let dx := delta x0 x1
  let sx := step_sign x0 x1
  let dy := wrap32 (-delta y0 y1)
  let sy := step_sign y0 y1
  let err := wrap32 (dx + dy)
  draw_line_loop width height channel x1 y1 dx dy sx sy color fuel img ⟨x0, y0, err⟩

/-- The loop of `draw_line_loop` with the buffer left out: the sequence of pixel
coordinates at which line 29 is reached, `none` when the fuel runs out. -/
def line_pixels_loop (x1 y1 dx dy sx sy : Int) : Nat → LineState → Option (List (Int × Int))
  | 0, _ => none
  | fuel + 1, s =>
    if s.x = x1 ∧ s.y = y1 then some [(s.x, s.y)]
    else (line_pixels_loop x1 y1 dx dy sx sy fuel (bresenham_step32 dx dy sx sy s)).map
      fun ps => (s.x, s.y) :: ps

/-- The pixels visited by `draw_line` on `(x0, y0, x1, y1)`, in order. -/
def visited (fuel : Nat) (x0 y0 x1 y1 : Int) : Option (List (Int × Int)) :=
  let dx := delta x0 x1
  let sx := step_sign x0 x1
  let dy := wrap32 (-delta y0 y1)
  let sy := step_sign y0 y1
  let err := wrap32 (dx + dy)
  line_pixels_loop x1 y1 dx dy sx sy fuel ⟨x0, y0, err⟩

/-- The first `n` pixels at which the loop reaches line 29, fewer when it ends before. -/
def first_pixels_loop (x1 y1 dx dy sx sy : Int) : Nat → LineState → List (Int × Int)
  | 0, _ => []
  | n + 1, s =>
    (s.x, s.y) ::
      if s.x = x1 ∧ s.y = y1 then []
      else first_pixels_loop x1 y1 dx dy sx sy n (bresenham_step32 dx dy sx sy s)

/-- The first `n` pixels visited by `draw_line` on `(x0, y0, x1, y1)`. -/
def first_pixels (n : Nat) (x0 y0 x1 y1 : Int) : List (Int × Int) :=
  let dx := delta x0 x1
  let sx := step_sign x0 x1
  let dy := wrap32 (-delta y0 y1)
  let sy := step_sign y0 y1
  let err := wrap32 (dx + dy)
  first_pixels_loop x1 y1 dx dy sx sy n ⟨x0, y0, err⟩

/-- Lines 50-54: `int channel = 1; if (buf.ndim == 3) channel = buf.shape[2];`. -/
def shape_channel (shape : List Int) : Int :=
  if shape.length = 3 then wrap32 (shape.getD 2 1) else 1

/-- Embedding of `draw_lines` (lines 41-64): `shape` is `buf.shape`, `buf.ndim` its length;
`shape[0]`, `shape[1]`, `shape[2]` are narrowed from `ssize_t` to `int`; reading `shape[0]`
or `shape[1]` of a shorter vector is out of range. -/
def draw_lines (fuel : Nat) (img : List Nat) (shape : List Int) (lines : List Segment)
    (color : List Nat) : Outcome :=
  match shape[1]?, shape[0]? with
  | some w, some h =>
    let width := wrap32 w
    let height := wrap32 h
    let channel := shape_channel shape
    foldOutcome (fun im (l : Segment) =>
      draw_line fuel im width height channel l.1 l.2.1 l.2.2.1 l.2.2.2 color) img lines
  | _, _ => .error .outOfRange

/-- The byte assignments of one visit of line 29: none outside the image, one per channel
inside, at the `int` offset. -/
def pixel_ops (width height channel : Int) (p : Int × Int) : List (Int × Nat) :=
  if in_image width height p then
    (List.range channel.toNat).map fun (i : Nat) => (offset width channel p.1 p.2 i, i)
  else []

end Machine

/-- Endpoints within `2 ^ 28` of the origin, the range in which the stepping of `draw_line`
does not overflow. -/
def coords_in_range (x0 y0 x1 y1 : Int) : Prop :=
  (-268435456 ≤ x0 ∧ x0 ≤ 268435456) ∧ (-268435456 ≤ y0 ∧ y0 ≤ 268435456) ∧
  (-268435456 ≤ x1 ∧ x1 ≤ 268435456) ∧ (-268435456 ≤ y1 ∧ y1 ≤ 268435456)

instance (x0 y0 x1 y1 : Int) : Decidable (coords_in_range x0 y0 x1 y1) := by
  unfold coords_in_range; infer_instance

/-- The endpoints of a segment of the batch are in range. -/
def segment_in_range (l : Segment) : Prop := coords_in_range l.1 l.2.1 l.2.2.1 l.2.2.2

instance (l : Segment) : Decidable (segment_in_range l) := by
  unfold segment_in_range; infer_instance

/-! ## Definitions used by the proofs -/

/-- The Bresenham invariant for the segment from `(0, 0)` to `(a, b)` stepped with
`sx = sy = 1`: the state stays in the box, `err` is the closed form, and the pixel is
within half a pixel of the ideal line along the minor axis. -/
def BresInv (a b : Int) (s : LineState) : Prop :=
  0 ≤ s.x ∧ s.x ≤ a ∧ 0 ≤ s.y ∧ s.y ≤ b ∧
  s.err = a * (s.y + 1) - b * (s.x + 1) ∧
  -(max a b) ≤ 2 * (a * s.y - b * s.x) ∧ 2 * (a * s.y - b * s.x) ≤ max a b

/-- The loop state after `k` iterations on the segment from `(0, 0)` to `(a, b)`. -/
def offset_state (a b : Int) (k : Nat) : LineState :=
  (bresenham_step a (-b) 1 1)^[k] ⟨0, 0, a - b⟩

/-- The closed form of the pixel sequence: the iterates of the step on the offset segment,
moved to `(x0, y0)` and oriented by the two directions. -/
def offset_pixels (x0 y0 x1 y1 : Int) : List (Int × Int) :=
  (List.range (line_fuel x0 y0 x1 y1)).map fun k =>
    (x0 + step_sign x0 x1 * (offset_state |x1 - x0| |y1 - y0| k).x,
     y0 + step_sign y0 y1 * (offset_state |x1 - x0| |y1 - y0| k).y)

/-- The byte assignments of one visit of line 29 at the unbounded offset: none outside the
image, one per channel inside. -/
def pixel_ops (width height channel : Int) (p : Int × Int) : List (Int × Nat) :=
  if in_image width height p then
    (List.range channel.toNat).map fun (i : Nat) =>
      (p.2 * width * channel + p.1 * channel + (i : Int), i)
  else []

set_option maxRecDepth 100000

/-! ## The stepping loop in offset coordinates -/

theorem bresInv_init (a b : Int) (ha : 0 ≤ a) (hb : 0 ≤ b) : BresInv a b ⟨0, 0, a - b⟩ := by
  refine ⟨le_refl _, ha, le_refl _, hb, by simp, ?_, ?_⟩
  · simp only [mul_zero, sub_zero, Left.neg_nonpos_iff]
    exact le_trans ha (le_max_left a b)
  · simp only [mul_zero, sub_zero]
    exact le_trans ha (le_max_left a b)

/-- Along the longer axis the end is reached only together with the other axis. -/
theorem bresInv_major_end (a b : Int) (s : LineState) (h : BresInv a b s)
    (hm : if b ≤ a then s.x = a else s.y = b) : s.x = a ∧ s.y = b := by
  obtain ⟨hx0, hxa, hy0, hyb, -, hlo, hhi⟩ := h
  by_cases hba : b ≤ a
  · rw [if_pos hba] at hm
    refine ⟨hm, ?_⟩
    rw [max_eq_left hba, hm] at hlo
    by_contra hne
    have hlt : s.y + 1 ≤ b := by omega
    have h1 : a * (s.y + 1) ≤ a * b := mul_le_mul_of_nonneg_left hlt (by omega)
    have h2 : 0 ≤ a * s.y := mul_nonneg (by omega) hy0
    nlinarith
  · rw [if_neg hba] at hm
    refine ⟨?_, hm⟩
    have hab : a ≤ b := by omega
    rw [max_eq_right hab, hm] at hhi
    by_contra hne
    have hlt : s.x + 1 ≤ a := by omega
    have h1 : b * (s.x + 1) ≤ b * a := mul_le_mul_of_nonneg_left hlt (by omega)
    nlinarith

/-- One step from a state that is not the end keeps the invariant, advances the longer
axis by one and the other axis by zero or one. -/
theorem bresInv_step (a b : Int) (s : LineState) (h : BresInv a b s)
    (hne : ¬(s.x = a ∧ s.y = b)) :
    BresInv a b (bresenham_step a (-b) 1 1 s) ∧
    (if b ≤ a then (bresenham_step a (-b) 1 1 s).x = s.x + 1
      else (bresenham_step a (-b) 1 1 s).y = s.y + 1) ∧
    ((bresenham_step a (-b) 1 1 s).x = s.x ∨ (bresenham_step a (-b) 1 1 s).x = s.x + 1) ∧
    ((bresenham_step a (-b) 1 1 s).y = s.y ∨ (bresenham_step a (-b) 1 1 s).y = s.y + 1) := by
  have hend := bresInv_major_end a b s h
  obtain ⟨hx0, hxa, hy0, hyb, herr, hlo, hhi⟩ := h
  obtain ⟨x, y, err⟩ := s
  simp only at hx0 hxa hy0 hyb herr hlo hhi hne hend
  have hP : 0 ≤ a * y := mul_nonneg (by omega) hy0
  have hQ : 0 ≤ b * x := mul_nonneg (by omega) hx0
  have hP1 : a * y ≤ a * b := mul_le_mul_of_nonneg_left hyb (by omega)
  have hQ1 : b * x ≤ b * a := mul_le_mul_of_nonneg_left hxa (by omega)
  have hab : a * b = b * a := mul_comm a b
  by_cases hba : b ≤ a
  · rw [max_eq_left hba] at hlo hhi
    rw [if_pos hba] at hend
    have hxlt : x + 1 ≤ a := by
      by_contra hc
      exact hne (hend (by omega))
    have hQ2 : b * (x + 1) ≤ b * a := mul_le_mul_of_nonneg_left hxlt (by omega)
    have hfire : 2 * err ≥ -b := by rw [herr]; nlinarith
    by_cases hy : 2 * err ≤ a
    · have hylt : y + 1 ≤ b := by
        by_contra hc
        have hyb' : y = b := by omega
        subst hyb'
        rw [herr] at hy
        nlinarith
      simp only [bresenham_step, hfire, hy, if_true, BresInv, max_eq_left hba, if_pos hba]
      refine ⟨⟨by omega, by omega, by omega, by omega, ?_, ?_, ?_⟩, by simp, by simp, by simp⟩
      · rw [herr]; ring
      · rw [herr] at hy; nlinarith
      · rw [herr] at hy; nlinarith
    · simp only [bresenham_step, hfire, hy, if_true, if_false, BresInv, max_eq_left hba,
        if_pos hba]
      refine ⟨⟨by omega, by omega, by omega, by omega, ?_, ?_, ?_⟩, by simp, by simp, by simp⟩
      · rw [herr]; ring
      · rw [herr] at hy; nlinarith
      · rw [herr] at hy; nlinarith
  · have hab' : a ≤ b := by omega
    rw [max_eq_right hab'] at hlo hhi
    rw [if_neg hba] at hend
    have hylt : y + 1 ≤ b := by
      by_contra hc
      exact hne (hend (by omega))
    have hP2 : a * (y + 1) ≤ a * b := mul_le_mul_of_nonneg_left hylt (by omega)
    have hfire : 2 * err ≤ a := by rw [herr]; nlinarith
    by_cases hx : 2 * err ≥ -b
    · have hxlt : x + 1 ≤ a := by
        by_contra hc
        have hxa' : x = a := by omega
        subst hxa'
        rw [herr] at hx
        nlinarith
      have hfire' : 2 * (err + -b) ≤ a := by omega
      simp only [bresenham_step, hfire, hfire', hx, if_true, BresInv, max_eq_right hab', if_neg hba]
      refine ⟨⟨by omega, by omega, by omega, by omega, ?_, ?_, ?_⟩, by simp, by simp, by simp⟩
      · rw [herr]; ring
      · rw [herr] at hx; nlinarith
      · rw [herr] at hx; nlinarith
    · simp only [bresenham_step, hfire, hx, if_true, if_false, BresInv, max_eq_right hab',
        if_neg hba]
      refine ⟨⟨by omega, by omega, by omega, by omega, ?_, ?_, ?_⟩, by simp, by simp, by simp⟩
      · rw [herr]; ring
      · rw [herr] at hx; nlinarith
      · rw [herr] at hx; nlinarith

theorem offset_state_succ (a b : Int) (k : Nat) :
    offset_state a b (k + 1) = bresenham_step a (-b) 1 1 (offset_state a b k) := by
  simp only [offset_state, Function.iterate_succ_apply']

/-- Up to the length of the longer axis, the `k`-th state satisfies the invariant and has
advanced exactly `k` along the longer axis. -/
theorem offset_state_inv (a b : Int) (ha : 0 ≤ a) (hb : 0 ≤ b) :
    ∀ k : Nat, (k : Int) ≤ max a b →
      BresInv a b (offset_state a b k) ∧
      (if b ≤ a then (offset_state a b k).x = k else (offset_state a b k).y = k) := by
  intro k
  induction k with
  | zero =>
    intro _
    refine ⟨bresInv_init a b ha hb, ?_⟩
    simp [offset_state]
  | succ k ih =>
    intro hk
    have hk' : (k : Int) < max a b := by push_cast at hk; omega
    obtain ⟨hinv, hmaj⟩ := ih (le_of_lt hk')
    have hne : ¬((offset_state a b k).x = a ∧ (offset_state a b k).y = b) := by
      rintro ⟨hx, hy⟩
      by_cases hba : b ≤ a
      · rw [if_pos hba] at hmaj
        rw [max_eq_left hba] at hk'
        omega
      · rw [if_neg hba] at hmaj
        rw [max_eq_right (by omega)] at hk'
        omega
    obtain ⟨hinv', hmaj', -, -⟩ := bresInv_step a b _ hinv hne
    rw [offset_state_succ]
    refine ⟨hinv', ?_⟩
    by_cases hba : b ≤ a
    · rw [if_pos hba] at hmaj hmaj' ⊢
      rw [hmaj', hmaj]; push_cast; rfl
    · rw [if_neg hba] at hmaj hmaj' ⊢
      rw [hmaj', hmaj]; push_cast; rfl

/-- The trace of the loop, read off the iterates of the step: if the break test first
holds after `n` steps and the fuel is more than `n`, the loop visits the first `n + 1`
iterates. -/
theorem line_pixels_loop_eq (x1 y1 dx dy sx sy : Int) :
    ∀ (n fuel : Nat) (s : LineState),
      (∀ k < n, ¬(((bresenham_step dx dy sx sy)^[k] s).x = x1 ∧
        ((bresenham_step dx dy sx sy)^[k] s).y = y1)) →
      (((bresenham_step dx dy sx sy)^[n] s).x = x1 ∧
        ((bresenham_step dx dy sx sy)^[n] s).y = y1) →
      n < fuel →
      line_pixels_loop x1 y1 dx dy sx sy fuel s =
        some ((List.range (n + 1)).map fun k =>
          (((bresenham_step dx dy sx sy)^[k] s).x, ((bresenham_step dx dy sx sy)^[k] s).y)) := by
  intro n
  induction n with
  | zero =>
    intro fuel s _ hend hfuel
    obtain ⟨f, rfl⟩ : ∃ f, fuel = f + 1 := ⟨fuel - 1, by omega⟩
    simp only [Function.iterate_zero, id_eq] at hend
    rw [line_pixels_loop, if_pos hend]
    rfl
  | succ n ih =>
    intro fuel s hbefore hend hfuel
    obtain ⟨f, rfl⟩ : ∃ f, fuel = f + 1 := ⟨fuel - 1, by omega⟩
    have h0 : ¬(s.x = x1 ∧ s.y = y1) := by
      have := hbefore 0 (Nat.succ_pos n)
      simpa using this
    have hrec := ih f (bresenham_step dx dy sx sy s)
      (fun k hk => by
        have := hbefore (k + 1) (Nat.succ_lt_succ hk)
        simpa only [Function.iterate_succ_apply] using this)
      (by simpa only [Function.iterate_succ_apply] using hend)
      (by omega)
    rw [line_pixels_loop, if_neg h0, hrec]
    simp only [Option.map_some', Option.some.injEq]
    rw [List.range_succ_eq_map (n + 1)]
    simp only [List.map_cons, List.map_map, Function.iterate_zero, id_eq]
    congr 1

/-- The step commutes with moving the origin to `(x0, y0)` and flipping the axes. -/
theorem bresenham_step_affine (x0 y0 a b sx sy : Int) (s : LineState) :
    bresenham_step a (-b) sx sy ⟨x0 + sx * s.x, y0 + sy * s.y, s.err⟩ =
      ⟨x0 + sx * (bresenham_step a (-b) 1 1 s).x, y0 + sy * (bresenham_step a (-b) 1 1 s).y,
        (bresenham_step a (-b) 1 1 s).err⟩ := by
  unfold bresenham_step
  by_cases h1 : 2 * s.err ≥ -b <;> by_cases h2 : 2 * s.err ≤ a <;>
    simp [h1, h2, mul_add, add_assoc]

theorem iterate_affine (x0 y0 a b sx sy : Int) (k : Nat) :
    (bresenham_step a (-b) sx sy)^[k] ⟨x0, y0, a - b⟩ =
      ⟨x0 + sx * (offset_state a b k).x, y0 + sy * (offset_state a b k).y,
        (offset_state a b k).err⟩ := by
  induction k with
  | zero => simp [offset_state]
  | succ k ih =>
    rw [Function.iterate_succ_apply', ih, bresenham_step_affine, offset_state_succ]

theorem step_sign_mul_abs (u v : Int) : step_sign u v * |v - u| = v - u := by
  unfold step_sign
  by_cases h : u < v
  · rw [if_pos h, abs_of_pos (by omega)]; ring
  · rw [if_neg h, abs_of_nonpos (by omega)]; ring

theorem step_sign_cases (u v : Int) : step_sign u v = 1 ∨ step_sign u v = -1 := by
  unfold step_sign
  by_cases h : u < v
  · exact Or.inl (if_pos h)
  · exact Or.inr (if_neg h)

theorem line_fuel_cast (x0 y0 x1 y1 : Int) :
    ((line_fuel x0 y0 x1 y1 : Nat) : Int) = max |x1 - x0| |y1 - y0| + 1 := by
  simp [line_fuel, Nat.cast_max]

/-- With at least `line_fuel` fuel the loop ends and visits exactly `offset_pixels`. -/
theorem visited_eq_offset_pixels (fuel : Nat) (x0 y0 x1 y1 : Int)
    (hfuel : line_fuel x0 y0 x1 y1 ≤ fuel) :
    visited fuel x0 y0 x1 y1 = some (offset_pixels x0 y0 x1 y1) := by
  have ha : (0 : Int) ≤ |x1 - x0| := abs_nonneg _
  have hb : (0 : Int) ≤ |y1 - y0| := abs_nonneg _
  have hsx := step_sign_mul_abs x0 x1
  have hsy := step_sign_mul_abs y0 y1
  have hM := line_fuel_cast x0 y0 x1 y1
  obtain ⟨n, hn⟩ : ∃ n, line_fuel x0 y0 x1 y1 = n + 1 := ⟨_, rfl⟩
  rw [hn] at hM hfuel
  have hnM : (n : Int) = max |x1 - x0| |y1 - y0| := by push_cast at hM; omega
  have hit : ∀ k : Nat,
      (bresenham_step |x1 - x0| (-|y1 - y0|) (step_sign x0 x1) (step_sign y0 y1))^[k]
        ⟨x0, y0, |x1 - x0| + -|y1 - y0|⟩ =
      ⟨x0 + step_sign x0 x1 * (offset_state |x1 - x0| |y1 - y0| k).x,
       y0 + step_sign y0 y1 * (offset_state |x1 - x0| |y1 - y0| k).y,
       (offset_state |x1 - x0| |y1 - y0| k).err⟩ := by
    intro k
    rw [← sub_eq_add_neg]
    exact iterate_affine x0 y0 _ _ _ _ k
  have hterm : ∀ k : Nat, (k : Int) ≤ max |x1 - x0| |y1 - y0| →
      ((x0 + step_sign x0 x1 * (offset_state |x1 - x0| |y1 - y0| k).x = x1 ∧
        y0 + step_sign y0 y1 * (offset_state |x1 - x0| |y1 - y0| k).y = y1) ↔
       (k : Int) = max |x1 - x0| |y1 - y0|) := by
    intro k hk
    obtain ⟨hinv, hmaj⟩ := offset_state_inv _ _ ha hb k hk
    have hend := bresInv_major_end _ _ _ hinv
    generalize offset_state |x1 - x0| |y1 - y0| k = st at hinv hmaj hend
    generalize |x1 - x0| = a at *
    generalize |y1 - y0| = b at *
    have hxiff : x0 + step_sign x0 x1 * st.x = x1 ↔ st.x = a := by
      rcases step_sign_cases x0 x1 with h | h <;> rw [h] at hsx ⊢ <;> constructor <;> intro <;> omega
    have hyiff : y0 + step_sign y0 y1 * st.y = y1 ↔ st.y = b := by
      rcases step_sign_cases y0 y1 with h | h <;> rw [h] at hsy ⊢ <;> constructor <;> intro <;> omega
    rw [hxiff, hyiff]
    by_cases hba : b ≤ a
    · rw [if_pos hba] at hmaj hend
      rw [max_eq_left hba]
      constructor
      · rintro ⟨h1, -⟩; omega
      · intro h; exact hend (by omega)
    · rw [if_neg hba] at hmaj hend
      rw [max_eq_right (by omega)]
      constructor
      · rintro ⟨-, h2⟩; omega
      · intro h; exact hend (by omega)
  unfold visited
  simp only
  rw [line_pixels_loop_eq _ _ _ _ _ _ n fuel _ ?_ ?_ (by omega)]
  · simp only [hit, offset_pixels, hn]
  · intro k hk
    rw [hit]
    simp only
    rw [hterm k (by omega)]
    omega
  · rw [hit]
    simp only
    rw [hterm n (by omega)]
    exact hnM

theorem line_pixels_eq (x0 y0 x1 y1 : Int) :
    line_pixels x0 y0 x1 y1 = offset_pixels x0 y0 x1 y1 := by
  unfold line_pixels
  rw [visited_eq_offset_pixels _ _ _ _ _ (le_refl _)]
  rfl

theorem visited_eq_line_pixels (fuel : Nat) (x0 y0 x1 y1 : Int)
    (hfuel : line_fuel x0 y0 x1 y1 ≤ fuel) :
    visited fuel x0 y0 x1 y1 = some (line_pixels x0 y0 x1 y1) := by
  rw [line_pixels_eq, visited_eq_offset_pixels fuel _ _ _ _ hfuel]

/-- The loop with the buffer applies the bounds-checked write along the loop without it. -/
theorem draw_line_loop_eq_fold (width height channel x1 y1 dx dy sx sy : Int)
    (color : List Nat) :
    ∀ (fuel : Nat) (img : List Nat) (s : LineState) (ps : List (Int × Int)),
      line_pixels_loop x1 y1 dx dy sx sy fuel s = some ps →
      draw_line_loop width height channel x1 y1 dx dy sx sy color fuel img s =
        foldOutcome (plot width height channel color) img ps := by
  intro fuel
  induction fuel with
  | zero => intro img s ps h; simp [line_pixels_loop] at h
  | succ f ih =>
    intro img s ps h
    rw [line_pixels_loop] at h
    rw [draw_line_loop]
    by_cases hend : s.x = x1 ∧ s.y = y1
    · rw [if_pos hend] at h
      cases h
      simp only [hend, and_self, if_true, foldOutcome]
    · rw [if_neg hend] at h
      cases hq : line_pixels_loop x1 y1 dx dy sx sy f (bresenham_step dx dy sx sy s) with
      | none => rw [hq] at h; simp at h
      | some qs =>
        rw [hq] at h
        simp only [Option.map_some', Option.some.injEq] at h
        subst h
        simp only [if_neg hend, foldOutcome]
        cases hp : plot width height channel color img (s.x, s.y) with
        | error e => rfl
        | ok img1 => exact ih img1 _ qs hq

/-- With enough fuel `draw_line` is the bounds-checked write along `line_pixels`. -/
theorem draw_line_eq_fold (fuel : Nat) (img : List Nat) (width height channel x0 y0 x1 y1 : Int)
    (color : List Nat) (hfuel : line_fuel x0 y0 x1 y1 ≤ fuel) :
    draw_line fuel img width height channel x0 y0 x1 y1 color =
      foldOutcome (plot width height channel color) img (line_pixels x0 y0 x1 y1) := by
  have h := visited_eq_line_pixels fuel x0 y0 x1 y1 hfuel
  unfold visited at h
  unfold draw_line
  exact draw_line_loop_eq_fold _ _ _ _ _ _ _ _ _ _ fuel img _ _ h

/-! ## Byte assignments -/

theorem foldOutcome_append {α : Type} (f : List Nat → α → Outcome) (l1 l2 : List α) :
    ∀ img, foldOutcome f img (l1 ++ l2) =
      (foldOutcome f img l1).andThen fun img1 => foldOutcome f img1 l2 := by
  induction l1 with
  | nil => intro img; rfl
  | cons a l1 ih =>
    intro img
    simp only [List.cons_append, foldOutcome]
    cases f img a with
    | error e => rfl
    | ok img1 => exact ih img1

theorem foldOutcome_map {α β : Type} (f : List Nat → β → Outcome) (g : α → β) (l : List α) :
    ∀ img, foldOutcome f img (l.map g) = foldOutcome (fun im a => f im (g a)) img l := by
  induction l with
  | nil => intro img; rfl
  | cons a l ih =>
    intro img
    simp only [List.map_cons, foldOutcome]
    cases f img (g a) with
    | error e => rfl
    | ok img1 => exact ih img1

theorem foldOutcome_flatMap {α β : Type} (f : List Nat → β → Outcome) (g : α → List β)
    (l : List α) :
    ∀ img, foldOutcome f img (l.flatMap g) =
      foldOutcome (fun im a => foldOutcome f im (g a)) img l := by
  induction l with
  | nil => intro img; rfl
  | cons a l ih =>
    intro img
    simp only [List.flatMap_cons, foldOutcome, foldOutcome_append]
    cases foldOutcome f img (g a) with
    | error e => rfl
    | ok img1 => exact ih img1

theorem foldOutcome_congr {α : Type} (f g : List Nat → α → Outcome) (l : List α)
    (h : ∀ a ∈ l, ∀ img, f img a = g img a) :
    ∀ img, foldOutcome f img l = foldOutcome g img l := by
  induction l with
  | nil => intro img; rfl
  | cons a l ih =>
    intro img
    simp only [foldOutcome, h a (List.mem_cons_self a l) img]
    cases g img a with
    | error e => rfl
    | ok img1 => exact ih (fun b hb => h b (List.mem_cons_of_mem a hb)) img1

theorem plot_eq_fold_put (width height channel : Int) (color : List Nat) (img : List Nat)
    (p : Int × Int) :
    plot width height channel color img p =
      foldOutcome (put color) img (pixel_ops width height channel p) := by
  unfold plot pixel_ops
  by_cases h : in_image width height p
  · rw [if_pos h, if_pos h, foldOutcome_map]
    rfl
  · rw [if_neg h, if_neg h]
    rfl

theorem fold_plot_eq_fold_put (width height channel : Int) (color : List Nat)
    (ps : List (Int × Int)) (img : List Nat) :
    foldOutcome (plot width height channel color) img ps =
      foldOutcome (put color) img (ps.flatMap (pixel_ops width height channel)) := by
  rw [foldOutcome_flatMap]
  exact foldOutcome_congr _ _ ps (fun p _ im => plot_eq_fold_put width height channel color im p) img

theorem put_ok_iff (color img : List Nat) (o : Int × Nat) (img1 : List Nat) :
    put color img o = .ok img1 ↔
      ∃ c, color[o.2]? = some c ∧ 0 ≤ o.1 ∧ o.1 < img.length ∧ img1 = img.set o.1.toNat c := by
  unfold put store
  cases hc : color[o.2]? with
  | none => simp
  | some c =>
    by_cases hr : 0 ≤ o.1 ∧ o.1 < (img.length : Int)
    · simp only [if_pos hr, Outcome.ok.injEq, Option.some.injEq, exists_eq_left']
      constructor
      · intro h; exact ⟨hr.1, hr.2, h.symm⟩
      · intro h; exact h.2.2.symm
    · simp only [if_neg hr, Option.some.injEq, exists_eq_left']
      constructor
      · intro h; cases h
      · intro h; exact absurd ⟨h.1, h.2.1⟩ hr

theorem put_error (color img : List Nat) (o : Int × Nat) (e : DrawError)
    (h : put color img o = .error e) : e = .outOfRange := by
  unfold put store at h
  cases hc : color[o.2]? with
  | none => rw [hc] at h; cases h; rfl
  | some c =>
    rw [hc] at h
    simp only at h
    split_ifs at h
    cases h; rfl

theorem fold_put_error (color : List Nat) (ops : List (Int × Nat)) :
    ∀ (img : List Nat) (e : DrawError), foldOutcome (put color) img ops = .error e →
      e = .outOfRange := by
  induction ops with
  | nil => intro img e h; cases h
  | cons o ops ih =>
    intro img e h
    rw [foldOutcome] at h
    cases hp : put color img o with
    | error e1 =>
      rw [hp] at h
      cases h
      exact put_error color img o e hp
    | ok img1 =>
      rw [hp] at h
      exact ih img1 e h

theorem fold_put_length (color : List Nat) (ops : List (Int × Nat)) :
    ∀ (img img2 : List Nat), foldOutcome (put color) img ops = .ok img2 →
      img2.length = img.length := by
  induction ops with
  | nil => intro img img2 h; cases h; rfl
  | cons o ops ih =>
    intro img img2 h
    rw [foldOutcome] at h
    cases hp : put color img o with
    | error e1 => rw [hp] at h; cases h
    | ok img1 =>
      rw [hp] at h
      obtain ⟨c, -, -, -, rfl⟩ := (put_ok_iff color img o img1).1 hp
      rw [ih _ img2 h, List.length_set]

/-- A byte that no assignment addresses keeps its value. -/
theorem fold_put_frame (color : List Nat) (ops : List (Int × Nat)) :
    ∀ (img img2 : List Nat), foldOutcome (put color) img ops = .ok img2 →
      ∀ j : Nat, (∀ o ∈ ops, o.1 ≠ (j : Int)) → img2[j]? = img[j]? := by
  induction ops with
  | nil => intro img img2 h j _; cases h; rfl
  | cons o ops ih =>
    intro img img2 h j hj
    rw [foldOutcome] at h
    cases hp : put color img o with
    | error e1 => rw [hp] at h; cases h
    | ok img1 =>
      rw [hp] at h
      obtain ⟨c, -, h0, -, rfl⟩ := (put_ok_iff color img o img1).1 hp
      rw [ih _ img2 h j (fun o1 ho1 => hj o1 (List.mem_cons_of_mem o ho1))]
      have hne : o.1.toNat ≠ j := by
        have := hj o (List.mem_cons_self o ops)
        omega
      exact List.getElem?_set_ne hne

/-- A byte holding `v` keeps it when every later assignment to its address writes `v`. -/
theorem fold_put_keep (color : List Nat) (idx : Nat) (v : Nat) (ops : List (Int × Nat)) :
    ∀ (img img2 : List Nat), foldOutcome (put color) img ops = .ok img2 →
      (∀ o ∈ ops, o.1 = (idx : Int) → color[o.2]? = some v) →
      img[idx]? = some v → img2[idx]? = some v := by
  induction ops with
  | nil => intro img img2 h _ hv; cases h; exact hv
  | cons o ops ih =>
    intro img img2 h hsame hv
    rw [foldOutcome] at h
    cases hp : put color img o with
    | error e1 => rw [hp] at h; cases h
    | ok img1 =>
      rw [hp] at h
      obtain ⟨c, hc, h0, h1, rfl⟩ := (put_ok_iff color img o img1).1 hp
      refine ih _ img2 h (fun o1 ho1 => hsame o1 (List.mem_cons_of_mem o ho1)) ?_
      by_cases hidx : o.1 = (idx : Int)
      · have hcv := hsame o (List.mem_cons_self o ops) hidx
        rw [hc] at hcv
        cases hcv
        have ht : o.1.toNat = idx := by omega
        rw [ht, List.getElem?_set_self (by omega)]
      · have hne : o.1.toNat ≠ idx := by omega
        rw [List.getElem?_set_ne hne]
        exact hv

/-- After a run in which equal addresses are always given equal values, every addressed
byte holds the color byte assigned to it. -/
theorem fold_put_written (color : List Nat) (ops : List (Int × Nat)) :
    ∀ (img img2 : List Nat), foldOutcome (put color) img ops = .ok img2 →
      (∀ o1 ∈ ops, ∀ o2 ∈ ops, o1.1 = o2.1 → color[o1.2]? = color[o2.2]?) →
      ∀ o ∈ ops, ∃ v, color[o.2]? = some v ∧ img2[o.1.toNat]? = some v := by
  induction ops with
  | nil => intro img img2 _ _ o ho; cases ho
  | cons o ops ih =>
    intro img img2 h hsame o1 ho1
    rw [foldOutcome] at h
    cases hp : put color img o with
    | error e1 => rw [hp] at h; cases h
    | ok img1 =>
      rw [hp] at h
      obtain ⟨c, hc, h0, h1, rfl⟩ := (put_ok_iff color img o img1).1 hp
      rcases List.mem_cons.1 ho1 with rfl | hmem
      · refine ⟨c, hc, ?_⟩
        refine fold_put_keep color o1.1.toNat c ops _ img2 h ?_ ?_
        · intro o2 ho2 heq
          rw [← hc]
          exact hsame o2 (List.mem_cons_of_mem _ ho2) o1 (List.mem_cons_self _ _)
            (by omega)
        · rw [List.getElem?_set_self (by omega)]
      · exact ih _ img2 h (fun a ha b hb => hsame a (List.mem_cons_of_mem _ ha) b
          (List.mem_cons_of_mem _ hb)) o1 hmem

/-- A run whose addresses are all inside the image and the color returns a buffer. -/
theorem fold_put_ok (color : List Nat) (ops : List (Int × Nat)) :
    ∀ (img : List Nat),
      (∀ o ∈ ops, 0 ≤ o.1 ∧ o.1 < (img.length : Int) ∧ o.2 < color.length) →
      ∃ img2, foldOutcome (put color) img ops = .ok img2 := by
  induction ops with
  | nil => intro img _; exact ⟨img, rfl⟩
  | cons o ops ih =>
    intro img hall
    obtain ⟨h0, h1, h2⟩ := hall o (List.mem_cons_self o ops)
    have hp : put color img o = .ok (img.set o.1.toNat (color[o.2])) :=
      (put_ok_iff color img o _).2 ⟨color[o.2], List.getElem?_eq_getElem h2, h0, h1, rfl⟩
    rw [foldOutcome, hp]
    refine ih _ (fun o1 ho1 => ?_)
    have := hall o1 (List.mem_cons_of_mem o ho1)
    rw [List.length_set]
    exact this

theorem mem_pixel_ops (width height channel : Int) (p : Int × Int) (o : Int × Nat) :
    o ∈ pixel_ops width height channel p ↔
      in_image width height p ∧ (o.2 : Int) < channel ∧
        o.1 = p.2 * width * channel + p.1 * channel + (o.2 : Int) := by
  unfold pixel_ops
  by_cases h : in_image width height p
  · rw [if_pos h]
    simp only [List.mem_map, List.mem_range, h, true_and]
    constructor
    · rintro ⟨i, hi, rfl⟩
      exact ⟨by simp only; omega, rfl⟩
    · rintro ⟨h1, h2⟩
      exact ⟨o.2, by omega, by rw [← h2]⟩
  · rw [if_neg h]
    simp [h]

/-- The channel of an assignment is its address modulo the channel count. -/
theorem pixel_ops_channel (width height channel : Int) (p : Int × Int) (o : Int × Nat)
    (h : o ∈ pixel_ops width height channel p) : (o.2 : Int) = o.1 % channel := by
  obtain ⟨-, hlt, heq⟩ := (mem_pixel_ops _ _ _ _ _).1 h
  have h0 : (0 : Int) ≤ (o.2 : Int) := Int.ofNat_nonneg _
  rw [heq, show p.2 * width * channel + p.1 * channel + (o.2 : Int) =
    (o.2 : Int) + channel * (p.2 * width + p.1) by ring, Int.add_mul_emod_self_left,
    Int.emod_eq_of_lt h0 hlt]

/-- Inside the image every address is below `height * width * channel`. -/
theorem pixel_ops_bound (width height channel : Int) (p : Int × Int) (o : Int × Nat)
    (h : o ∈ pixel_ops width height channel p) :
    0 ≤ o.1 ∧ o.1 < height * width * channel := by
  obtain ⟨⟨hx0, hxw, hy0, hyh⟩, hlt, heq⟩ := (mem_pixel_ops _ _ _ _ _).1 h
  have h0 : (0 : Int) ≤ (o.2 : Int) := Int.ofNat_nonneg _
  have hc : (0 : Int) < channel := by omega
  have hw : (0 : Int) < width := by omega
  have h1 : 0 ≤ p.2 * width := mul_nonneg hy0 (by omega)
  have h2 : (p.2 + 1) * width ≤ height * width :=
    mul_le_mul_of_nonneg_right (by omega) (by omega)
  have h3 : 0 ≤ (p.2 * width + p.1) * channel := mul_nonneg (by omega) (by omega)
  have h4 : (p.2 * width + p.1 + 1) * channel ≤ height * width * channel :=
    mul_le_mul_of_nonneg_right (by linarith) (by omega)
  rw [heq]
  constructor
  · linarith
  · linarith

/-- Two byte assignments commute when they differ in address or agree in color byte. -/
theorem put_comm (color : List Nat) (o1 o2 : Int × Nat)
    (h : o1.1 = o2.1 → color[o1.2]? = color[o2.2]?) (img : List Nat) :
    (put color img o1).andThen (fun im => put color im o2) =
      (put color img o2).andThen (fun im => put color im o1) := by
  unfold put store
  cases hc1 : color[o1.2]? with
  | none =>
    cases hc2 : color[o2.2]? with
    | none => rfl
    | some c2 =>
      simp only [Outcome.andThen]
      split_ifs <;> simp [Outcome.andThen, hc1]
  | some c1 =>
    cases hc2 : color[o2.2]? with
    | none =>
      simp only [Outcome.andThen]
      split_ifs <;> simp [Outcome.andThen, hc2]
    | some c2 =>
      by_cases hr1 : 0 ≤ o1.1 ∧ o1.1 < (img.length : Int)
      · by_cases hr2 : 0 ≤ o2.1 ∧ o2.1 < (img.length : Int)
        · simp only [hr1, hr2, and_self, if_true, Outcome.andThen, List.length_set, hc1, hc2,
            Outcome.ok.injEq]
          by_cases heq : o1.1 = o2.1
          · have := h heq
            rw [hc1, hc2] at this
            cases this
            rw [heq]
          · exact List.set_comm c1 c2 img (by omega)
        · simp [hr1, hr2, Outcome.andThen, hc1, hc2]
      · by_cases hr2 : 0 ≤ o2.1 ∧ o2.1 < (img.length : Int)
        · simp [hr1, hr2, Outcome.andThen, hc1, hc2]
        · simp [hr1, hr2, Outcome.andThen, hc1, hc2]

/-- The order of the byte assignments does not matter when equal addresses are always
given equal color bytes. -/
theorem fold_put_perm (color : List Nat) {l1 l2 : List (Int × Nat)} (hp : l1.Perm l2) :
    (∀ o1 ∈ l1, ∀ o2 ∈ l1, o1.1 = o2.1 → color[o1.2]? = color[o2.2]?) →
    ∀ img, foldOutcome (put color) img l1 = foldOutcome (put color) img l2 := by
  induction hp with
  | nil => intro _ img; rfl
  | cons x _ ih =>
    intro hsame img
    simp only [foldOutcome]
    cases put color img x with
    | error e => rfl
    | ok img1 =>
      exact ih (fun a ha b hb => hsame a (List.mem_cons_of_mem _ ha) b
        (List.mem_cons_of_mem _ hb)) img1
  | swap x y l =>
    intro hsame img
    have hc := put_comm color y x (hsame y (by simp) x (by simp)) img
    simp only [foldOutcome]
    cases hy : put color img y with
    | error e =>
      rw [hy] at hc
      cases hx : put color img x with
      | error e1 =>
        rw [put_error color img y e hy, put_error color img x e1 hx]
        rfl
      | ok img1 =>
        rw [hx] at hc
        simp only [Outcome.andThen] at hc ⊢
        rw [← hc]
    | ok img1 =>
      rw [hy] at hc
      cases hx : put color img x with
      | error e1 =>
        rw [hx] at hc
        simp only [Outcome.andThen] at hc ⊢
        rw [hc]
      | ok img2 =>
        rw [hx] at hc
        simp only [Outcome.andThen] at hc ⊢
        rw [hc]
  | trans h12 _ ih1 ih2 =>
    intro hsame img
    rw [ih1 hsame img]
    exact ih2 (fun a ha b hb => hsame a (h12.mem_iff.2 ha) b (h12.mem_iff.2 hb)) img

/-- Every visited pixel is an invariant state of the offset segment, moved and oriented,
and the states are indexed by their position along the longer axis. -/
theorem mem_offset_pixels (x0 y0 x1 y1 : Int) (p : Int × Int) :
    p ∈ offset_pixels x0 y0 x1 y1 ↔
      ∃ k : Nat, (k : Int) ≤ max |x1 - x0| |y1 - y0| ∧
        p = (x0 + step_sign x0 x1 * (offset_state |x1 - x0| |y1 - y0| k).x,
             y0 + step_sign y0 y1 * (offset_state |x1 - x0| |y1 - y0| k).y) := by
  have hM := line_fuel_cast x0 y0 x1 y1
  unfold offset_pixels
  simp only [List.mem_map, List.mem_range]
  constructor
  · rintro ⟨k, hk, rfl⟩
    exact ⟨k, by omega, rfl⟩
  · rintro ⟨k, hk, rfl⟩
    exact ⟨k, by omega, rfl⟩

theorem offset_state_at (x0 y0 x1 y1 : Int) (k : Nat)
    (hk : (k : Int) ≤ max |x1 - x0| |y1 - y0|) :
    BresInv |x1 - x0| |y1 - y0| (offset_state |x1 - x0| |y1 - y0| k) ∧
    (if |y1 - y0| ≤ |x1 - x0| then (offset_state |x1 - x0| |y1 - y0| k).x = k
      else (offset_state |x1 - x0| |y1 - y0| k).y = k) :=
  offset_state_inv _ _ (abs_nonneg _) (abs_nonneg _) k hk

/-- Every visited pixel lies in the bounding box of the two endpoints. -/
theorem line_pixels_box (x0 y0 x1 y1 : Int) (p : Int × Int)
    (hp : p ∈ line_pixels x0 y0 x1 y1) :
    min x0 x1 ≤ p.1 ∧ p.1 ≤ max x0 x1 ∧ min y0 y1 ≤ p.2 ∧ p.2 ≤ max y0 y1 := by
  rw [line_pixels_eq, mem_offset_pixels] at hp
  obtain ⟨k, hk, rfl⟩ := hp
  obtain ⟨⟨hx0, hxa, hy0, hyb, -, -, -⟩, -⟩ := offset_state_at x0 y0 x1 y1 k hk
  have hsx := step_sign_mul_abs x0 x1
  have hsy := step_sign_mul_abs y0 y1
  generalize offset_state |x1 - x0| |y1 - y0| k = st at *
  generalize |x1 - x0| = a at *
  generalize |y1 - y0| = b at *
  simp only
  rcases step_sign_cases x0 x1 with h1 | h1 <;> rcases step_sign_cases y0 y1 with h2 | h2 <;>
    rw [h1] at hsx ⊢ <;> rw [h2] at hsy ⊢ <;> omega

/-- The last visited pixel is the second endpoint. -/
theorem line_pixels_getLast (x0 y0 x1 y1 : Int) :
    (line_pixels x0 y0 x1 y1).getLast? = some (x1, y1) := by
  rw [line_pixels_eq]
  have hM := line_fuel_cast x0 y0 x1 y1
  obtain ⟨n, hn⟩ : ∃ n, line_fuel x0 y0 x1 y1 = n + 1 := ⟨_, rfl⟩
  rw [hn] at hM
  have hnM : (n : Int) = max |x1 - x0| |y1 - y0| := by push_cast at hM; omega
  obtain ⟨hinv, hmaj⟩ := offset_state_at x0 y0 x1 y1 n (le_of_eq hnM)
  have hend := bresInv_major_end _ _ _ hinv (by
    by_cases hba : |y1 - y0| ≤ |x1 - x0|
    · rw [if_pos hba] at hmaj ⊢; rw [max_eq_left hba] at hnM; omega
    · rw [if_neg hba] at hmaj ⊢; rw [max_eq_right (by omega)] at hnM; omega)
  unfold offset_pixels
  rw [hn, List.range_succ, List.map_append, List.map_singleton, List.getLast?_append]
  simp only [List.getLast?_singleton, Option.or_some, Option.some.injEq]
  rw [hend.1, hend.2, step_sign_mul_abs, step_sign_mul_abs]
  simp

/-- The first visited pixel is the first endpoint. -/
theorem line_pixels_head (x0 y0 x1 y1 : Int) :
    (line_pixels x0 y0 x1 y1).head? = some (x0, y0) := by
  rw [line_pixels_eq]
  unfold offset_pixels line_fuel
  rw [List.range_succ_eq_map]
  simp [offset_state]

theorem line_pixels_length (x0 y0 x1 y1 : Int) :
    (line_pixels x0 y0 x1 y1).length = line_fuel x0 y0 x1 y1 := by
  rw [line_pixels_eq]
  simp [offset_pixels]

theorem line_fuel_comm (x0 y0 x1 y1 : Int) :
    line_fuel x1 y1 x0 y0 = line_fuel x0 y0 x1 y1 := by
  unfold line_fuel
  omega

/-- A horizontal segment visits `(x0 + k * sx, y0)` for `k = 0, ..., |x1 - x0|`. -/
theorem line_pixels_horizontal (x0 y0 x1 : Int) :
    line_pixels x0 y0 x1 y0 =
      (List.range (line_fuel x0 y0 x1 y0)).map fun k : Nat =>
        (x0 + step_sign x0 x1 * (k : Int), y0) := by
  rw [line_pixels_eq]
  unfold offset_pixels
  apply List.map_congr_left
  intro k hk
  have hM := line_fuel_cast x0 y0 x1 y0
  rw [List.mem_range] at hk
  obtain ⟨⟨-, -, hy0, hyb, -, -, -⟩, hmaj⟩ := offset_state_at x0 y0 x1 y0 k (by omega)
  simp only [sub_self, abs_zero] at hy0 hyb hmaj ⊢
  rw [if_pos (abs_nonneg _)] at hmaj
  rw [hmaj, show (offset_state |x1 - x0| 0 k).y = 0 by omega]
  simp

/-- A vertical segment visits `(x0, y0 + k * sy)` for `k = 0, ..., |y1 - y0|`. -/
theorem line_pixels_vertical (x0 y0 y1 : Int) :
    line_pixels x0 y0 x0 y1 =
      (List.range (line_fuel x0 y0 x0 y1)).map fun k : Nat =>
        (x0, y0 + step_sign y0 y1 * (k : Int)) := by
  rw [line_pixels_eq]
  unfold offset_pixels
  apply List.map_congr_left
  intro k hk
  have hM := line_fuel_cast x0 y0 x0 y1
  rw [List.mem_range] at hk
  have hst := offset_state_at x0 y0 x0 y1 k (by omega)
  have hb : (0 : Int) ≤ |y1 - y0| := abs_nonneg _
  simp only [sub_self, abs_zero] at hst hM ⊢
  obtain ⟨⟨hx0, hxa, hy0, hyb, -, -, -⟩, hmaj⟩ := hst
  have hx : (offset_state 0 |y1 - y0| k).x = 0 := by omega
  have hy : (offset_state 0 |y1 - y0| k).y = k := by
    by_cases hba : |y1 - y0| ≤ 0
    · rw [if_pos hba] at hmaj
      rw [max_eq_left hba] at hM
      omega
    · rw [if_neg hba] at hmaj
      exact hmaj
  rw [hx, hy]
  simp

/-- A diagonal segment visits `(x0 + k * sx, y0 + k * sy)` for `k = 0, ..., |x1 - x0|`. -/
theorem line_pixels_diagonal (x0 y0 x1 y1 : Int) (hd : |x1 - x0| = |y1 - y0|) :
    line_pixels x0 y0 x1 y1 =
      (List.range (line_fuel x0 y0 x1 y1)).map fun k : Nat =>
        (x0 + step_sign x0 x1 * (k : Int), y0 + step_sign y0 y1 * (k : Int)) := by
  rw [line_pixels_eq]
  unfold offset_pixels
  apply List.map_congr_left
  intro k hk
  have hM := line_fuel_cast x0 y0 x1 y1
  rw [List.mem_range] at hk
  have hst := offset_state_at x0 y0 x1 y1 k (by omega)
  have ha : (0 : Int) ≤ |x1 - x0| := abs_nonneg _
  rw [← hd] at hst hM ⊢
  unfold BresInv at hst
  rw [max_self] at hst hM
  rw [if_pos (le_refl _)] at hst
  obtain ⟨⟨hx0, hxa, hy0, hyb, -, hlo, hhi⟩, hmaj⟩ := hst
  generalize offset_state |x1 - x0| |x1 - x0| k = st at *
  generalize |x1 - x0| = a at *
  have hy : st.y = k := by
    rw [← hmaj]
    by_contra hne
    have hapos : 0 < a := by omega
    rcases Int.lt_or_gt_of_ne hne with hlt | hgt
    · have : a * (st.y + 1) ≤ a * st.x := mul_le_mul_of_nonneg_left (by omega) (by omega)
      nlinarith
    · have : a * (st.x + 1) ≤ a * st.y := mul_le_mul_of_nonneg_left (by omega) (by omega)
      nlinarith
  rw [hy, hmaj]

/-- Swapping the endpoints visits the point reflections about the midpoint, in order. -/
theorem line_pixels_swap (x0 y0 x1 y1 : Int) :
    line_pixels x1 y1 x0 y0 =
      (line_pixels x0 y0 x1 y1).map fun p => (x0 + x1 - p.1, y0 + y1 - p.2) := by
  rw [line_pixels_eq, line_pixels_eq]
  unfold offset_pixels
  rw [List.map_map, line_fuel_comm, abs_sub_comm x0 x1, abs_sub_comm y0 y1]
  apply List.map_congr_left
  intro k hk
  have hM := line_fuel_cast x0 y0 x1 y1
  rw [List.mem_range] at hk
  obtain ⟨⟨hx0, hxa, hy0, hyb, -, -, -⟩, -⟩ := offset_state_at x0 y0 x1 y1 k (by omega)
  have hsx := step_sign_mul_abs x0 x1
  have hsy := step_sign_mul_abs y0 y1
  simp only [Function.comp_apply, Prod.mk.injEq]
  generalize offset_state |x1 - x0| |y1 - y0| k = st at *
  generalize |x1 - x0| = a at *
  generalize |y1 - y0| = b at *
  unfold step_sign at *
  constructor
  · by_cases h1 : x0 < x1
    · rw [if_pos h1] at hsx ⊢; rw [if_neg (by omega)]; omega
    · by_cases h2 : x1 < x0
      · rw [if_neg h1] at hsx ⊢; rw [if_pos h2]; omega
      · rw [if_neg h1] at hsx ⊢; rw [if_neg h2]; omega
  · by_cases h1 : y0 < y1
    · rw [if_pos h1] at hsy ⊢; rw [if_neg (by omega)]; omega
    · by_cases h2 : y1 < y0
      · rw [if_neg h1] at hsy ⊢; rw [if_pos h2]; omega
      · rw [if_neg h1] at hsy ⊢; rw [if_neg h2]; omega

/-- No pixel is visited twice. -/
theorem line_pixels_nodup (x0 y0 x1 y1 : Int) : (line_pixels x0 y0 x1 y1).Nodup := by
  rw [line_pixels_eq]
  unfold offset_pixels
  refine List.Nodup.map_on ?_ (List.nodup_range _)
  intro k hk k' hk' heq
  have hM := line_fuel_cast x0 y0 x1 y1
  rw [List.mem_range] at hk hk'
  obtain ⟨-, hmaj⟩ := offset_state_at x0 y0 x1 y1 k (by omega)
  obtain ⟨-, hmaj'⟩ := offset_state_at x0 y0 x1 y1 k' (by omega)
  simp only [Prod.mk.injEq] at heq
  obtain ⟨hx, hy⟩ := heq
  generalize offset_state |x1 - x0| |y1 - y0| k = st at *
  generalize offset_state |x1 - x0| |y1 - y0| k' = st' at *
  by_cases hba : |y1 - y0| ≤ |x1 - x0|
  · rw [if_pos hba] at hmaj hmaj'
    rcases step_sign_cases x0 x1 with h | h <;> rw [h] at hx <;> omega
  · rw [if_neg hba] at hmaj hmaj'
    rcases step_sign_cases y0 y1 with h | h <;> rw [h] at hy <;> omega

/-- Visits outside the image leave the buffer as it is. -/
theorem fold_plot_outside (width height channel : Int) (color : List Nat)
    (ps : List (Int × Int)) (hout : ∀ p ∈ ps, ¬in_image width height p) (img : List Nat) :
    foldOutcome (plot width height channel color) img ps = .ok img := by
  induction ps with
  | nil => rfl
  | cons p ps ih =>
    have hp : plot width height channel color img p = .ok img := by
      unfold plot
      rw [if_neg (hout p (List.mem_cons_self p ps))]
    rw [foldOutcome, hp]
    exact ih (fun q hq => hout q (List.mem_cons_of_mem p hq))

theorem fold_plot_error (width height channel : Int) (color : List Nat)
    (ps : List (Int × Int)) (img : List Nat) (e : DrawError)
    (h : foldOutcome (plot width height channel color) img ps = .error e) :
    e = .outOfRange := by
  rw [fold_plot_eq_fold_put] at h
  exact fold_put_error color _ img e h

/-- The effect of the bounds-checked writes along a list of pixels on a buffer of at least
`height * width * channel` bytes with a color of at least `channel` bytes: the run returns
a buffer of the same length in which every channel byte of every listed pixel inside the
image holds its color byte, and every byte that is not one of those is as before. -/
theorem fold_plot_spec (width height channel : Int) (color : List Nat)
    (ps : List (Int × Int)) (img : List Nat)
    (hlen : height * width * channel ≤ (img.length : Int))
    (hcol : channel ≤ (color.length : Int)) :
    ∃ img2, foldOutcome (plot width height channel color) img ps = .ok img2 ∧
      img2.length = img.length ∧
      (∀ p ∈ ps, in_image width height p → ∀ i : Nat, (i : Int) < channel →
        ∃ v, color[i]? = some v ∧
          img2[(p.2 * width * channel + p.1 * channel + (i : Int)).toNat]? = some v) ∧
      (∀ j : Nat, (∀ p ∈ ps, in_image width height p → ∀ i : Nat, (i : Int) < channel →
        (j : Int) ≠ p.2 * width * channel + p.1 * channel + (i : Int)) →
        img2[j]? = img[j]?) := by
  have hmem : ∀ o ∈ ps.flatMap (pixel_ops width height channel),
      ∃ p ∈ ps, o ∈ pixel_ops width height channel p := fun o ho => List.mem_flatMap.1 ho
  obtain ⟨img2, hrun⟩ := fold_put_ok color (ps.flatMap (pixel_ops width height channel)) img
    (fun o ho => by
      obtain ⟨p, -, hop⟩ := hmem o ho
      obtain ⟨h0, h1⟩ := pixel_ops_bound _ _ _ _ _ hop
      obtain ⟨-, hlt, -⟩ := (mem_pixel_ops _ _ _ _ _).1 hop
      exact ⟨h0, by omega, by omega⟩)
  refine ⟨img2, by rw [fold_plot_eq_fold_put]; exact hrun, fold_put_length color _ img img2 hrun,
    ?_, ?_⟩
  · intro p hp hin i hi
    have ho : ((p.2 * width * channel + p.1 * channel + (i : Int), i) : Int × Nat) ∈
        ps.flatMap (pixel_ops width height channel) :=
      List.mem_flatMap.2 ⟨p, hp, (mem_pixel_ops _ _ _ _ _).2 ⟨hin, hi, rfl⟩⟩
    refine fold_put_written color _ img img2 hrun ?_ _ ho
    intro o1 ho1 o2 ho2 heq
    obtain ⟨p1, -, hop1⟩ := hmem o1 ho1
    obtain ⟨p2, -, hop2⟩ := hmem o2 ho2
    have h1 := pixel_ops_channel _ _ _ _ _ hop1
    have h2 := pixel_ops_channel _ _ _ _ _ hop2
    have : o1.2 = o2.2 := by rw [heq] at h1; omega
    rw [this]
  · intro j hj
    refine fold_put_frame color _ img img2 hrun j ?_
    intro o ho heq
    obtain ⟨p, hp, hop⟩ := hmem o ho
    obtain ⟨hin, hlt, hidx⟩ := (mem_pixel_ops _ _ _ _ _).1 hop
    exact hj p hp hin o.2 hlt (by rw [← heq, hidx])

/-- C3 (termination): for all integer endpoints, with `line_fuel` iterations or more the
stepping loop reaches `(x1, y1)` and stops there, and for every width, height, channel
count, buffer and color the run of `draw_line` does not run out of iterations: the bounds
check plays no part in the progress of the loop. -/
theorem draw_line_terminates (fuel : Nat) (x0 y0 x1 y1 : Int)
    (hfuel : line_fuel x0 y0 x1 y1 ≤ fuel) :
    (∃ ps, visited fuel x0 y0 x1 y1 = some ps ∧ ps.getLast? = some (x1, y1)) ∧
    ∀ (img : List Nat) (width height channel : Int) (color : List Nat),
      draw_line fuel img width height channel x0 y0 x1 y1 color ≠ .error .outOfFuel := by
  refine ⟨⟨_, visited_eq_line_pixels fuel x0 y0 x1 y1 hfuel, line_pixels_getLast x0 y0 x1 y1⟩, ?_⟩
  intro img width height channel color h
  rw [draw_line_eq_fold fuel img width height channel x0 y0 x1 y1 color hfuel] at h
  have := fold_plot_error _ _ _ _ _ _ _ h
  cases this

theorem draw_line_terminates_witness :
    line_fuel (-50) (-50) (-40) (-47) ≤ 11 ∧
    ((∃ ps, visited 11 (-50) (-50) (-40) (-47) = some ps ∧ ps.getLast? = some (-40, -47)) ∧
    ∀ (img : List Nat) (width height channel : Int) (color : List Nat),
      draw_line 11 img width height channel (-50) (-50) (-40) (-47) color ≠
        .error .outOfFuel) :=
  ⟨by decide, draw_line_terminates 11 (-50) (-50) (-40) (-47) (by decide)⟩

/-- Over unbounded integers (bounds safety): every pixel visited lies in the bounding box of the
two endpoints, so a segment with both endpoints beyond the same edge of the image (both `x < 0`,
both `x >= width`, both `y < 0` or both `y >= height`) returns normally with the buffer
unchanged, whatever the geometry, the buffer and the color. -/
theorem draw_line_outside_unchanged (fuel : Nat) (img : List Nat)
    (width height channel x0 y0 x1 y1 : Int) (color : List Nat)
    (hfuel : line_fuel x0 y0 x1 y1 ≤ fuel)
    (hout : (x0 < 0 ∧ x1 < 0) ∨ (width ≤ x0 ∧ width ≤ x1) ∨ (y0 < 0 ∧ y1 < 0) ∨
      (height ≤ y0 ∧ height ≤ y1)) :
    (∃ ps, visited fuel x0 y0 x1 y1 = some ps ∧
      ∀ p ∈ ps, min x0 x1 ≤ p.1 ∧ p.1 ≤ max x0 x1 ∧ min y0 y1 ≤ p.2 ∧ p.2 ≤ max y0 y1 ∧
        ¬in_image width height p) ∧
    draw_line fuel img width height channel x0 y0 x1 y1 color = .ok img := by
  have hbox : ∀ p ∈ line_pixels x0 y0 x1 y1,
      min x0 x1 ≤ p.1 ∧ p.1 ≤ max x0 x1 ∧ min y0 y1 ≤ p.2 ∧ p.2 ≤ max y0 y1 ∧
        ¬in_image width height p := by
    intro p hp
    obtain ⟨h1, h2, h3, h4⟩ := line_pixels_box x0 y0 x1 y1 p hp
    refine ⟨h1, h2, h3, h4, ?_⟩
    unfold in_image
    omega
  refine ⟨⟨_, visited_eq_line_pixels fuel x0 y0 x1 y1 hfuel, hbox⟩, ?_⟩
  rw [draw_line_eq_fold fuel img width height channel x0 y0 x1 y1 color hfuel]
  exact fold_plot_outside _ _ _ _ _ (fun p hp => (hbox p hp).2.2.2.2) img

theorem byte_at_natCast (img : List Nat) (j : Nat) : byte_at img (j : Int) = img[j]? := by
  unfold byte_at
  rw [if_pos (Int.ofNat_nonneg j), Int.toNat_ofNat]

theorem byte_at_neg (img : List Nat) (j : Int) (h : j < 0) : byte_at img j = none := by
  unfold byte_at
  rw [if_neg (by omega)]

theorem line_pixels_point (x0 y0 : Int) : line_pixels x0 y0 x0 y0 = [(x0, y0)] := by
  rw [line_pixels_horizontal]
  simp [line_fuel, List.range_succ]

/-- Over unbounded integers (horizontal/vertical exactness): a horizontal segment visits exactly
the pixels `(x, y0)` with `min x0 x1 <= x <= max x0 x1`, a vertical segment exactly the pixels
`(x0, y)` with `min y0 y1 <= y <= max y0 y1`, whatever the fuel above `line_fuel`; and
`(0,0,9,0)` on a width-10 height-1 single-channel buffer, `(0,0,0,9)` on a width-1 height-10
single-channel buffer each set all 10 bytes to the color byte. -/
theorem draw_line_axis_aligned_exact (fuel : Nat) (x0 y0 x1 y1 : Int)
    (hfuel : line_fuel x0 y0 x1 y1 ≤ fuel) :
    (∃ ps, visited fuel x0 y0 x1 y1 = some ps ∧
      (y0 = y1 → ∀ p : Int × Int,
        p ∈ ps ↔ (p.2 = y0 ∧ min x0 x1 ≤ p.1 ∧ p.1 ≤ max x0 x1)) ∧
      (x0 = x1 → ∀ p : Int × Int,
        p ∈ ps ↔ (p.1 = x0 ∧ min y0 y1 ≤ p.2 ∧ p.2 ≤ max y0 y1))) ∧
    (∀ c : Nat, draw_line 10 (List.replicate 10 0) 10 1 1 0 0 9 0 [c] =
      .ok (List.replicate 10 c)) ∧
    (∀ c : Nat, draw_line 10 (List.replicate 10 0) 1 10 1 0 0 0 9 [c] =
      .ok (List.replicate 10 c)) := by
  refine ⟨⟨_, visited_eq_line_pixels fuel x0 y0 x1 y1 hfuel, ?_, ?_⟩, ?_, ?_⟩
  · rintro rfl p
    rw [line_pixels_horizontal]
    have hM := line_fuel_cast x0 y0 x1 y0
    have hsx := step_sign_mul_abs x0 x1
    have ha : (0 : Int) ≤ |x1 - x0| := abs_nonneg _
    simp only [sub_self, abs_zero] at hM
    simp only [List.mem_map, List.mem_range]
    generalize |x1 - x0| = a at *
    generalize line_fuel x0 y0 x1 y0 = n at *
    constructor
    · rintro ⟨k, hk, rfl⟩
      simp only
      rcases step_sign_cases x0 x1 with h | h <;> rw [h] at hsx ⊢ <;>
        refine ⟨trivial, ?_, ?_⟩ <;> omega
    · rintro ⟨h2, hlo, hhi⟩
      refine ⟨(p.1 - x0).natAbs, ?_, Prod.ext ?_ h2.symm⟩
      · rcases step_sign_cases x0 x1 with h | h <;> rw [h] at hsx <;> omega
      · simp only
        rcases step_sign_cases x0 x1 with h | h <;> rw [h] at hsx ⊢ <;> omega
  · rintro rfl p
    rw [line_pixels_vertical]
    have hM := line_fuel_cast x0 y0 x0 y1
    have hsy := step_sign_mul_abs y0 y1
    have hb : (0 : Int) ≤ |y1 - y0| := abs_nonneg _
    simp only [sub_self, abs_zero] at hM
    simp only [List.mem_map, List.mem_range]
    generalize |y1 - y0| = b at *
    generalize line_fuel x0 y0 x0 y1 = n at *
    constructor
    · rintro ⟨k, hk, rfl⟩
      simp only
      rcases step_sign_cases y0 y1 with h | h <;> rw [h] at hsy ⊢ <;>
        refine ⟨trivial, ?_, ?_⟩ <;> omega
    · rintro ⟨h1, hlo, hhi⟩
      refine ⟨(p.2 - y0).natAbs, ?_, Prod.ext h1.symm ?_⟩
      · rcases step_sign_cases y0 y1 with h | h <;> rw [h] at hsy <;> omega
      · simp only
        rcases step_sign_cases y0 y1 with h | h <;> rw [h] at hsy ⊢ <;> omega
  · intro c; rfl
  · intro c; rfl

/-- Over unbounded integers (diagonal connectivity): on a segment with `|x1 - x0| = |y1 - y0|`
the visited pixels are, in order, `(x0 + k * sx, y0 + k * sy)` for `k = 0, ..., |x1 - x0|`, with
`sx`, `sy` in `{1, -1}`; consecutive pixels differ by exactly `(sx, sy)`. -/
theorem draw_line_diagonal_connected (fuel : Nat) (x0 y0 x1 y1 : Int)
    (hfuel : line_fuel x0 y0 x1 y1 ≤ fuel) (hd : |x1 - x0| = |y1 - y0|) :
    ∃ ps, visited fuel x0 y0 x1 y1 = some ps ∧
      ps = (List.range ((x1 - x0).natAbs + 1)).map (fun k : Nat =>
        (x0 + (k : Int) * step_sign x0 x1, y0 + (k : Int) * step_sign y0 y1)) ∧
      List.Chain' (fun p q : Int × Int =>
        q.1 - p.1 = step_sign x0 x1 ∧ q.2 - p.2 = step_sign y0 y1) ps ∧
      (step_sign x0 x1 = 1 ∨ step_sign x0 x1 = -1) ∧
      (step_sign y0 y1 = 1 ∨ step_sign y0 y1 = -1) := by
  have hform : line_pixels x0 y0 x1 y1 =
      (List.range ((x1 - x0).natAbs + 1)).map (fun k : Nat =>
        (x0 + (k : Int) * step_sign x0 x1, y0 + (k : Int) * step_sign y0 y1)) := by
    rw [line_pixels_diagonal x0 y0 x1 y1 hd]
    have hn : line_fuel x0 y0 x1 y1 = (x1 - x0).natAbs + 1 := by
      unfold line_fuel
      have h1 : ((x1 - x0).natAbs : Int) = |x1 - x0| := Int.natCast_natAbs _
      have h2 : ((y1 - y0).natAbs : Int) = |y1 - y0| := Int.natCast_natAbs _
      omega
    rw [hn]
    apply List.map_congr_left
    intro k _
    rw [mul_comm (step_sign x0 x1), mul_comm (step_sign y0 y1)]
  refine ⟨_, visited_eq_line_pixels fuel x0 y0 x1 y1 hfuel, hform, ?_,
    step_sign_cases x0 x1, step_sign_cases y0 y1⟩
  rw [hform, List.chain'_map, List.chain'_range_succ]
  intro m _
  constructor <;> (simp only; push_cast; ring)

/-- Equal addresses of channel bytes carry equal channel numbers. -/
theorem pixel_ops_consistent (width height channel : Int) (color : List Nat)
    (ps : List (Int × Int)) :
    ∀ o1 ∈ ps.flatMap (pixel_ops width height channel),
      ∀ o2 ∈ ps.flatMap (pixel_ops width height channel),
        o1.1 = o2.1 → color[o1.2]? = color[o2.2]? := by
  intro o1 ho1 o2 ho2 heq
  obtain ⟨p1, -, hop1⟩ := List.mem_flatMap.1 ho1
  obtain ⟨p2, -, hop2⟩ := List.mem_flatMap.1 ho2
  have h1 := pixel_ops_channel _ _ _ _ _ hop1
  have h2 := pixel_ops_channel _ _ _ _ _ hop2
  have : o1.2 = o2.2 := by rw [heq] at h1; omega
  rw [this]

/-- The bounds-checked writes along a list of pixels do not depend on the order of the
list. -/
theorem fold_plot_perm (width height channel : Int) (color : List Nat)
    {ps qs : List (Int × Int)} (hp : ps.Perm qs) (img : List Nat) :
    foldOutcome (plot width height channel color) img ps =
      foldOutcome (plot width height channel color) img qs := by
  rw [fold_plot_eq_fold_put, fold_plot_eq_fold_put]
  exact fold_put_perm color (hp.flatMap_right _)
    (pixel_ops_consistent width height channel color ps) img

/-- On a horizontal, vertical or diagonal segment the visited set is symmetric about the
midpoint of the segment. -/
theorem line_pixels_symmetric (x0 y0 x1 y1 : Int)
    (h : x0 = x1 ∨ y0 = y1 ∨ |x1 - x0| = |y1 - y0|) (p : Int × Int)
    (hp : p ∈ line_pixels x0 y0 x1 y1) :
    (x0 + x1 - p.1, y0 + y1 - p.2) ∈ line_pixels x0 y0 x1 y1 := by
  have hM := line_fuel_cast x0 y0 x1 y1
  have hsx := step_sign_mul_abs x0 x1
  have hsy := step_sign_mul_abs y0 y1
  have ha : (0 : Int) ≤ |x1 - x0| := abs_nonneg _
  have hb : (0 : Int) ≤ |y1 - y0| := abs_nonneg _
  rcases h with rfl | rfl | hd
  · rw [line_pixels_vertical] at hp ⊢
    simp only [sub_self, abs_zero] at hM
    simp only [List.mem_map, List.mem_range] at hp ⊢
    obtain ⟨k, hk, rfl⟩ := hp
    refine ⟨line_fuel x0 y0 x0 y1 - 1 - k, by omega, ?_⟩
    generalize |y1 - y0| = b at *
    generalize line_fuel x0 y0 x0 y1 = n at *
    simp only [Prod.mk.injEq]
    refine ⟨by omega, ?_⟩
    rcases step_sign_cases y0 y1 with h | h <;> rw [h] at hsy ⊢ <;> omega
  · rw [line_pixels_horizontal] at hp ⊢
    simp only [sub_self, abs_zero] at hM
    simp only [List.mem_map, List.mem_range] at hp ⊢
    obtain ⟨k, hk, rfl⟩ := hp
    refine ⟨line_fuel x0 y0 x1 y0 - 1 - k, by omega, ?_⟩
    generalize |x1 - x0| = a at *
    generalize line_fuel x0 y0 x1 y0 = n at *
    simp only [Prod.mk.injEq]
    refine ⟨?_, by omega⟩
    rcases step_sign_cases x0 x1 with h | h <;> rw [h] at hsx ⊢ <;> omega
  · rw [line_pixels_diagonal x0 y0 x1 y1 hd] at hp ⊢
    rw [← hd, max_self] at hM
    rw [← hd] at hsy
    simp only [List.mem_map, List.mem_range] at hp ⊢
    obtain ⟨k, hk, rfl⟩ := hp
    refine ⟨line_fuel x0 y0 x1 y1 - 1 - k, by omega, ?_⟩
    generalize |x1 - x0| = a at *
    generalize line_fuel x0 y0 x1 y1 = n at *
    simp only [Prod.mk.injEq]
    constructor
    · rcases step_sign_cases x0 x1 with h | h <;> rw [h] at hsx ⊢ <;> omega
    · rcases step_sign_cases y0 y1 with h | h <;> rw [h] at hsy ⊢ <;> omega

/-- Over unbounded integers (symmetry): swapping the endpoints visits, in order, the point
reflections `(x0 + x1 - x, y0 + y1 - y)` of the pixels visited before. Whenever the two calls
visit the same set of pixels they give the same outcome from the same buffer and color, for
every geometry; and they visit the same set on every horizontal, vertical and diagonal
segment. -/
theorem draw_line_swap_endpoints (fuel : Nat) (img : List Nat)
    (width height channel x0 y0 x1 y1 : Int) (color : List Nat)
    (hfuel : line_fuel x0 y0 x1 y1 ≤ fuel) :
    ∃ ps qs, visited fuel x0 y0 x1 y1 = some ps ∧ visited fuel x1 y1 x0 y0 = some qs ∧
      qs = ps.map (fun p => (x0 + x1 - p.1, y0 + y1 - p.2)) ∧
      ((∀ p, p ∈ qs ↔ p ∈ ps) →
        draw_line fuel img width height channel x1 y1 x0 y0 color =
          draw_line fuel img width height channel x0 y0 x1 y1 color) ∧
      ((x0 = x1 ∨ y0 = y1 ∨ |x1 - x0| = |y1 - y0|) → ∀ p, p ∈ qs ↔ p ∈ ps) := by
  have hfuel2 : line_fuel x1 y1 x0 y0 ≤ fuel := by rw [line_fuel_comm]; exact hfuel
  refine ⟨_, _, visited_eq_line_pixels fuel x0 y0 x1 y1 hfuel,
    visited_eq_line_pixels fuel x1 y1 x0 y0 hfuel2, line_pixels_swap x0 y0 x1 y1, ?_, ?_⟩
  · intro hset
    rw [draw_line_eq_fold fuel img width height channel x0 y0 x1 y1 color hfuel,
      draw_line_eq_fold fuel img width height channel x1 y1 x0 y0 color hfuel2]
    exact fold_plot_perm width height channel color
      ((List.perm_ext_iff_of_nodup (line_pixels_nodup x1 y1 x0 y0)
        (line_pixels_nodup x0 y0 x1 y1)).2 hset) img
  · intro hspecial p
    rw [line_pixels_swap x0 y0 x1 y1, List.mem_map]
    constructor
    · rintro ⟨q, hq, rfl⟩
      exact line_pixels_symmetric x0 y0 x1 y1 hspecial q hq
    · intro hp
      exact ⟨_, line_pixels_symmetric x0 y0 x1 y1 hspecial p hp, by simp⟩

theorem put_congr_color (color color2 img : List Nat) (o : Int × Nat)
    (h : color[o.2]? = color2[o.2]?) : put color img o = put color2 img o := by
  unfold put
  rw [h]

/-- The write of a pixel reads the color only below `channel`. -/
theorem plot_congr_color (width height channel : Int) (color color2 : List Nat)
    (h : ∀ i : Nat, (i : Int) < channel → color[i]? = color2[i]?) (img : List Nat)
    (p : Int × Int) :
    plot width height channel color img p = plot width height channel color2 img p := by
  rw [plot_eq_fold_put, plot_eq_fold_put]
  exact foldOutcome_congr _ _ _
    (fun o ho im => put_congr_color color color2 im o
      (h o.2 ((mem_pixel_ops _ _ _ _ _).1 ho).2.1)) img

theorem draw_line_loop_congr_color (width height channel x1 y1 dx dy sx sy : Int)
    (color color2 : List Nat)
    (h : ∀ i : Nat, (i : Int) < channel → color[i]? = color2[i]?) :
    ∀ (fuel : Nat) (img : List Nat) (s : LineState),
      draw_line_loop width height channel x1 y1 dx dy sx sy color fuel img s =
        draw_line_loop width height channel x1 y1 dx dy sx sy color2 fuel img s := by
  intro fuel
  induction fuel with
  | zero => intro img s; rfl
  | succ f ih =>
    intro img s
    rw [draw_line_loop, draw_line_loop, plot_congr_color width height channel color color2 h]
    cases plot width height channel color2 img (s.x, s.y) with
    | error e => rfl
    | ok img1 =>
      simp only [Outcome.andThen]
      by_cases hend : s.x = x1 ∧ s.y = y1
      · rw [if_pos hend, if_pos hend]
      · rw [if_neg hend, if_neg hend]
        exact ih img1 _

theorem foldOutcome_congr_all {α : Type} (f g : List Nat → α → Outcome)
    (h : ∀ img a, f img a = g img a) (l : List α) (img : List Nat) :
    foldOutcome f img l = foldOutcome g img l :=
  foldOutcome_congr f g l (fun a _ im => h im a) img

/-- A pixel inside the image cannot be written from a color shorter than `channel`. -/
theorem fold_put_fault (color : List Nat) (o : Int × Nat) (hc : color[o.2]? = none) :
    ∀ (ops : List (Int × Nat)), o ∈ ops → ∀ img,
      foldOutcome (put color) img ops = .error .outOfRange := by
  intro ops
  induction ops with
  | nil => intro h; cases h
  | cons o1 ops ih =>
    intro hmem img
    rw [foldOutcome]
    cases hp : put color img o1 with
    | error e => rw [put_error color img o1 e hp]; rfl
    | ok img1 =>
      rcases List.mem_cons.1 hmem with rfl | h
      · obtain ⟨c, hc1, -⟩ := (put_ok_iff color img o img1).1 hp
        rw [hc] at hc1
        cases hc1
      · exact ih h img1

theorem fold_plot_short_color (width height channel : Int) (color : List Nat)
    (hshort : (color.length : Int) < channel) (ps : List (Int × Int)) (p : Int × Int)
    (hp : p ∈ ps) (hin : in_image width height p) (img : List Nat) :
    foldOutcome (plot width height channel color) img ps = .error .outOfRange := by
  rw [fold_plot_eq_fold_put]
  refine fold_put_fault color
    (p.2 * width * channel + p.1 * channel + (color.length : Int), color.length) ?_ _ ?_ img
  · simp
  · exact List.mem_flatMap.2 ⟨p, hp, (mem_pixel_ops _ _ _ _ _).2 ⟨hin, hshort, rfl⟩⟩

/-- With a non-positive width, height or channel count there is nothing to write. -/
theorem fold_plot_degenerate (width height channel : Int) (color : List Nat)
    (hdeg : height ≤ 0 ∨ width ≤ 0 ∨ channel ≤ 0) (ps : List (Int × Int)) (img : List Nat) :
    foldOutcome (plot width height channel color) img ps = .ok img := by
  have hnil : ps.flatMap (pixel_ops width height channel) = [] := by
    rw [List.flatMap_eq_nil_iff]
    intro p _
    rw [List.eq_nil_iff_forall_not_mem]
    intro o ho
    obtain ⟨⟨h1, h2, h3, h4⟩, h5, -⟩ := (mem_pixel_ops _ _ _ _ _).1 ho
    have : (0 : Int) ≤ (o.2 : Int) := Int.ofNat_nonneg _
    omega
  rw [fold_plot_eq_fold_put, hnil]
  rfl

/-- The early-stopping fold is the plain left fold that threads the outcome. -/
theorem foldl_andThen_eq {α : Type} (f : List Nat → α → Outcome) (l : List α) :
    ∀ acc : Outcome,
      l.foldl (fun (r : Outcome) a => r.andThen fun im => f im a) acc =
        acc.andThen fun im => foldOutcome f im l := by
  induction l with
  | nil => intro acc; cases acc <;> rfl
  | cons a l ih =>
    intro acc
    rw [List.foldl_cons, ih]
    cases acc <;> rfl

theorem shape_channel_cons_cons (height width : Int) (rest : List Int) :
    shape_channel (height :: width :: rest) =
      (match rest with
        | [c] => c
        | _ => 1) := by
  unfold shape_channel
  match rest with
  | [] => rfl
  | [c] => rfl
  | _ :: _ :: r =>
    simp only [List.length_cons]
    rw [if_neg (by omega)]

/-- Over unbounded integers (endpoint inclusion): the visited sequence starts with `(x0, y0)`
and ends with `(x1, y1)`; on a buffer of at least `height * width * channel` bytes with a color
of `channel` bytes the call returns a buffer in which each endpoint inside the image holds the
color in all its channel bytes. -/
theorem draw_line_endpoints (fuel : Nat) (img : List Nat)
    (width height channel x0 y0 x1 y1 : Int) (color : List Nat)
    (hfuel : line_fuel x0 y0 x1 y1 ≤ fuel)
    (hlen : height * width * channel ≤ (img.length : Int))
    (hcol : (color.length : Int) = channel) :
    (∃ ps, visited fuel x0 y0 x1 y1 = some ps ∧ ps.head? = some (x0, y0) ∧
      ps.getLast? = some (x1, y1)) ∧
    ∃ img2, draw_line fuel img width height channel x0 y0 x1 y1 color = .ok img2 ∧
      (in_image width height (x0, y0) → ∀ i : Nat, (i : Int) < channel →
        ∃ v, color[i]? = some v ∧
          byte_at img2 (y0 * width * channel + x0 * channel + (i : Int)) = some v) ∧
      (in_image width height (x1, y1) → ∀ i : Nat, (i : Int) < channel →
        ∃ v, color[i]? = some v ∧
          byte_at img2 (y1 * width * channel + x1 * channel + (i : Int)) = some v) := by
  refine ⟨⟨_, visited_eq_line_pixels fuel x0 y0 x1 y1 hfuel, line_pixels_head x0 y0 x1 y1,
    line_pixels_getLast x0 y0 x1 y1⟩, ?_⟩
  obtain ⟨img2, hrun, -, hset, -⟩ := fold_plot_spec width height channel color
    (line_pixels x0 y0 x1 y1) img hlen (le_of_eq hcol.symm)
  have hbyte : ∀ p ∈ line_pixels x0 y0 x1 y1, in_image width height p →
      ∀ i : Nat, (i : Int) < channel → ∃ v, color[i]? = some v ∧
        byte_at img2 (p.2 * width * channel + p.1 * channel + (i : Int)) = some v := by
    intro p hp hin i hi
    obtain ⟨v, hv, hb⟩ := hset p hp hin i hi
    refine ⟨v, hv, ?_⟩
    have h0 := (pixel_ops_bound width height channel p
      (p.2 * width * channel + p.1 * channel + (i : Int), i)
      ((mem_pixel_ops _ _ _ _ _).2 ⟨hin, hi, rfl⟩)).1
    unfold byte_at
    rw [if_pos h0, hb]
  refine ⟨img2, ?_, ?_, ?_⟩
  · rw [draw_line_eq_fold fuel img width height channel x0 y0 x1 y1 color hfuel, hrun]
  · exact hbyte (x0, y0) (List.mem_of_mem_head? (line_pixels_head x0 y0 x1 y1))
  · exact hbyte (x1, y1) (List.mem_of_getLast?_eq_some (line_pixels_getLast x0 y0 x1 y1))

/-- Before the last iteration the state is not the end of the segment. -/
theorem offset_state_not_end (x0 y0 x1 y1 : Int) (k : Nat)
    (hk : (k : Int) < max |x1 - x0| |y1 - y0|) :
    ¬((offset_state |x1 - x0| |y1 - y0| k).x = |x1 - x0| ∧
      (offset_state |x1 - x0| |y1 - y0| k).y = |y1 - y0|) := by
  obtain ⟨-, hmaj⟩ := offset_state_at x0 y0 x1 y1 k (le_of_lt hk)
  rintro ⟨hx, hy⟩
  by_cases hba : |y1 - y0| ≤ |x1 - x0|
  · rw [if_pos hba] at hmaj
    rw [max_eq_left hba] at hk
    omega
  · rw [if_neg hba] at hmaj
    rw [max_eq_right (by omega)] at hk
    omega

/-- Over unbounded integers (8-connectivity): consecutive visited pixels differ by at most one
in each coordinate and are never equal. -/
theorem draw_line_eight_connected (fuel : Nat) (x0 y0 x1 y1 : Int)
    (hfuel : line_fuel x0 y0 x1 y1 ≤ fuel) :
    ∃ ps, visited fuel x0 y0 x1 y1 = some ps ∧
      List.Chain' (fun p q : Int × Int =>
        |q.1 - p.1| ≤ 1 ∧ |q.2 - p.2| ≤ 1 ∧ q ≠ p) ps := by
  refine ⟨_, visited_eq_line_pixels fuel x0 y0 x1 y1 hfuel, ?_⟩
  rw [line_pixels_eq]
  unfold offset_pixels
  have hM := line_fuel_cast x0 y0 x1 y1
  obtain ⟨n, hn⟩ : ∃ n, line_fuel x0 y0 x1 y1 = n + 1 := ⟨_, rfl⟩
  rw [hn] at hM ⊢
  rw [List.chain'_map, List.chain'_range_succ]
  intro m hm
  have hmM : (m : Int) < max |x1 - x0| |y1 - y0| := by push_cast at hM; omega
  obtain ⟨hinv, -⟩ := offset_state_at x0 y0 x1 y1 m (le_of_lt hmM)
  obtain ⟨-, hmaj, hx, hy⟩ := bresInv_step _ _ _ hinv (offset_state_not_end x0 y0 x1 y1 m hmM)
  rw [← offset_state_succ] at hmaj hx hy
  generalize offset_state |x1 - x0| |y1 - y0| (m + 1) = st2 at *
  generalize offset_state |x1 - x0| |y1 - y0| m = st at *
  simp only [abs_le, ne_eq, Prod.mk.injEq]
  by_cases hba : |y1 - y0| ≤ |x1 - x0|
  · rw [if_pos hba] at hmaj
    rcases step_sign_cases x0 x1 with h1 | h1 <;> rcases step_sign_cases y0 y1 with h2 | h2 <;>
      rw [h1, h2] <;> refine ⟨?_, ?_, ?_⟩ <;> omega
  · rw [if_neg hba] at hmaj
    rcases step_sign_cases x0 x1 with h1 | h1 <;> rcases step_sign_cases y0 y1 with h2 | h2 <;>
      rw [h1, h2] <;> refine ⟨?_, ?_, ?_⟩ <;> omega

/-- Over unbounded integers (Bresenham accuracy): every visited pixel `(x, y)` is within half a
pixel of the ideal line along the minor axis:
`2 * |(x - x0) * (y1 - y0) - (y - y0) * (x1 - x0)| <= max |x1 - x0| |y1 - y0|`. -/
theorem draw_line_accuracy (fuel : Nat) (x0 y0 x1 y1 : Int)
    (hfuel : line_fuel x0 y0 x1 y1 ≤ fuel) :
    ∃ ps, visited fuel x0 y0 x1 y1 = some ps ∧
      ∀ p ∈ ps, 2 * |(p.1 - x0) * (y1 - y0) - (p.2 - y0) * (x1 - x0)| ≤
        max |x1 - x0| |y1 - y0| := by
  refine ⟨_, visited_eq_line_pixels fuel x0 y0 x1 y1 hfuel, ?_⟩
  intro p hp
  rw [line_pixels_eq, mem_offset_pixels] at hp
  obtain ⟨k, hk, rfl⟩ := hp
  obtain ⟨⟨-, -, -, -, -, hlo, hhi⟩, -⟩ := offset_state_at x0 y0 x1 y1 k hk
  have hsx := step_sign_mul_abs x0 x1
  have hsy := step_sign_mul_abs y0 y1
  generalize offset_state |x1 - x0| |y1 - y0| k = st at *
  generalize max |x1 - x0| |y1 - y0| = M at *
  rw [← hsx, ← hsy]
  generalize |x1 - x0| = a at *
  generalize |y1 - y0| = b at *
  simp only
  have h2 : (2 : Int) = |2| := by simp
  rw [h2, ← abs_mul, abs_le]
  rcases step_sign_cases x0 x1 with h1 | h1 <;> rcases step_sign_cases y0 y1 with h3 | h3 <;>
    rw [h1, h3] <;> constructor <;> nlinarith

/-- The loop runs out of fuel when the break test fails on the first `n` iterates and the
fuel is at most `n`. -/
theorem line_pixels_loop_none (x1 y1 dx dy sx sy : Int) :
    ∀ (fuel n : Nat) (s : LineState),
      (∀ k < n, ¬(((bresenham_step dx dy sx sy)^[k] s).x = x1 ∧
        ((bresenham_step dx dy sx sy)^[k] s).y = y1)) →
      fuel ≤ n → line_pixels_loop x1 y1 dx dy sx sy fuel s = none := by
  intro fuel
  induction fuel with
  | zero => intro n s _ _; rfl
  | succ f ih =>
    intro n s hbefore hle
    have h0 : ¬(s.x = x1 ∧ s.y = y1) := by
      have := hbefore 0 (by omega)
      simpa using this
    rw [line_pixels_loop, if_neg h0,
      ih (n - 1) (bresenham_step dx dy sx sy s)
        (fun k hk => by
          have := hbefore (k + 1) (by omega)
          simpa only [Function.iterate_succ_apply] using this)
        (by omega)]
    rfl

/-- With less than `line_fuel` fuel the loop does not reach its end. -/
theorem visited_none_of_lt (fuel : Nat) (x0 y0 x1 y1 : Int)
    (hfuel : fuel < line_fuel x0 y0 x1 y1) : visited fuel x0 y0 x1 y1 = none := by
  have hM := line_fuel_cast x0 y0 x1 y1
  have hsx := step_sign_mul_abs x0 x1
  have hsy := step_sign_mul_abs y0 y1
  unfold visited
  simp only
  refine line_pixels_loop_none _ _ _ _ _ _ fuel (line_fuel x0 y0 x1 y1 - 1) _ ?_ (by omega)
  intro k hk
  rw [← sub_eq_add_neg, iterate_affine]
  simp only
  have hkM : (k : Int) < max |x1 - x0| |y1 - y0| := by omega
  have hne := offset_state_not_end x0 y0 x1 y1 k hkM
  generalize offset_state |x1 - x0| |y1 - y0| k = st at *
  generalize |x1 - x0| = a at *
  generalize |y1 - y0| = b at *
  rintro ⟨hx, hy⟩
  apply hne
  constructor
  · rcases step_sign_cases x0 x1 with h | h <;> rw [h] at hsx hx <;> omega
  · rcases step_sign_cases y0 y1 with h | h <;> rw [h] at hsy hy <;> omega

/-- The `k`-th visited pixel has advanced `k` along the longer axis. -/
theorem line_pixels_major (x0 y0 x1 y1 : Int) (k : Nat) (p : Int × Int)
    (hp : (line_pixels x0 y0 x1 y1)[k]? = some p) :
    if |y1 - y0| ≤ |x1 - x0| then p.1 = x0 + step_sign x0 x1 * (k : Int)
      else p.2 = y0 + step_sign y0 y1 * (k : Int) := by
  have hM := line_fuel_cast x0 y0 x1 y1
  rw [line_pixels_eq] at hp
  unfold offset_pixels at hp
  rw [List.getElem?_map] at hp
  have hk : k < line_fuel x0 y0 x1 y1 := by
    by_contra hc
    rw [List.getElem?_eq_none (by simpa using hc)] at hp
    cases hp
  rw [List.getElem?_range hk] at hp
  simp only [Option.map_some', Option.some.injEq] at hp
  subst hp
  obtain ⟨-, hmaj⟩ := offset_state_at x0 y0 x1 y1 k (by omega)
  by_cases hba : |y1 - y0| ≤ |x1 - x0|
  · rw [if_pos hba] at hmaj ⊢
    rw [hmaj]
  · rw [if_neg hba] at hmaj ⊢
    rw [hmaj]

/-- Over unbounded integers (step count): `draw_line` visits exactly
`max |x1 - x0| |y1 - y0| + 1` pixels, one per loop iteration: with less fuel than that the loop
has not ended, the `k`-th
pixel has advanced exactly `k` along the longer axis towards the target, and a batch runs
through the sum over its segments of `max |x1 - x0| |y1 - y0| + 1` iterations. -/
theorem draw_line_step_count (fuel : Nat) (x0 y0 x1 y1 : Int)
    (hfuel : line_fuel x0 y0 x1 y1 ≤ fuel) :
    (∃ ps, visited fuel x0 y0 x1 y1 = some ps ∧
      ps.length = max (x1 - x0).natAbs (y1 - y0).natAbs + 1 ∧
      ∀ (k : Nat) (p : Int × Int), ps[k]? = some p →
        if |y1 - y0| ≤ |x1 - x0| then p.1 = x0 + step_sign x0 x1 * (k : Int)
          else p.2 = y0 + step_sign y0 y1 * (k : Int)) ∧
    (∀ f : Nat, f < max (x1 - x0).natAbs (y1 - y0).natAbs + 1 →
      visited f x0 y0 x1 y1 = none) ∧
    (∀ lines : List Segment, (∀ l ∈ lines, segment_fuel l ≤ fuel) →
      ∃ traces : List (List (Int × Int)),
        lines.map (fun l => visited fuel l.1 l.2.1 l.2.2.1 l.2.2.2) = traces.map some ∧
        (traces.map List.length).sum =
          (lines.map fun l => max (l.2.2.1 - l.1).natAbs (l.2.2.2 - l.2.1).natAbs + 1).sum) := by
  refine ⟨⟨_, visited_eq_line_pixels fuel x0 y0 x1 y1 hfuel, line_pixels_length x0 y0 x1 y1,
    line_pixels_major x0 y0 x1 y1⟩, fun f hf => visited_none_of_lt f x0 y0 x1 y1 hf, ?_⟩
  intro lines hlines
  refine ⟨lines.map segment_pixels, ?_, ?_⟩
  · rw [List.map_map]
    apply List.map_congr_left
    intro l hl
    exact visited_eq_line_pixels fuel _ _ _ _ (hlines l hl)
  · rw [List.map_map]
    congr 1
    apply List.map_congr_left
    intro l _
    exact line_pixels_length _ _ _ _

/-- Inside a buffer of `height * width * channel` bytes and a color of `channel` bytes the
write of a pixel returns a buffer of the same length. -/
theorem plot_ok (width height channel : Int) (color img : List Nat) (p : Int × Int)
    (hlen : height * width * channel ≤ (img.length : Int))
    (hcol : channel ≤ (color.length : Int)) :
    ∃ img1, plot width height channel color img p = .ok img1 ∧ img1.length = img.length := by
  obtain ⟨img2, hrun, hl, -, -⟩ := fold_plot_spec width height channel color [p] img hlen hcol
  rw [foldOutcome] at hrun
  cases hp : plot width height channel color img p with
  | error e => rw [hp] at hrun; cases hrun
  | ok img1 =>
    rw [hp] at hrun
    cases hrun
    exact ⟨img2, rfl, hl⟩

theorem draw_line_loop_no_fault (width height channel x1 y1 dx dy sx sy : Int)
    (color : List Nat) (hcol : channel ≤ (color.length : Int)) :
    ∀ (fuel : Nat) (img : List Nat) (s : LineState),
      height * width * channel ≤ (img.length : Int) →
      draw_line_loop width height channel x1 y1 dx dy sx sy color fuel img s ≠
        .error .outOfRange := by
  intro fuel
  induction fuel with
  | zero => intro img s _ h; cases h
  | succ f ih =>
    intro img s hlen
    obtain ⟨img1, hp, hl⟩ := plot_ok width height channel color img (s.x, s.y) hlen hcol
    rw [draw_line_loop, hp]
    simp only [Outcome.andThen]
    by_cases hend : s.x = x1 ∧ s.y = y1
    · rw [if_pos hend]
      intro h
      cases h
    · rw [if_neg hend]
      exact ih img1 _ (by rw [hl]; exact hlen)

theorem wrap32_eq (n : Int) (h : in_int32 n) : wrap32 n = n := by
  unfold in_int32 at h
  unfold wrap32
  omega

theorem line_state_eq (x0 y0 x1 y1 : Int) (k : Nat) :
    line_state x0 y0 x1 y1 k =
      ⟨x0 + step_sign x0 x1 * (offset_state |x1 - x0| |y1 - y0| k).x,
       y0 + step_sign y0 y1 * (offset_state |x1 - x0| |y1 - y0| k).y,
       (offset_state |x1 - x0| |y1 - y0| k).err⟩ := by
  unfold line_state
  rw [← sub_eq_add_neg]
  exact iterate_affine x0 y0 _ _ _ _ k

/-- The sizes of the values of one iteration at a state of the invariant, for endpoints
within `2 ^ 28` of the origin. -/
theorem bresInv_bounds (x0 y0 x1 y1 : Int)
    (hx0 : -268435456 ≤ x0 ∧ x0 ≤ 268435456) (hy0 : -268435456 ≤ y0 ∧ y0 ≤ 268435456)
    (hx1 : -268435456 ≤ x1 ∧ x1 ≤ 268435456) (hy1 : -268435456 ≤ y1 ∧ y1 ≤ 268435456)
    (st : LineState) (hinv : BresInv |x1 - x0| |y1 - y0| st) :
    |2 * st.err| ≤ 3 * max |x1 - x0| |y1 - y0| ∧
    in_int32 st.err ∧ in_int32 (2 * st.err) ∧
    in_int32 (st.err + -|y1 - y0|) ∧ in_int32 (st.err + |x1 - x0|) ∧
    in_int32 (st.err + -|y1 - y0| + |x1 - x0|) ∧
    in_int32 (x0 + step_sign x0 x1 * st.x) ∧ in_int32 (y0 + step_sign y0 y1 * st.y) ∧
    in_int32 (x0 + step_sign x0 x1 * st.x + step_sign x0 x1) ∧
    in_int32 (y0 + step_sign y0 y1 * st.y + step_sign y0 y1) := by
  obtain ⟨h1, h2, h3, h4, herr, hlo, hhi⟩ := hinv
  have hsx := step_sign_mul_abs x0 x1
  have hsy := step_sign_mul_abs y0 y1
  have ha : |x1 - x0| ≤ 536870912 := abs_le.2 ⟨by omega, by omega⟩
  have hb : |y1 - y0| ≤ 536870912 := abs_le.2 ⟨by omega, by omega⟩
  have ha0 : (0 : Int) ≤ |x1 - x0| := abs_nonneg _
  have hb0 : (0 : Int) ≤ |y1 - y0| := abs_nonneg _
  have herr2 : st.err = (|x1 - x0| * st.y - |y1 - y0| * st.x) + |x1 - x0| - |y1 - y0| := by
    rw [herr]; ring
  generalize |x1 - x0| * st.y - |y1 - y0| * st.x = D at *
  generalize |x1 - x0| = a at *
  generalize |y1 - y0| = b at *
  unfold in_int32
  rw [abs_le]
  rcases step_sign_cases x0 x1 with hs1 | hs1 <;> rcases step_sign_cases y0 y1 with hs2 | hs2 <;>
    rw [hs1] at hsx ⊢ <;> rw [hs2] at hsy ⊢ <;>
    refine ⟨⟨?_, ?_⟩, ⟨?_, ?_⟩, ⟨?_, ?_⟩, ⟨?_, ?_⟩, ⟨?_, ?_⟩, ⟨?_, ?_⟩, ⟨?_, ?_⟩, ⟨?_, ?_⟩,
      ⟨?_, ?_⟩, ⟨?_, ?_⟩⟩ <;> omega

/-- Without overflow the wrapped step is the step. -/
theorem bresenham_step32_eq (dx dy sx sy : Int) (s : LineState)
    (h1 : in_int32 (2 * s.err)) (h2 : in_int32 (s.err + dy)) (h3 : in_int32 (s.err + dx))
    (h4 : in_int32 (s.err + dy + dx)) (h5 : in_int32 (s.x + sx)) (h6 : in_int32 (s.y + sy)) :
    bresenham_step32 dx dy sx sy s = bresenham_step dx dy sx sy s := by
  unfold bresenham_step32 bresenham_step
  simp only [wrap32_eq _ h1]
  by_cases hc1 : 2 * s.err ≥ dy <;> by_cases hc2 : 2 * s.err ≤ dx <;>
    simp only [hc1, hc2, if_true, if_false, wrap32_eq _ h2, wrap32_eq _ h3, wrap32_eq _ h4,
      wrap32_eq _ h5, wrap32_eq _ h6]

theorem draw_line_loop32_eq (width height channel x0 y0 x1 y1 : Int) (color : List Nat)
    (hx0 : -268435456 ≤ x0 ∧ x0 ≤ 268435456) (hy0 : -268435456 ≤ y0 ∧ y0 ≤ 268435456)
    (hx1 : -268435456 ≤ x1 ∧ x1 ≤ 268435456) (hy1 : -268435456 ≤ y1 ∧ y1 ≤ 268435456) :
    ∀ (fuel : Nat) (img : List Nat) (st : LineState), BresInv |x1 - x0| |y1 - y0| st →
      draw_line_loop32 width height channel x1 y1 |x1 - x0| (-|y1 - y0|)
          (step_sign x0 x1) (step_sign y0 y1) color fuel img
          ⟨x0 + step_sign x0 x1 * st.x, y0 + step_sign y0 y1 * st.y, st.err⟩ =
        draw_line_loop width height channel x1 y1 |x1 - x0| (-|y1 - y0|)
          (step_sign x0 x1) (step_sign y0 y1) color fuel img
          ⟨x0 + step_sign x0 x1 * st.x, y0 + step_sign y0 y1 * st.y, st.err⟩ := by
  intro fuel
  induction fuel with
  | zero => intro img st _; rfl
  | succ f ih =>
    intro img st hinv
    rw [draw_line_loop32, draw_line_loop]
    cases plot width height channel color img
        (x0 + step_sign x0 x1 * st.x, y0 + step_sign y0 y1 * st.y) with
    | error e => rfl
    | ok img1 =>
      simp only [Outcome.andThen]
      by_cases hend : x0 + step_sign x0 x1 * st.x = x1 ∧ y0 + step_sign y0 y1 * st.y = y1
      · rw [if_pos hend, if_pos hend]
      · rw [if_neg hend, if_neg hend]
        obtain ⟨-, -, b1, b2, b3, b4, -, -, b5, b6⟩ :=
          bresInv_bounds x0 y0 x1 y1 hx0 hy0 hx1 hy1 st hinv
        rw [bresenham_step32_eq _ _ _ _
          ⟨x0 + step_sign x0 x1 * st.x, y0 + step_sign y0 y1 * st.y, st.err⟩ b1 b2 b3 b4 b5 b6,
          bresenham_step_affine]
        have hne : ¬(st.x = |x1 - x0| ∧ st.y = |y1 - y0|) := by
          rintro ⟨hx, hy⟩
          apply hend
          rw [hx, hy, step_sign_mul_abs, step_sign_mul_abs]
          constructor <;> ring
        exact ih img1 _ (bresInv_step _ _ st hinv hne).1

/-- C20 (no 32-bit overflow): with the four coordinates in `[-2 ^ 28, 2 ^ 28]` the values
`x1 - x0`, `y1 - y0`, `dx + dy` and, at every iteration, `err`, `e2 = 2 * err`, `err + dy`,
`err + dx` (before and after `err += dy`), `x0 + sx`, `y0 + sy` are in the signed 32-bit
range, `|2 * err| <= 3 * max |x1 - x0| |y1 - y0|`, and `draw_line` with the stepping
arithmetic wrapped to 32 bits gives the outcome of `draw_line` on unbounded integers. -/
theorem draw_line_no_overflow (x0 y0 x1 y1 : Int)
    (hx0 : -2 ^ 28 ≤ x0 ∧ x0 ≤ 2 ^ 28) (hy0 : -2 ^ 28 ≤ y0 ∧ y0 ≤ 2 ^ 28)
    (hx1 : -2 ^ 28 ≤ x1 ∧ x1 ≤ 2 ^ 28) (hy1 : -2 ^ 28 ≤ y1 ∧ y1 ≤ 2 ^ 28) :
    (in_int32 (x1 - x0) ∧ in_int32 (y1 - y0) ∧ in_int32 |x1 - x0| ∧ in_int32 (-|y1 - y0|) ∧
      in_int32 (|x1 - x0| + -|y1 - y0|)) ∧
    (∀ k : Nat, (k : Int) ≤ max |x1 - x0| |y1 - y0| →
      |2 * (line_state x0 y0 x1 y1 k).err| ≤ 3 * max |x1 - x0| |y1 - y0| ∧
      in_int32 (line_state x0 y0 x1 y1 k).err ∧
      in_int32 (2 * (line_state x0 y0 x1 y1 k).err) ∧
      in_int32 ((line_state x0 y0 x1 y1 k).err + -|y1 - y0|) ∧
      in_int32 ((line_state x0 y0 x1 y1 k).err + |x1 - x0|) ∧
      in_int32 ((line_state x0 y0 x1 y1 k).err + -|y1 - y0| + |x1 - x0|) ∧
      in_int32 (line_state x0 y0 x1 y1 k).x ∧ in_int32 (line_state x0 y0 x1 y1 k).y ∧
      in_int32 ((line_state x0 y0 x1 y1 k).x + step_sign x0 x1) ∧
      in_int32 ((line_state x0 y0 x1 y1 k).y + step_sign y0 y1)) ∧
    (∀ (fuel : Nat) (img : List Nat) (width height channel : Int) (color : List Nat),
      draw_line32 fuel img width height channel x0 y0 x1 y1 color =
        draw_line fuel img width height channel x0 y0 x1 y1 color) := by
  norm_num at hx0 hy0 hx1 hy1
  have ha : |x1 - x0| ≤ 536870912 := abs_le.2 ⟨by omega, by omega⟩
  have hb : |y1 - y0| ≤ 536870912 := abs_le.2 ⟨by omega, by omega⟩
  have ha0 : (0 : Int) ≤ |x1 - x0| := abs_nonneg _
  have hb0 : (0 : Int) ≤ |y1 - y0| := abs_nonneg _
  have i1 : in_int32 (x1 - x0) := ⟨by omega, by omega⟩
  have i2 : in_int32 (y1 - y0) := ⟨by omega, by omega⟩
  have i3 : in_int32 |x1 - x0| := ⟨by omega, by omega⟩
  have i4 : in_int32 |y1 - y0| := ⟨by omega, by omega⟩
  have i5 : in_int32 (-|y1 - y0|) := ⟨by omega, by omega⟩
  have i6 : in_int32 (|x1 - x0| + -|y1 - y0|) := ⟨by omega, by omega⟩
  refine ⟨⟨i1, i2, i3, i5, i6⟩, ?_, ?_⟩
  · intro k hk
    rw [line_state_eq]
    exact bresInv_bounds x0 y0 x1 y1 hx0 hy0 hx1 hy1 _ (offset_state_at x0 y0 x1 y1 k hk).1
  · intro fuel img width height channel color
    unfold draw_line32 draw_line
    simp only [wrap32_eq _ i1, wrap32_eq _ i2, wrap32_eq _ i3, wrap32_eq _ i4, wrap32_eq _ i5,
      wrap32_eq _ i6]
    have h := draw_line_loop32_eq width height channel x0 y0 x1 y1 color hx0 hy0 hx1 hy1
      fuel img ⟨0, 0, |x1 - x0| - |y1 - y0|⟩ (bresInv_init _ _ ha0 hb0)
    simp only [mul_zero, add_zero] at h
    rw [sub_eq_add_neg] at h
    exact h

theorem draw_line_no_overflow_witness :
    (-(2 : Int) ^ 28 ≤ -268435456 ∧ (-268435456 : Int) ≤ 2 ^ 28) ∧
    (-(2 : Int) ^ 28 ≤ 268435456 ∧ (268435456 : Int) ≤ 2 ^ 28) ∧
    (-(2 : Int) ^ 28 ≤ 268435456 ∧ (268435456 : Int) ≤ 2 ^ 28) ∧
    (-(2 : Int) ^ 28 ≤ -268435455 ∧ (-268435455 : Int) ≤ 2 ^ 28) ∧
    (∀ (fuel : Nat) (img : List Nat) (width height channel : Int) (color : List Nat),
      draw_line32 fuel img width height channel (-268435456) 268435456 268435456 (-268435455)
          color =
        draw_line fuel img width height channel (-268435456) 268435456 268435456 (-268435455)
          color) ∧
    wrap32 (2 * 1073741824) ≠ 2 * 1073741824 :=
  ⟨by decide, by decide, by decide, by decide,
    (draw_line_no_overflow (-268435456) 268435456 268435456 (-268435455) (by decide)
      (by decide) (by decide) (by decide)).2.2, by decide⟩

/-! ## The 32-bit code and the unbounded algorithm -/

/-- A run of the 32-bit loop applies the bounds-checked write along its trace. -/
theorem machine_draw_line_loop_eq_fold (width height channel x1 y1 dx dy sx sy : Int)
    (color : List Nat) :
    ∀ (fuel : Nat) (img : List Nat) (s : LineState) (ps : List (Int × Int)),
      Machine.line_pixels_loop x1 y1 dx dy sx sy fuel s = some ps →
      Machine.draw_line_loop width height channel x1 y1 dx dy sx sy color fuel img s =
        foldOutcome (Machine.plot width height channel color) img ps := by
  intro fuel
  induction fuel with
  | zero => intro img s ps h; simp [Machine.line_pixels_loop] at h
  | succ f ih =>
    intro img s ps h
    rw [Machine.line_pixels_loop] at h
    rw [Machine.draw_line_loop]
    by_cases hend : s.x = x1 ∧ s.y = y1
    · rw [if_pos hend] at h
      cases h
      simp only [hend, and_self, if_true, foldOutcome]
    · rw [if_neg hend] at h
      cases hq : Machine.line_pixels_loop x1 y1 dx dy sx sy f (bresenham_step32 dx dy sx sy s) with
      | none => rw [hq] at h; simp at h
      | some qs =>
        rw [hq] at h
        simp only [Option.map_some', Option.some.injEq] at h
        subst h
        simp only [if_neg hend, foldOutcome]
        cases hp : Machine.plot width height channel color img (s.x, s.y) with
        | error e => rfl
        | ok img1 => exact ih img1 _ qs hq

/-- A run of the 32-bit loop that returns a buffer has ended within its fuel. -/
theorem machine_draw_line_loop_ok_trace (width height channel x1 y1 dx dy sx sy : Int)
    (color : List Nat) :
    ∀ (fuel : Nat) (img img2 : List Nat) (s : LineState),
      Machine.draw_line_loop width height channel x1 y1 dx dy sx sy color fuel img s =
        .ok img2 →
      ∃ ps, Machine.line_pixels_loop x1 y1 dx dy sx sy fuel s = some ps := by
  intro fuel
  induction fuel with
  | zero => intro img img2 s h; cases h
  | succ f ih =>
    intro img img2 s h
    rw [Machine.draw_line_loop] at h
    rw [Machine.line_pixels_loop]
    by_cases hend : s.x = x1 ∧ s.y = y1
    · rw [if_pos hend]
      exact ⟨_, rfl⟩
    · rw [if_neg hend]
      cases hp : Machine.plot width height channel color img (s.x, s.y) with
      | error e => rw [hp] at h; cases h
      | ok img1 =>
        rw [hp] at h
        simp only [Outcome.andThen, if_neg hend] at h
        obtain ⟨qs, hq⟩ := ih img1 img2 _ h
        rw [hq]
        exact ⟨_, rfl⟩

theorem machine_draw_line_eq_fold (fuel : Nat) (img : List Nat)
    (width height channel x0 y0 x1 y1 : Int) (color : List Nat) (ps : List (Int × Int))
    (h : Machine.visited fuel x0 y0 x1 y1 = some ps) :
    Machine.draw_line fuel img width height channel x0 y0 x1 y1 color =
      foldOutcome (Machine.plot width height channel color) img ps := by
  unfold Machine.visited at h
  unfold Machine.draw_line
  exact machine_draw_line_loop_eq_fold _ _ _ _ _ _ _ _ _ _ fuel img _ ps h

theorem machine_draw_line_ok_trace (fuel : Nat) (img img2 : List Nat)
    (width height channel x0 y0 x1 y1 : Int) (color : List Nat)
    (h : Machine.draw_line fuel img width height channel x0 y0 x1 y1 color = .ok img2) :
    ∃ ps, Machine.visited fuel x0 y0 x1 y1 = some ps := by
  unfold Machine.draw_line at h
  unfold Machine.visited
  exact machine_draw_line_loop_ok_trace _ _ _ _ _ _ _ _ _ _ fuel img img2 _ h

/-- The first pixels of the loop are the first pixels of its trace. -/
theorem machine_first_pixels_loop_take (x1 y1 dx dy sx sy : Int) :
    ∀ (fuel n : Nat) (s : LineState) (ps : List (Int × Int)),
      Machine.line_pixels_loop x1 y1 dx dy sx sy fuel s = some ps →
      Machine.first_pixels_loop x1 y1 dx dy sx sy n s = ps.take n := by
  intro fuel
  induction fuel with
  | zero => intro n s ps h; simp [Machine.line_pixels_loop] at h
  | succ f ih =>
    intro n s ps h
    rw [Machine.line_pixels_loop] at h
    cases n with
    | zero => simp [Machine.first_pixels_loop]
    | succ m =>
      rw [Machine.first_pixels_loop]
      by_cases hend : s.x = x1 ∧ s.y = y1
      · rw [if_pos hend] at h ⊢
        cases h
        simp
      · rw [if_neg hend] at h ⊢
        cases hq : Machine.line_pixels_loop x1 y1 dx dy sx sy f
            (bresenham_step32 dx dy sx sy s) with
        | none => rw [hq] at h; simp at h
        | some qs =>
          rw [hq] at h
          simp only [Option.map_some', Option.some.injEq] at h
          subst h
          rw [ih m _ qs hq, List.take_succ_cons]

/-- A pixel among the first pixels of the loop is in every trace of the loop. -/
theorem machine_mem_of_mem_first_pixels (fuel n : Nat) (x0 y0 x1 y1 : Int)
    (ps : List (Int × Int)) (p : Int × Int)
    (h : Machine.visited fuel x0 y0 x1 y1 = some ps)
    (hp : p ∈ Machine.first_pixels n x0 y0 x1 y1) : p ∈ ps := by
  unfold Machine.visited at h
  unfold Machine.first_pixels at hp
  rw [machine_first_pixels_loop_take _ _ _ _ _ _ fuel n _ ps h] at hp
  exact List.mem_of_mem_take hp

/-- A state that the step does not move and that is not the end is never left. -/
theorem machine_stuck_trace (x1 y1 dx dy sx sy : Int) (s : LineState)
    (hfix : bresenham_step32 dx dy sx sy s = s) (hne : ¬(s.x = x1 ∧ s.y = y1)) :
    ∀ fuel : Nat, Machine.line_pixels_loop x1 y1 dx dy sx sy fuel s = none := by
  intro fuel
  induction fuel with
  | zero => rfl
  | succ f ih => rw [Machine.line_pixels_loop, if_neg hne, hfix, ih]; rfl

theorem machine_stuck_no_return (width height channel x1 y1 dx dy sx sy : Int)
    (color : List Nat) (s : LineState)
    (hfix : bresenham_step32 dx dy sx sy s = s) (hne : ¬(s.x = x1 ∧ s.y = y1))
    (fuel : Nat) (img img2 : List Nat) :
    Machine.draw_line_loop width height channel x1 y1 dx dy sx sy color fuel img s ≠
      .ok img2 := by
  intro h
  obtain ⟨ps, hps⟩ := machine_draw_line_loop_ok_trace _ _ _ _ _ _ _ _ _ _ fuel img img2 s h
  rw [machine_stuck_trace x1 y1 dx dy sx sy s hfix hne fuel] at hps
  cases hps

theorem machine_plot_eq_fold_put (width height channel : Int) (color : List Nat)
    (img : List Nat) (p : Int × Int) :
    Machine.plot width height channel color img p =
      foldOutcome (put color) img (Machine.pixel_ops width height channel p) := by
  unfold Machine.plot Machine.pixel_ops
  by_cases h : in_image width height p
  · rw [if_pos h, if_pos h, foldOutcome_map]
    rfl
  · rw [if_neg h, if_neg h]
    rfl

theorem machine_fold_plot_eq_fold_put (width height channel : Int) (color : List Nat)
    (ps : List (Int × Int)) (img : List Nat) :
    foldOutcome (Machine.plot width height channel color) img ps =
      foldOutcome (put color) img (ps.flatMap (Machine.pixel_ops width height channel)) := by
  rw [foldOutcome_flatMap]
  exact foldOutcome_congr _ _ ps
    (fun p _ im => machine_plot_eq_fold_put width height channel color im p) img

/-- On an image whose byte count `height * width * channel` fits in an `int`, the offset
of line 31 does not overflow at a pixel inside the image. -/
theorem machine_offset_eq (width height channel : Int) (p : Int × Int) (i : Nat)
    (hgeo : height * width * channel ≤ 2147483647) (hin : in_image width height p)
    (hi : (i : Int) < channel) :
    Machine.offset width channel p.1 p.2 i = p.2 * width * channel + p.1 * channel + (i : Int) := by
  obtain ⟨hx0, hxw, hy0, hyh⟩ := hin
  have hi0 : (0 : Int) ≤ (i : Int) := Int.ofNat_nonneg _
  have hA0 : 0 ≤ p.2 * width := mul_nonneg hy0 (by omega)
  have hA1 : (p.2 + 1) * width ≤ height * width :=
    mul_le_mul_of_nonneg_right (by omega) (by omega)
  have hB0 : 0 ≤ p.2 * width * channel := mul_nonneg hA0 (by omega)
  have hC0 : 0 ≤ p.1 * channel := mul_nonneg hx0 (by omega)
  have hT : (p.2 * width + p.1 + 1) * channel ≤ height * width * channel :=
    mul_le_mul_of_nonneg_right (by linarith) (by omega)
  have hAB : p.2 * width ≤ p.2 * width * channel := by
    have : 0 ≤ p.2 * width * (channel - 1) := mul_nonneg hA0 (by omega)
    linarith
  have e1 : wrap32 (p.2 * width) = p.2 * width := wrap32_eq _ ⟨by linarith, by linarith⟩
  have e2 : wrap32 (p.2 * width * channel) = p.2 * width * channel :=
    wrap32_eq _ ⟨by linarith, by linarith⟩
  have e3 : wrap32 (p.1 * channel) = p.1 * channel := wrap32_eq _ ⟨by linarith, by linarith⟩
  have e4 : wrap32 (p.2 * width * channel + p.1 * channel) =
      p.2 * width * channel + p.1 * channel := wrap32_eq _ ⟨by linarith, by linarith⟩
  have e5 : wrap32 (p.2 * width * channel + p.1 * channel + (i : Int)) =
      p.2 * width * channel + p.1 * channel + (i : Int) :=
    wrap32_eq _ ⟨by linarith, by linarith⟩
  unfold Machine.offset
  rw [e1, e2, e3, e4, e5]

theorem machine_pixel_ops_eq (width height channel : Int) (p : Int × Int)
    (hgeo : height * width * channel ≤ 2147483647) :
    Machine.pixel_ops width height channel p = pixel_ops width height channel p := by
  unfold Machine.pixel_ops pixel_ops
  by_cases hin : in_image width height p
  · rw [if_pos hin, if_pos hin]
    apply List.map_congr_left
    intro i hi
    rw [List.mem_range] at hi
    rw [machine_offset_eq width height channel p i hgeo hin (by omega)]
  · rw [if_neg hin, if_neg hin]

/-- On an image whose byte count fits in an `int` the write of a pixel is the write at
the unbounded offset. -/
theorem machine_plot_eq (width height channel : Int) (color : List Nat)
    (hgeo : height * width * channel ≤ 2147483647) (img : List Nat) (p : Int × Int) :
    Machine.plot width height channel color img p = plot width height channel color img p := by
  rw [machine_plot_eq_fold_put, plot_eq_fold_put, machine_pixel_ops_eq _ _ _ _ hgeo]

theorem machine_fold_plot_eq (width height channel : Int) (color : List Nat)
    (hgeo : height * width * channel ≤ 2147483647) (ps : List (Int × Int)) (img : List Nat) :
    foldOutcome (Machine.plot width height channel color) img ps =
      foldOutcome (plot width height channel color) img ps :=
  foldOutcome_congr_all _ _ (fun im p => machine_plot_eq width height channel color hgeo im p)
    ps img

/-- Outside the image nothing is written, whatever the geometry. -/
theorem machine_fold_plot_outside (width height channel : Int) (color : List Nat)
    (ps : List (Int × Int)) (hout : ∀ p ∈ ps, ¬in_image width height p) (img : List Nat) :
    foldOutcome (Machine.plot width height channel color) img ps = .ok img := by
  induction ps with
  | nil => rfl
  | cons p ps ih =>
    have hp : Machine.plot width height channel color img p = .ok img := by
      unfold Machine.plot
      rw [if_neg (hout p (List.mem_cons_self p ps))]
    rw [foldOutcome, hp]
    exact ih (fun q hq => hout q (List.mem_cons_of_mem p hq))

/-- On states of the invariant of a segment in range the 32-bit trace is the unbounded
trace. -/
theorem machine_line_pixels_loop_eq (x0 y0 x1 y1 : Int)
    (hx0 : -268435456 ≤ x0 ∧ x0 ≤ 268435456) (hy0 : -268435456 ≤ y0 ∧ y0 ≤ 268435456)
    (hx1 : -268435456 ≤ x1 ∧ x1 ≤ 268435456) (hy1 : -268435456 ≤ y1 ∧ y1 ≤ 268435456) :
    ∀ (fuel : Nat) (st : LineState), BresInv |x1 - x0| |y1 - y0| st →
      Machine.line_pixels_loop x1 y1 |x1 - x0| (-|y1 - y0|)
          (step_sign x0 x1) (step_sign y0 y1) fuel
          ⟨x0 + step_sign x0 x1 * st.x, y0 + step_sign y0 y1 * st.y, st.err⟩ =
        line_pixels_loop x1 y1 |x1 - x0| (-|y1 - y0|)
          (step_sign x0 x1) (step_sign y0 y1) fuel
          ⟨x0 + step_sign x0 x1 * st.x, y0 + step_sign y0 y1 * st.y, st.err⟩ := by
  intro fuel
  induction fuel with
  | zero => intro st _; rfl
  | succ f ih =>
    intro st hinv
    rw [Machine.line_pixels_loop, line_pixels_loop]
    by_cases hend : x0 + step_sign x0 x1 * st.x = x1 ∧ y0 + step_sign y0 y1 * st.y = y1
    · rw [if_pos hend, if_pos hend]
    · rw [if_neg hend, if_neg hend]
      obtain ⟨-, -, b1, b2, b3, b4, -, -, b5, b6⟩ :=
        bresInv_bounds x0 y0 x1 y1 hx0 hy0 hx1 hy1 st hinv
      rw [bresenham_step32_eq _ _ _ _
        ⟨x0 + step_sign x0 x1 * st.x, y0 + step_sign y0 y1 * st.y, st.err⟩ b1 b2 b3 b4 b5 b6,
        bresenham_step_affine]
      have hne : ¬(st.x = |x1 - x0| ∧ st.y = |y1 - y0|) := by
        rintro ⟨hx, hy⟩
        apply hend
        rw [hx, hy, step_sign_mul_abs, step_sign_mul_abs]
        constructor <;> ring
      rw [ih _ (bresInv_step _ _ st hinv hne).1]

/-- In range the differences of lines 24-26 do not overflow. -/
theorem machine_setup_eq (x0 y0 x1 y1 : Int) (h : coords_in_range x0 y0 x1 y1) :
    Machine.delta x0 x1 = |x1 - x0| ∧ wrap32 (-Machine.delta y0 y1) = -|y1 - y0| ∧
    wrap32 (|x1 - x0| + -|y1 - y0|) = |x1 - x0| + -|y1 - y0| := by
  obtain ⟨hx0, hy0, hx1, hy1⟩ := h
  have ha : |x1 - x0| ≤ 536870912 := abs_le.2 ⟨by omega, by omega⟩
  have hb : |y1 - y0| ≤ 536870912 := abs_le.2 ⟨by omega, by omega⟩
  have ha0 : (0 : Int) ≤ |x1 - x0| := abs_nonneg _
  have hb0 : (0 : Int) ≤ |y1 - y0| := abs_nonneg _
  have i1 : in_int32 (x1 - x0) := ⟨by omega, by omega⟩
  have i2 : in_int32 (y1 - y0) := ⟨by omega, by omega⟩
  have i3 : in_int32 |x1 - x0| := ⟨by omega, by omega⟩
  have i4 : in_int32 |y1 - y0| := ⟨by omega, by omega⟩
  have i5 : in_int32 (-|y1 - y0|) := ⟨by omega, by omega⟩
  have i6 : in_int32 (|x1 - x0| + -|y1 - y0|) := ⟨by omega, by omega⟩
  unfold Machine.delta
  rw [wrap32_eq _ i1, wrap32_eq _ i2, wrap32_eq _ i3, wrap32_eq _ i4, wrap32_eq _ i5,
    wrap32_eq _ i6]
  exact ⟨rfl, rfl, rfl⟩

/-- For endpoints in range the 32-bit loop visits what the unbounded loop visits. -/
theorem machine_visited_eq (fuel : Nat) (x0 y0 x1 y1 : Int)
    (h : coords_in_range x0 y0 x1 y1) :
    Machine.visited fuel x0 y0 x1 y1 = visited fuel x0 y0 x1 y1 := by
  obtain ⟨e1, e2, e3⟩ := machine_setup_eq x0 y0 x1 y1 h
  obtain ⟨hx0, hy0, hx1, hy1⟩ := h
  unfold Machine.visited visited
  simp only [e1, e2, e3]
  have hl := machine_line_pixels_loop_eq x0 y0 x1 y1 hx0 hy0 hx1 hy1 fuel
    ⟨0, 0, |x1 - x0| - |y1 - y0|⟩ (bresInv_init _ _ (abs_nonneg _) (abs_nonneg _))
  simp only [mul_zero, add_zero] at hl
  rw [sub_eq_add_neg] at hl
  exact hl

theorem machine_visited_eq_line_pixels (fuel : Nat) (x0 y0 x1 y1 : Int)
    (h : coords_in_range x0 y0 x1 y1) (hfuel : line_fuel x0 y0 x1 y1 ≤ fuel) :
    Machine.visited fuel x0 y0 x1 y1 = some (line_pixels x0 y0 x1 y1) := by
  rw [machine_visited_eq fuel x0 y0 x1 y1 h, visited_eq_line_pixels fuel x0 y0 x1 y1 hfuel]

/-- For endpoints in range and enough fuel the 32-bit `draw_line` is the bounds-checked
write along `line_pixels`. -/
theorem machine_draw_line_eq_fold_line_pixels (fuel : Nat) (img : List Nat)
    (width height channel x0 y0 x1 y1 : Int) (color : List Nat)
    (h : coords_in_range x0 y0 x1 y1) (hfuel : line_fuel x0 y0 x1 y1 ≤ fuel) :
    Machine.draw_line fuel img width height channel x0 y0 x1 y1 color =
      foldOutcome (Machine.plot width height channel color) img (line_pixels x0 y0 x1 y1) :=
  machine_draw_line_eq_fold fuel img width height channel x0 y0 x1 y1 color _
    (machine_visited_eq_line_pixels fuel x0 y0 x1 y1 h hfuel)

/-- For endpoints in range, an image whose byte count fits in an `int` and enough fuel the
32-bit `draw_line` gives the outcome of the unbounded `draw_line`. -/
theorem machine_draw_line_eq (fuel : Nat) (img : List Nat)
    (width height channel x0 y0 x1 y1 : Int) (color : List Nat)
    (h : coords_in_range x0 y0 x1 y1) (hgeo : height * width * channel ≤ 2147483647)
    (hfuel : line_fuel x0 y0 x1 y1 ≤ fuel) :
    Machine.draw_line fuel img width height channel x0 y0 x1 y1 color =
      draw_line fuel img width height channel x0 y0 x1 y1 color := by
  rw [machine_draw_line_eq_fold_line_pixels fuel img width height channel x0 y0 x1 y1 color h
    hfuel, machine_fold_plot_eq width height channel color hgeo,
    draw_line_eq_fold fuel img width height channel x0 y0 x1 y1 color hfuel]

theorem machine_draw_lines_cons_cons (fuel : Nat) (img : List Nat) (height width : Int)
    (rest : List Int) (lines : List Segment) (color : List Nat) :
    Machine.draw_lines fuel img (height :: width :: rest) lines color =
      foldOutcome (fun im (l : Segment) =>
        Machine.draw_line fuel im (wrap32 width) (wrap32 height)
          (Machine.shape_channel (height :: width :: rest))
          l.1 l.2.1 l.2.2.1 l.2.2.2 color) img lines := by
  unfold Machine.draw_lines
  simp only [List.getElem?_cons_succ, List.getElem?_cons_zero]

/-- With segments in range and enough fuel for each the 32-bit batch loop is the
bounds-checked write along all the visited pixels, segment after segment. -/
theorem machine_fold_draw_line_eq (fuel : Nat) (width height channel : Int)
    (color : List Nat) (lines : List Segment)
    (hrange : ∀ l ∈ lines, segment_in_range l)
    (hfuel : ∀ l ∈ lines, segment_fuel l ≤ fuel) (img : List Nat) :
    foldOutcome (fun im (l : Segment) =>
      Machine.draw_line fuel im width height channel l.1 l.2.1 l.2.2.1 l.2.2.2 color)
        img lines =
    foldOutcome (Machine.plot width height channel color) img
      (lines.flatMap segment_pixels) := by
  rw [foldOutcome_flatMap]
  exact foldOutcome_congr _ _ lines
    (fun l hl im => machine_draw_line_eq_fold_line_pixels fuel im width height channel
      _ _ _ _ color (hrange l hl) (hfuel l hl)) img

theorem machine_shape_channel_cons_cons (height width : Int) (rest : List Int) :
    Machine.shape_channel (height :: width :: rest) =
      (match rest with
        | [c] => wrap32 c
        | _ => 1) := by
  unfold Machine.shape_channel
  match rest with
  | [] => rfl
  | [c] => rfl
  | _ :: _ :: r =>
    simp only [List.length_cons]
    rw [if_neg (by omega)]

/-- After a run of bounds-checked writes that returns a buffer, every channel byte of
every listed pixel inside the image holds its color byte. -/
theorem fold_plot_written (width height channel : Int) (color : List Nat)
    (ps : List (Int × Int)) (img img2 : List Nat)
    (hrun : foldOutcome (plot width height channel color) img ps = .ok img2) :
    ∀ p ∈ ps, in_image width height p → ∀ i : Nat, (i : Int) < channel →
      ∃ v, color[i]? = some v ∧
        byte_at img2 (p.2 * width * channel + p.1 * channel + (i : Int)) = some v := by
  rw [fold_plot_eq_fold_put] at hrun
  intro p hp hin i hi
  have hop : ((p.2 * width * channel + p.1 * channel + (i : Int), i) : Int × Nat) ∈
      pixel_ops width height channel p := (mem_pixel_ops _ _ _ _ _).2 ⟨hin, hi, rfl⟩
  obtain ⟨v, hv, hb⟩ := fold_put_written color _ img img2 hrun
    (pixel_ops_consistent width height channel color _) _
    (List.mem_flatMap.2 ⟨p, hp, hop⟩)
  refine ⟨v, hv, ?_⟩
  unfold byte_at
  rw [if_pos (pixel_ops_bound _ _ _ _ _ hop).1]
  exact hb

/-- After a run of bounds-checked writes that returns a buffer, the length is as before
and so is every byte that is no channel byte of a listed pixel inside the image. -/
theorem fold_plot_frame (width height channel : Int) (color : List Nat)
    (ps : List (Int × Int)) (img img2 : List Nat)
    (hrun : foldOutcome (plot width height channel color) img ps = .ok img2) :
    img2.length = img.length ∧
    ∀ j : Int, (∀ p ∈ ps, in_image width height p → ∀ i : Nat, (i : Int) < channel →
        j ≠ p.2 * width * channel + p.1 * channel + (i : Int)) →
      byte_at img2 j = byte_at img j := by
  rw [fold_plot_eq_fold_put] at hrun
  refine ⟨fold_put_length color _ img img2 hrun, ?_⟩
  intro j hj
  by_cases h0 : 0 ≤ j
  · obtain ⟨n, rfl⟩ := Int.eq_ofNat_of_zero_le h0
    rw [byte_at_natCast, byte_at_natCast]
    refine fold_put_frame color _ img img2 hrun n ?_
    intro o ho heq
    obtain ⟨p, hp, hop⟩ := List.mem_flatMap.1 ho
    obtain ⟨hin, hlt, hidx⟩ := (mem_pixel_ops _ _ _ _ _).1 hop
    exact hj p hp hin o.2 hlt (by rw [← heq, hidx])
  · rw [byte_at_neg _ _ (by omega), byte_at_neg _ _ (by omega)]

theorem coords_in_range_swap (x0 y0 x1 y1 : Int) (h : coords_in_range x0 y0 x1 y1) :
    coords_in_range x1 y1 x0 y0 := by
  obtain ⟨h1, h2, h3, h4⟩ := h
  exact ⟨h3, h4, h1, h2⟩

/-- C1 (symmetry), as the code has it: for endpoints in `[-2 ^ 28, 2 ^ 28]`, swapping the
endpoints visits, in order, the point reflections `(x0 + x1 - x, y0 + y1 - y)` of the pixels
visited before. Whenever the two calls visit the same set of pixels, on an image whose byte
count `height * width * channel` fits in an `int`, they give the same outcome from the same
buffer and color; and they visit the same set on every horizontal, vertical and diagonal
segment. -/
theorem draw_line_swap_endpoints_int32 (fuel : Nat) (img : List Nat)
    (width height channel x0 y0 x1 y1 : Int) (color : List Nat)
    (hrange : coords_in_range x0 y0 x1 y1)
    (hfuel : line_fuel x0 y0 x1 y1 ≤ fuel) :
    ∃ ps qs, Machine.visited fuel x0 y0 x1 y1 = some ps ∧
      Machine.visited fuel x1 y1 x0 y0 = some qs ∧
      qs = ps.map (fun p => (x0 + x1 - p.1, y0 + y1 - p.2)) ∧
      ((∀ p, p ∈ qs ↔ p ∈ ps) → height * width * channel ≤ 2147483647 →
        Machine.draw_line fuel img width height channel x1 y1 x0 y0 color =
          Machine.draw_line fuel img width height channel x0 y0 x1 y1 color) ∧
      ((x0 = x1 ∨ y0 = y1 ∨ |x1 - x0| = |y1 - y0|) → ∀ p, p ∈ qs ↔ p ∈ ps) := by
  have hfuel2 : line_fuel x1 y1 x0 y0 ≤ fuel := by rw [line_fuel_comm]; exact hfuel
  have hrange2 := coords_in_range_swap x0 y0 x1 y1 hrange
  obtain ⟨ps, qs, h1, h2, h3, h4, h5⟩ :=
    draw_line_swap_endpoints fuel img width height channel x0 y0 x1 y1 color hfuel
  refine ⟨ps, qs, ?_, ?_, h3, ?_, h5⟩
  · rw [machine_visited_eq fuel x0 y0 x1 y1 hrange, h1]
  · rw [machine_visited_eq fuel x1 y1 x0 y0 hrange2, h2]
  · intro hset hgeo
    rw [machine_draw_line_eq fuel img width height channel x1 y1 x0 y0 color hrange2 hgeo hfuel2,
      machine_draw_line_eq fuel img width height channel x0 y0 x1 y1 color hrange hgeo hfuel]
    exact h4 hset

theorem draw_line_swap_endpoints_int32_witness :
    coords_in_range 0 0 3 3 ∧ line_fuel 0 0 3 3 ≤ 4 ∧
    ∃ ps qs, Machine.visited 4 0 0 3 3 = some ps ∧ Machine.visited 4 3 3 0 0 = some qs ∧
      qs = ps.map (fun p => (0 + 3 - p.1, 0 + 3 - p.2)) ∧
      ((∀ p, p ∈ qs ↔ p ∈ ps) → (4 : Int) * 4 * 1 ≤ 2147483647 →
        Machine.draw_line 4 (List.replicate 16 0) 4 4 1 3 3 0 0 [9] =
          Machine.draw_line 4 (List.replicate 16 0) 4 4 1 0 0 3 3 [9]) ∧
      (((0 : Int) = 3 ∨ (0 : Int) = 3 ∨ |(3 : Int) - 0| = |(3 : Int) - 0|) →
        ∀ p, p ∈ qs ↔ p ∈ ps) :=
  ⟨by decide, by decide,
    draw_line_swap_endpoints_int32 4 (List.replicate 16 0) 4 4 1 0 0 3 3 [9] (by decide)
      (by decide)⟩

/-- C1, the claim as stated fails: `(0,0,2,1)` visits `(1,1)` and its reversal visits `(1,0)`
instead, and on a 3x2 single-channel buffer the two final buffers differ; on the horizontal
segment `(0,0,1073741825,0)` the stepping overflows and the first pixels of the reversal
are not the reflections of the first pixels. -/
theorem draw_line_symmetry_int32_counterexample :
    Machine.visited 3 0 0 2 1 = some [(0, 0), (1, 1), (2, 1)] ∧
    Machine.visited 3 2 1 0 0 = some [(2, 1), (1, 0), (0, 0)] ∧
    ¬(∀ p : Int × Int, p ∈ [((0 : Int), (0 : Int)), (1, 1), (2, 1)] ↔
        p ∈ [((2 : Int), (1 : Int)), (1, 0), (0, 0)]) ∧
    Machine.draw_line 3 (List.replicate 6 0) 3 2 1 0 0 2 1 [9] = .ok [9, 0, 0, 0, 9, 9] ∧
    Machine.draw_line 3 (List.replicate 6 0) 3 2 1 2 1 0 0 [9] = .ok [9, 9, 0, 0, 0, 9] ∧
    Machine.draw_line 3 (List.replicate 6 0) 3 2 1 0 0 2 1 [9] ≠
      Machine.draw_line 3 (List.replicate 6 0) 3 2 1 2 1 0 0 [9] ∧
    Machine.first_pixels 3 0 0 1073741825 0 = [(0, 0), (0, -1), (1, -2)] ∧
    Machine.first_pixels 3 1073741825 0 0 0 =
      [(1073741825, 0), (1073741825, -1), (1073741824, -2)] := by
  refine ⟨by decide, by decide, ?_, by decide, by decide, by decide, by decide, by decide⟩
  intro h
  have := (h (1, 1)).1 (by decide)
  revert this
  decide

/-- C2 (channel fidelity), as the code has it: on an image whose byte count
`height * width * channel` fits in an `int`, with a buffer of at least that many bytes and a
color of `channel` bytes, after `draw_line` returns every channel byte
`y * width * channel + x * channel + i` of every visited pixel `(x, y)` inside the image
equals `color[i]`; and it does return for endpoints in `[-2 ^ 28, 2 ^ 28]`. -/
theorem draw_line_channel_fidelity_int32 (fuel : Nat) (img : List Nat)
    (width height channel x0 y0 x1 y1 : Int) (color : List Nat)
    (hgeo : height * width * channel ≤ 2147483647)
    (hlen : height * width * channel ≤ (img.length : Int))
    (hcol : (color.length : Int) = channel) :
    (∀ img2, Machine.draw_line fuel img width height channel x0 y0 x1 y1 color = .ok img2 →
      ∃ ps, Machine.visited fuel x0 y0 x1 y1 = some ps ∧
        ∀ p ∈ ps, 0 ≤ p.1 → p.1 < width → 0 ≤ p.2 → p.2 < height →
          ∀ i : Nat, (i : Int) < channel →
            ∃ v, color[i]? = some v ∧
              byte_at img2 (p.2 * width * channel + p.1 * channel + (i : Int)) = some v) ∧
    (coords_in_range x0 y0 x1 y1 → line_fuel x0 y0 x1 y1 ≤ fuel →
      ∃ img2, Machine.draw_line fuel img width height channel x0 y0 x1 y1 color =
        .ok img2) := by
  constructor
  · intro img2 hrun
    obtain ⟨ps, hps⟩ := machine_draw_line_ok_trace fuel img img2 width height channel
      x0 y0 x1 y1 color hrun
    rw [machine_draw_line_eq_fold fuel img width height channel x0 y0 x1 y1 color ps hps,
      machine_fold_plot_eq width height channel color hgeo] at hrun
    refine ⟨ps, hps, ?_⟩
    intro p hp h1 h2 h3 h4 i hi
    exact fold_plot_written width height channel color ps img img2 hrun p hp ⟨h1, h2, h3, h4⟩
      i hi
  · intro hrange hfuel
    obtain ⟨img2, hrun, -⟩ := fold_plot_spec width height channel color
      (line_pixels x0 y0 x1 y1) img hlen (le_of_eq hcol.symm)
    exact ⟨img2, by
      rw [machine_draw_line_eq_fold_line_pixels fuel img width height channel x0 y0 x1 y1 color
        hrange hfuel, machine_fold_plot_eq width height channel color hgeo, hrun]⟩

theorem draw_line_channel_fidelity_int32_witness :
    (2 : Int) * 2 * 3 ≤ 2147483647 ∧
    (2 : Int) * 2 * 3 ≤ ((List.replicate 12 0).length : Int) ∧
    (([7, 8, 9] : List Nat).length : Int) = 3 ∧
    ((∀ img2, Machine.draw_line 2 (List.replicate 12 0) 2 2 3 0 0 1 1 [7, 8, 9] = .ok img2 →
      ∃ ps, Machine.visited 2 0 0 1 1 = some ps ∧
        ∀ p ∈ ps, 0 ≤ p.1 → p.1 < 2 → 0 ≤ p.2 → p.2 < 2 →
          ∀ i : Nat, (i : Int) < 3 →
            ∃ v, ([7, 8, 9] : List Nat)[i]? = some v ∧
              byte_at img2 (p.2 * 2 * 3 + p.1 * 3 + (i : Int)) = some v) ∧
    (coords_in_range 0 0 1 1 → line_fuel 0 0 1 1 ≤ 2 →
      ∃ img2, Machine.draw_line 2 (List.replicate 12 0) 2 2 3 0 0 1 1 [7, 8, 9] =
        .ok img2)) ∧
    Machine.draw_line 2 (List.replicate 12 0) 2 2 3 0 0 1 1 [7, 8, 9] =
      .ok [7, 8, 9, 0, 0, 0, 0, 0, 0, 7, 8, 9] :=
  ⟨by decide, by decide, by decide,
    draw_line_channel_fidelity_int32 2 (List.replicate 12 0) 2 2 3 0 0 1 1 [7, 8, 9]
      (by decide) (by decide) (by decide), by decide⟩

/-- A degenerate segment runs the loop once: it is the write of its pixel. -/
theorem machine_draw_line_point (fuel : Nat) (img : List Nat)
    (width height channel x0 y0 : Int) (color : List Nat) :
    Machine.visited (fuel + 1) x0 y0 x0 y0 = some [(x0, y0)] ∧
    Machine.draw_line (fuel + 1) img width height channel x0 y0 x0 y0 color =
      Machine.plot width height channel color img (x0, y0) := by
  constructor
  · unfold Machine.visited
    simp only
    rw [Machine.line_pixels_loop, if_pos ⟨rfl, rfl⟩]
  · unfold Machine.draw_line
    simp only
    rw [Machine.draw_line_loop]
    simp only [and_self, if_true]
    cases Machine.plot width height channel color img (x0, y0) <;> rfl

/-- The write of a pixel of a single-channel image whose `int` offset is `k`. -/
theorem machine_plot_single_channel (width height x0 y0 : Int) (c : Nat) (img : List Nat)
    (k : Nat) (hin : in_image width height (x0, y0))
    (hoff : Machine.offset width 1 x0 y0 0 = (k : Int)) (hk : k < img.length) :
    Machine.plot width height 1 [c] img (x0, y0) = .ok (img.set k c) := by
  unfold Machine.plot
  rw [if_pos hin]
  unfold Machine.write_pixel
  have hr : List.range (1 : Int).toNat = [0] := by decide
  rw [hr]
  simp only [foldOutcome, Machine.write_channel, hoff]
  have hp : put [c] img ((k : Int), 0) = .ok (img.set k c) := by
    rw [put_ok_iff]
    exact ⟨c, rfl, Int.ofNat_nonneg k, Int.ofNat_lt.2 hk, by simp⟩
  rw [hp]
  rfl

theorem byte_at_replicate (n : Nat) (j : Nat) (h : j < n) :
    byte_at (List.replicate n 0) (j : Int) = some 0 := by
  rw [byte_at_natCast, List.getElem?_replicate, if_pos h]

theorem byte_at_set_ne (img : List Nat) (k c : Nat) (j : Nat) (h : k ≠ j) :
    byte_at (img.set k c) (j : Int) = byte_at img (j : Int) := by
  rw [byte_at_natCast, byte_at_natCast, List.getElem?_set_ne h]

theorem byte_at_set_self (img : List Nat) (k c : Nat) (h : k < img.length) :
    byte_at (img.set k c) (k : Int) = some c := by
  rw [byte_at_natCast, List.getElem?_set_self h]

/-- C2, the claim as stated fails: on the single-channel image of 5 rows and `2 ^ 30`
columns, with a buffer of `5 * 2 ^ 30` bytes, the offset of the visited pixel `(3, 4)`
overflows: the call writes byte 3 and the byte `4 * 2 ^ 30 + 3` of the pixel keeps its
value 0, not the color 9. -/
theorem draw_line_channel_fidelity_int32_counterexample :
    ((0 : Int) < 1073741824 ∧ (0 : Int) < 5 ∧ (0 : Int) < 1) ∧
    (5 : Int) * 1073741824 * 1 ≤ ((List.replicate 5368709120 0).length : Int) ∧
    (([9] : List Nat).length : Int) = 1 ∧
    Machine.visited 1 3 4 3 4 = some [(3, 4)] ∧
    ((0 : Int) ≤ 3 ∧ (3 : Int) < 1073741824 ∧ (0 : Int) ≤ 4 ∧ (4 : Int) < 5) ∧
    Machine.draw_line 1 (List.replicate 5368709120 0) 1073741824 5 1 3 4 3 4 [9] =
      .ok ((List.replicate 5368709120 0).set 3 9) ∧
    ([9] : List Nat)[0]? = some 9 ∧
    byte_at ((List.replicate 5368709120 0).set 3 9) (4 * 1073741824 * 1 + 3 * 1 + (0 : Nat)) =
      some 0 := by
  refine ⟨by decide, ?_, by decide, (machine_draw_line_point 0 [] 0 0 0 3 4 []).1, by decide,
    ?_, rfl, ?_⟩
  · rw [List.length_replicate]
    decide
  · rw [(machine_draw_line_point 0 _ 1073741824 5 1 3 4 [9]).2]
    exact machine_plot_single_channel 1073741824 5 3 4 9 _ 3 (by decide) (by decide)
      (by rw [List.length_replicate]; decide)
  · have e : ((4 : Int) * 1073741824 * 1 + 3 * 1 + ((0 : Nat) : Int)) = ((4294967299 : Nat) : Int) := by
      decide
    rw [e, byte_at_set_ne _ _ _ _ (by decide)]
    exact byte_at_replicate _ _ (by decide)

theorem foldOutcome_singleton {α : Type} (f : List Nat → α → Outcome) (img : List Nat)
    (a : α) : foldOutcome f img [a] = f img a := by
  simp only [foldOutcome]
  cases f img a <;> rfl

/-- C4 (bounds safety), as the code has it: for endpoints in `[-2 ^ 28, 2 ^ 28]` every
pixel visited lies in the bounding box of the two endpoints, so a segment with both
endpoints beyond the same edge of the image (both `x < 0`, both `x >= width`, both `y < 0`
or both `y >= height`) returns normally with the buffer unchanged, whatever the geometry,
the buffer and the color. -/
theorem draw_line_outside_unchanged_int32 (fuel : Nat) (img : List Nat)
    (width height channel x0 y0 x1 y1 : Int) (color : List Nat)
    (hrange : coords_in_range x0 y0 x1 y1)
    (hfuel : line_fuel x0 y0 x1 y1 ≤ fuel)
    (hout : (x0 < 0 ∧ x1 < 0) ∨ (width ≤ x0 ∧ width ≤ x1) ∨ (y0 < 0 ∧ y1 < 0) ∨
      (height ≤ y0 ∧ height ≤ y1)) :
    (∃ ps, Machine.visited fuel x0 y0 x1 y1 = some ps ∧
      ∀ p ∈ ps, min x0 x1 ≤ p.1 ∧ p.1 ≤ max x0 x1 ∧ min y0 y1 ≤ p.2 ∧ p.2 ≤ max y0 y1 ∧
        ¬in_image width height p) ∧
    Machine.draw_line fuel img width height channel x0 y0 x1 y1 color = .ok img := by
  obtain ⟨⟨ps, hps, hbox⟩, -⟩ :=
    draw_line_outside_unchanged fuel img width height channel x0 y0 x1 y1 color hfuel hout
  have hm : Machine.visited fuel x0 y0 x1 y1 = some ps := by
    rw [machine_visited_eq fuel x0 y0 x1 y1 hrange, hps]
  refine ⟨⟨ps, hm, hbox⟩, ?_⟩
  rw [machine_draw_line_eq_fold fuel img width height channel x0 y0 x1 y1 color ps hm]
  exact machine_fold_plot_outside _ _ _ _ _ (fun p hp => (hbox p hp).2.2.2.2) img

theorem draw_line_outside_unchanged_int32_witness :
    coords_in_range (-50) (-50) (-40) (-40) ∧
    line_fuel (-50) (-50) (-40) (-40) ≤ 11 ∧
    (((-50 : Int) < 0 ∧ (-40 : Int) < 0) ∨ ((10 : Int) ≤ -50 ∧ (10 : Int) ≤ -40) ∨
      ((-50 : Int) < 0 ∧ (-40 : Int) < 0) ∨ ((10 : Int) ≤ -50 ∧ (10 : Int) ≤ -40)) ∧
    ((∃ ps, Machine.visited 11 (-50) (-50) (-40) (-40) = some ps ∧
      ∀ p ∈ ps, min (-50) (-40) ≤ p.1 ∧ p.1 ≤ max (-50) (-40) ∧ min (-50) (-40) ≤ p.2 ∧
        p.2 ≤ max (-50) (-40) ∧ ¬in_image 10 10 p) ∧
    Machine.draw_line 11 (List.replicate 100 0) 10 10 1 (-50) (-50) (-40) (-40) [255] =
      .ok (List.replicate 100 0)) :=
  ⟨by decide, by decide, by decide,
    draw_line_outside_unchanged_int32 11 (List.replicate 100 0) 10 10 1 (-50) (-50) (-40) (-40)
      [255] (by decide) (by decide) (by decide)⟩

/-- C4, the claim as stated fails: both endpoints of `(0,-5,1073741825,-4)` have `y < 0`,
the stepping overflows, the sixth pixel visited is `(2,0)`, inside the 10x10 image, and
whatever the number of iterations the call does not return the buffer unchanged. -/
theorem draw_line_outside_int32_counterexample :
    ((-5 : Int) < 0 ∧ (-4 : Int) < 0) ∧
    Machine.first_pixels 6 0 (-5) 1073741825 (-4) =
      [(0, -5), (0, -4), (1, -3), (1, -2), (2, -1), (2, 0)] ∧
    in_image 10 10 (2, 0) ∧
    ∀ fuel : Nat,
      Machine.draw_line fuel (List.replicate 100 0) 10 10 1 0 (-5) 1073741825 (-4) [9] ≠
        .ok (List.replicate 100 0) := by
  refine ⟨by decide, by decide, by decide, ?_⟩
  intro fuel hrun
  obtain ⟨ps, hps⟩ := machine_draw_line_ok_trace fuel _ _ 10 10 1 0 (-5) 1073741825 (-4) [9] hrun
  have hmem : ((2 : Int), (0 : Int)) ∈ ps :=
    machine_mem_of_mem_first_pixels fuel 6 0 (-5) 1073741825 (-4) ps (2, 0) hps (by decide)
  rw [machine_draw_line_eq_fold fuel _ 10 10 1 0 (-5) 1073741825 (-4) [9] ps hps,
    machine_fold_plot_eq 10 10 1 [9] (by decide)] at hrun
  obtain ⟨v, hv, hb⟩ := fold_plot_written 10 10 1 [9] ps _ _ hrun (2, 0) hmem (by decide) 0
    (by decide)
  have hv9 : v = 9 := by
    have : ([9] : List Nat)[0]? = some 9 := rfl
    rw [this] at hv
    exact (Option.some.inj hv).symm
  subst hv9
  revert hb
  decide

/-- C7 (single pixel), as the code has it: a degenerate segment `(x0, y0, x0, y0)` visits
the one pixel `(x0, y0)`; when it is inside an image whose byte count
`height * width * channel` fits in an `int` (buffer of at least that many bytes, color of
`channel` bytes) `draw_line` returns a buffer of the same length whose bytes
`y0 * width * channel + x0 * channel + i`, `i < channel`, are the color bytes and whose
other bytes are as before. -/
theorem draw_line_single_pixel_int32 (fuel : Nat) (img : List Nat)
    (width height channel x0 y0 : Int) (color : List Nat)
    (hfuel : line_fuel x0 y0 x0 y0 ≤ fuel)
    (hgeo : height * width * channel ≤ 2147483647)
    (hin : in_image width height (x0, y0))
    (hlen : height * width * channel ≤ (img.length : Int))
    (hcol : (color.length : Int) = channel) :
    Machine.visited fuel x0 y0 x0 y0 = some [(x0, y0)] ∧
    ∃ img2, Machine.draw_line fuel img width height channel x0 y0 x0 y0 color = .ok img2 ∧
      img2.length = img.length ∧
      (∀ i : Nat, (i : Int) < channel →
        ∃ v, color[i]? = some v ∧
          byte_at img2 (y0 * width * channel + x0 * channel + (i : Int)) = some v) ∧
      (∀ j : Int, (∀ i : Nat, (i : Int) < channel →
          j ≠ y0 * width * channel + x0 * channel + (i : Int)) →
        byte_at img2 j = byte_at img j) := by
  obtain ⟨f, rfl⟩ : ∃ f, fuel = f + 1 := ⟨fuel - 1, by unfold line_fuel at hfuel; omega⟩
  obtain ⟨hv, hd⟩ := machine_draw_line_point f img width height channel x0 y0 color
  refine ⟨hv, ?_⟩
  obtain ⟨img2, hrun, -⟩ := fold_plot_spec width height channel color [(x0, y0)] img hlen
    (le_of_eq hcol.symm)
  have hw := fold_plot_written width height channel color [(x0, y0)] img img2 hrun
  obtain ⟨hl, hfr⟩ := fold_plot_frame width height channel color [(x0, y0)] img img2 hrun
  rw [foldOutcome_singleton] at hrun
  refine ⟨img2, ?_, hl, ?_, ?_⟩
  · rw [hd, machine_plot_eq width height channel color hgeo, hrun]
  · intro i hi
    exact hw (x0, y0) (List.mem_singleton.2 rfl) hin i hi
  · intro j hj
    refine hfr j ?_
    intro p hp _ i hi
    rw [List.mem_singleton] at hp
    subst hp
    exact hj i hi

theorem draw_line_single_pixel_int32_witness :
    line_fuel 5 5 5 5 ≤ 1 ∧ (10 : Int) * 10 * 3 ≤ 2147483647 ∧ in_image 10 10 (5, 5) ∧
    (10 : Int) * 10 * 3 ≤ ((List.replicate 300 0).length : Int) ∧
    (([255, 0, 0] : List Nat).length : Int) = 3 ∧
    (Machine.visited 1 5 5 5 5 = some [(5, 5)] ∧
    ∃ img2, Machine.draw_line 1 (List.replicate 300 0) 10 10 3 5 5 5 5 [255, 0, 0] =
        .ok img2 ∧
      img2.length = (List.replicate 300 0).length ∧
      (∀ i : Nat, (i : Int) < 3 →
        ∃ v, ([255, 0, 0] : List Nat)[i]? = some v ∧
          byte_at img2 (5 * 10 * 3 + 5 * 3 + (i : Int)) = some v) ∧
      (∀ j : Int, (∀ i : Nat, (i : Int) < 3 → j ≠ 5 * 10 * 3 + 5 * 3 + (i : Int)) →
        byte_at img2 j = byte_at (List.replicate 300 0) j)) ∧
    Machine.draw_line 1 (List.replicate 300 0) 10 10 3 5 5 5 5 [255, 0, 0] =
      .ok (List.replicate 165 0 ++ [255, 0, 0] ++ List.replicate 132 0) :=
  ⟨by decide, by decide, by decide, by decide, by decide,
    draw_line_single_pixel_int32 1 (List.replicate 300 0) 10 10 3 5 5 [255, 0, 0]
      (by decide) (by decide) (by decide) (by decide) (by decide), by decide⟩

/-- C7, the claim as stated fails: on the single-channel image of 5 rows and `2 ^ 30`
columns the degenerate segment `(3,4,3,4)` lies inside the image, its offset overflows to
3, so the call changes byte 3, which is no byte of pixel `(3,4)`, and leaves the byte
`4 * 2 ^ 30 + 3` of the pixel as it was. -/
theorem draw_line_single_pixel_int32_counterexample :
    in_image 1073741824 5 (3, 4) ∧
    (5 : Int) * 1073741824 * 1 ≤ ((List.replicate 5368709120 7).length : Int) ∧
    Machine.draw_line 1 (List.replicate 5368709120 7) 1073741824 5 1 3 4 3 4 [9] =
      .ok ((List.replicate 5368709120 7).set 3 9) ∧
    (3 : Int) ≠ 4 * 1073741824 * 1 + 3 * 1 + (0 : Nat) ∧
    byte_at (List.replicate 5368709120 7) 3 = some 7 ∧
    byte_at ((List.replicate 5368709120 7).set 3 9) 3 = some 9 := by
  refine ⟨by decide, ?_, ?_, by decide, ?_, ?_⟩
  · rw [List.length_replicate]
    decide
  · rw [(machine_draw_line_point 0 _ 1073741824 5 1 3 4 [9]).2]
    exact machine_plot_single_channel 1073741824 5 3 4 9 _ 3 (by decide) (by decide)
      (by rw [List.length_replicate]; decide)
  · have e : (3 : Int) = ((3 : Nat) : Int) := rfl
    rw [e, byte_at_natCast, List.getElem?_replicate, if_pos (by decide)]
  · have e : (3 : Int) = ((3 : Nat) : Int) := rfl
    rw [e]
    exact byte_at_set_self _ 3 9 (by rw [List.length_replicate]; decide)

/-- C8 (horizontal/vertical exactness), as the code has it: for endpoints in
`[-2 ^ 28, 2 ^ 28]` a horizontal segment visits exactly the pixels `(x, y0)` with
`min x0 x1 <= x <= max x0 x1`, a vertical segment exactly the pixels `(x0, y)` with
`min y0 y1 <= y <= max y0 y1`; and `(0,0,9,0)` on a width-10 height-1 single-channel
buffer, `(0,0,0,9)` on a width-1 height-10 single-channel buffer each set all 10 bytes to
the color byte. -/
theorem draw_line_axis_aligned_exact_int32 (fuel : Nat) (x0 y0 x1 y1 : Int)
    (hrange : coords_in_range x0 y0 x1 y1)
    (hfuel : line_fuel x0 y0 x1 y1 ≤ fuel) :
    (∃ ps, Machine.visited fuel x0 y0 x1 y1 = some ps ∧
      (y0 = y1 → ∀ p : Int × Int,
        p ∈ ps ↔ (p.2 = y0 ∧ min x0 x1 ≤ p.1 ∧ p.1 ≤ max x0 x1)) ∧
      (x0 = x1 → ∀ p : Int × Int,
        p ∈ ps ↔ (p.1 = x0 ∧ min y0 y1 ≤ p.2 ∧ p.2 ≤ max y0 y1))) ∧
    (∀ c : Nat, Machine.draw_line 10 (List.replicate 10 0) 10 1 1 0 0 9 0 [c] =
      .ok (List.replicate 10 c)) ∧
    (∀ c : Nat, Machine.draw_line 10 (List.replicate 10 0) 1 10 1 0 0 0 9 [c] =
      .ok (List.replicate 10 c)) := by
  obtain ⟨⟨ps, hps, hh, hv⟩, c1, c2⟩ := draw_line_axis_aligned_exact fuel x0 y0 x1 y1 hfuel
  refine ⟨⟨ps, ?_, hh, hv⟩, ?_, ?_⟩
  · rw [machine_visited_eq fuel x0 y0 x1 y1 hrange, hps]
  · intro c
    rw [machine_draw_line_eq 10 _ 10 1 1 0 0 9 0 [c] (by decide) (by decide) (by decide)]
    exact c1 c
  · intro c
    rw [machine_draw_line_eq 10 _ 1 10 1 0 0 0 9 [c] (by decide) (by decide) (by decide)]
    exact c2 c

theorem draw_line_axis_aligned_exact_int32_witness :
    coords_in_range 0 0 9 0 ∧ line_fuel 0 0 9 0 ≤ 10 ∧
    ((∃ ps, Machine.visited 10 0 0 9 0 = some ps ∧
      ((0 : Int) = 0 → ∀ p : Int × Int,
        p ∈ ps ↔ (p.2 = 0 ∧ min 0 9 ≤ p.1 ∧ p.1 ≤ max 0 9)) ∧
      ((0 : Int) = 9 → ∀ p : Int × Int,
        p ∈ ps ↔ (p.1 = 0 ∧ min 0 0 ≤ p.2 ∧ p.2 ≤ max 0 0))) ∧
    (∀ c : Nat, Machine.draw_line 10 (List.replicate 10 0) 10 1 1 0 0 9 0 [c] =
      .ok (List.replicate 10 c)) ∧
    (∀ c : Nat, Machine.draw_line 10 (List.replicate 10 0) 1 10 1 0 0 0 9 [c] =
      .ok (List.replicate 10 c))) :=
  ⟨by decide, by decide, draw_line_axis_aligned_exact_int32 10 0 0 9 0 (by decide) (by decide)⟩

/-- C8, the claim as stated fails: on the horizontal segment `(0,0,1073741825,0)` the
stepping overflows and the second pixel visited is `(0,-1)`, off the row `y = 0`; on the
vertical segment `(0,0,0,1073741825)` it is `(-1,0)`, off the column `x = 0`. -/
theorem draw_line_axis_aligned_int32_counterexample :
    Machine.first_pixels 2 0 0 1073741825 0 = [(0, 0), (0, -1)] ∧
    (∀ (fuel : Nat) (ps : List (Int × Int)),
      Machine.visited fuel 0 0 1073741825 0 = some ps →
      ¬(∀ p : Int × Int,
        p ∈ ps ↔ (p.2 = 0 ∧ min 0 1073741825 ≤ p.1 ∧ p.1 ≤ max 0 1073741825))) ∧
    Machine.first_pixels 2 0 0 0 1073741825 = [(0, 0), (-1, 0)] ∧
    (∀ (fuel : Nat) (ps : List (Int × Int)),
      Machine.visited fuel 0 0 0 1073741825 = some ps →
      ¬(∀ p : Int × Int,
        p ∈ ps ↔ (p.1 = 0 ∧ min 0 1073741825 ≤ p.2 ∧ p.2 ≤ max 0 1073741825))) := by
  refine ⟨by decide, ?_, by decide, ?_⟩
  · intro fuel ps hps hall
    have hmem : ((0 : Int), (-1 : Int)) ∈ ps :=
      machine_mem_of_mem_first_pixels fuel 2 0 0 1073741825 0 ps (0, -1) hps (by decide)
    have := ((hall (0, -1)).1 hmem).1
    revert this
    decide
  · intro fuel ps hps hall
    have hmem : ((-1 : Int), (0 : Int)) ∈ ps :=
      machine_mem_of_mem_first_pixels fuel 2 0 0 0 1073741825 ps (-1, 0) hps (by decide)
    have := ((hall (-1, 0)).1 hmem).1
    revert this
    decide

/-- C9 (diagonal connectivity), as the code has it: for endpoints in `[-2 ^ 28, 2 ^ 28]`,
on a segment with `|x1 - x0| = |y1 - y0|` the visited pixels are, in order,
`(x0 + k * sx, y0 + k * sy)` for `k = 0, ..., |x1 - x0|`, with `sx`, `sy` in `{1, -1}`;
consecutive pixels differ by exactly `(sx, sy)`. -/
theorem draw_line_diagonal_connected_int32 (fuel : Nat) (x0 y0 x1 y1 : Int)
    (hrange : coords_in_range x0 y0 x1 y1)
    (hfuel : line_fuel x0 y0 x1 y1 ≤ fuel) (hd : |x1 - x0| = |y1 - y0|) :
    ∃ ps, Machine.visited fuel x0 y0 x1 y1 = some ps ∧
      ps = (List.range ((x1 - x0).natAbs + 1)).map (fun k : Nat =>
        (x0 + (k : Int) * step_sign x0 x1, y0 + (k : Int) * step_sign y0 y1)) ∧
      List.Chain' (fun p q : Int × Int =>
        q.1 - p.1 = step_sign x0 x1 ∧ q.2 - p.2 = step_sign y0 y1) ps ∧
      (step_sign x0 x1 = 1 ∨ step_sign x0 x1 = -1) ∧
      (step_sign y0 y1 = 1 ∨ step_sign y0 y1 = -1) := by
  obtain ⟨ps, hps, hrest⟩ := draw_line_diagonal_connected fuel x0 y0 x1 y1 hfuel hd
  exact ⟨ps, by rw [machine_visited_eq fuel x0 y0 x1 y1 hrange, hps], hrest⟩

theorem draw_line_diagonal_connected_int32_witness :
    coords_in_range 3 0 0 3 ∧ line_fuel 3 0 0 3 ≤ 4 ∧ |(0 : Int) - 3| = |(3 : Int) - 0| ∧
    ∃ ps, Machine.visited 4 3 0 0 3 = some ps ∧
      ps = (List.range (((0 : Int) - 3).natAbs + 1)).map (fun k : Nat =>
        (3 + (k : Int) * step_sign 3 0, 0 + (k : Int) * step_sign 0 3)) ∧
      List.Chain' (fun p q : Int × Int =>
        q.1 - p.1 = step_sign 3 0 ∧ q.2 - p.2 = step_sign 0 3) ps ∧
      (step_sign 3 0 = 1 ∨ step_sign 3 0 = -1) ∧
      (step_sign 0 3 = 1 ∨ step_sign 0 3 = -1) :=
  ⟨by decide, by decide, by decide,
    draw_line_diagonal_connected_int32 4 3 0 0 3 (by decide) (by decide) (by decide)⟩

/-- C9, the claim as stated fails: on the diagonal segment
`(-2 ^ 30, -2 ^ 30, 2 ^ 30, 2 ^ 30)` the difference `x1 - x0 = 2 ^ 31` overflows and the
second pixel visited is one step to the right of the first, on the same row, so it is none
of the pixels `(x0 + k, y0 + k)`, for which `y - x = 0`. -/
theorem draw_line_diagonal_int32_counterexample :
    |(1073741824 : Int) - (-1073741824)| = |(1073741824 : Int) - (-1073741824)| ∧
    Machine.first_pixels 2 (-1073741824) (-1073741824) 1073741824 1073741824 =
      [(-1073741824, -1073741824), (-1073741823, -1073741824)] ∧
    (∀ (fuel : Nat) (ps : List (Int × Int)),
      Machine.visited fuel (-1073741824) (-1073741824) 1073741824 1073741824 = some ps →
      ¬(∀ p ∈ ps, p.2 - p.1 = 0)) := by
  refine ⟨rfl, by decide, ?_⟩
  intro fuel ps hps hall
  have hmem : ((-1073741823 : Int), (-1073741824 : Int)) ∈ ps :=
    machine_mem_of_mem_first_pixels fuel 2 _ _ _ _ ps _ hps (by decide)
  have := hall _ hmem
  revert this
  decide

/-- On `(-2 ^ 30, 0, 2 ^ 30, 1)` the difference `x1 - x0 = 2 ^ 31` overflows, `dx` is
`-2 ^ 31`, `err` is `2 ^ 31 - 1`, `e2` is `-2`: no branch of the step is taken and the loop
stays at `(x0, y0)` for ever. -/
theorem machine_stuck_segment (fuel : Nat) :
    Machine.visited fuel (-1073741824) 0 1073741824 1 = none := by
  unfold Machine.visited
  exact machine_stuck_trace _ _ _ _ _ _ _ (by decide) (by decide) fuel

theorem machine_stuck_segment_no_return (fuel : Nat) (img img2 : List Nat)
    (width height channel : Int) (color : List Nat) :
    Machine.draw_line fuel img width height channel (-1073741824) 0 1073741824 1 color ≠
      .ok img2 := by
  intro h
  obtain ⟨ps, hps⟩ := machine_draw_line_ok_trace fuel img img2 width height channel _ _ _ _
    color h
  rw [machine_stuck_segment fuel] at hps
  cases hps

/-- C12 (endpoint inclusion), as the code has it: for endpoints in `[-2 ^ 28, 2 ^ 28]` the
visited sequence starts with `(x0, y0)` and ends with `(x1, y1)`; on an image whose byte
count `height * width * channel` fits in an `int`, with a buffer of at least that many bytes
and a color of `channel` bytes, the call returns a buffer in which each endpoint inside the
image holds the color in all its channel bytes. -/
theorem draw_line_endpoints_int32 (fuel : Nat) (img : List Nat)
    (width height channel x0 y0 x1 y1 : Int) (color : List Nat)
    (hrange : coords_in_range x0 y0 x1 y1)
    (hfuel : line_fuel x0 y0 x1 y1 ≤ fuel)
    (hgeo : height * width * channel ≤ 2147483647)
    (hlen : height * width * channel ≤ (img.length : Int))
    (hcol : (color.length : Int) = channel) :
    (∃ ps, Machine.visited fuel x0 y0 x1 y1 = some ps ∧ ps.head? = some (x0, y0) ∧
      ps.getLast? = some (x1, y1)) ∧
    ∃ img2, Machine.draw_line fuel img width height channel x0 y0 x1 y1 color = .ok img2 ∧
      (in_image width height (x0, y0) → ∀ i : Nat, (i : Int) < channel →
        ∃ v, color[i]? = some v ∧
          byte_at img2 (y0 * width * channel + x0 * channel + (i : Int)) = some v) ∧
      (in_image width height (x1, y1) → ∀ i : Nat, (i : Int) < channel →
        ∃ v, color[i]? = some v ∧
          byte_at img2 (y1 * width * channel + x1 * channel + (i : Int)) = some v) := by
  obtain ⟨⟨ps, hps, hh, hl⟩, img2, hrun, h0, h1⟩ :=
    draw_line_endpoints fuel img width height channel x0 y0 x1 y1 color hfuel hlen hcol
  refine ⟨⟨ps, by rw [machine_visited_eq fuel x0 y0 x1 y1 hrange, hps], hh, hl⟩, img2, ?_,
    h0, h1⟩
  rw [machine_draw_line_eq fuel img width height channel x0 y0 x1 y1 color hrange hgeo hfuel,
    hrun]

theorem draw_line_endpoints_int32_witness :
    coords_in_range 0 0 2 1 ∧ line_fuel 0 0 2 1 ≤ 3 ∧ (2 : Int) * 3 * 1 ≤ 2147483647 ∧
    (2 : Int) * 3 * 1 ≤ ((List.replicate 6 0).length : Int) ∧
    (([9] : List Nat).length : Int) = 1 ∧
    ((∃ ps, Machine.visited 3 0 0 2 1 = some ps ∧ ps.head? = some (0, 0) ∧
      ps.getLast? = some (2, 1)) ∧
    ∃ img2, Machine.draw_line 3 (List.replicate 6 0) 3 2 1 0 0 2 1 [9] = .ok img2 ∧
      (in_image 3 2 (0, 0) → ∀ i : Nat, (i : Int) < 1 →
        ∃ v, ([9] : List Nat)[i]? = some v ∧
          byte_at img2 (0 * 3 * 1 + 0 * 1 + (i : Int)) = some v) ∧
      (in_image 3 2 (2, 1) → ∀ i : Nat, (i : Int) < 1 →
        ∃ v, ([9] : List Nat)[i]? = some v ∧
          byte_at img2 (1 * 3 * 1 + 2 * 1 + (i : Int)) = some v)) :=
  ⟨by decide, by decide, by decide, by decide, by decide,
    draw_line_endpoints_int32 3 (List.replicate 6 0) 3 2 1 0 0 2 1 [9] (by decide) (by decide)
      (by decide) (by decide) (by decide)⟩

/-- C12, the claim as stated fails: on `(-2 ^ 30, 0, 2 ^ 30, 1)` the stepping overflows, the
loop stays at `(x0, y0)`, the visited sequence has no end and the call does not return:
the endpoint `(x1, y1)` is never reached. -/
theorem draw_line_endpoints_int32_counterexample :
    (∀ fuel : Nat, Machine.visited fuel (-1073741824) 0 1073741824 1 = none) ∧
    (∀ n : Nat, ((1073741824 : Int), (1 : Int)) ∉
      Machine.first_pixels n (-1073741824) 0 1073741824 1) ∧
    (∀ (fuel : Nat) (img img2 : List Nat),
      Machine.draw_line fuel img 10 10 1 (-1073741824) 0 1073741824 1 [9] ≠ .ok img2) := by
  refine ⟨machine_stuck_segment, ?_, fun fuel img img2 =>
    machine_stuck_segment_no_return fuel img img2 10 10 1 [9]⟩
  intro n
  unfold Machine.first_pixels
  simp only
  generalize hs : (⟨-1073741824, 0, wrap32 (Machine.delta (-1073741824) 1073741824 +
    wrap32 (-Machine.delta 0 1))⟩ : LineState) = s
  have hfix : bresenham_step32 (Machine.delta (-1073741824) 1073741824)
      (wrap32 (-Machine.delta 0 1)) (step_sign (-1073741824) 1073741824) (step_sign 0 1) s =
      s := by rw [← hs]; decide
  have hxy : (s.x, s.y) = ((-1073741824 : Int), (0 : Int)) := by rw [← hs]
  have hne : ¬(s.x = 1073741824 ∧ s.y = 1) := by rw [← hs]; decide
  clear hs
  induction n with
  | zero => simp [Machine.first_pixels_loop]
  | succ m ih =>
    rw [Machine.first_pixels_loop, if_neg hne, hfix, List.mem_cons, hxy]
    rintro (h | h)
    · revert h; decide
    · exact ih h

/-- C13 (degenerate geometry), as the code has it: for endpoints in `[-2 ^ 28, 2 ^ 28]`,
with `width <= 0` or `height <= 0` the call of `draw_line` returns normally with the buffer
unchanged, for all channel counts, buffers and colors. -/
theorem draw_line_degenerate_geometry_int32 (fuel : Nat) (img : List Nat)
    (width height channel x0 y0 x1 y1 : Int) (color : List Nat)
    (hrange : coords_in_range x0 y0 x1 y1)
    (hfuel : line_fuel x0 y0 x1 y1 ≤ fuel) (hdeg : width ≤ 0 ∨ height ≤ 0) :
    Machine.draw_line fuel img width height channel x0 y0 x1 y1 color = .ok img := by
  rw [machine_draw_line_eq_fold_line_pixels fuel img width height channel x0 y0 x1 y1 color
    hrange hfuel]
  refine machine_fold_plot_outside _ _ _ _ _ ?_ img
  intro p _ hin
  unfold in_image at hin
  omega

theorem draw_line_degenerate_geometry_int32_witness :
    coords_in_range 0 0 3 2 ∧ line_fuel 0 0 3 2 ≤ 4 ∧ ((0 : Int) ≤ 0 ∨ (5 : Int) ≤ 0) ∧
    Machine.draw_line 4 [1, 2, 3] 0 5 3 0 0 3 2 [7, 8, 9] = .ok [1, 2, 3] :=
  ⟨by decide, by decide, by decide,
    draw_line_degenerate_geometry_int32 4 [1, 2, 3] 0 5 3 0 0 3 2 [7, 8, 9] (by decide)
      (by decide) (by decide)⟩

/-- C13, the claim as stated fails: with `width = 0`, on `(-2 ^ 30, 0, 2 ^ 30, 1)` the
stepping overflows and the loop stays at `(x0, y0)`: whatever the number of iterations the
call has not returned. -/
theorem draw_line_degenerate_geometry_int32_counterexample :
    ((0 : Int) ≤ 0 ∨ (5 : Int) ≤ 0) ∧
    (∀ (fuel : Nat) (img2 : List Nat),
      Machine.draw_line fuel [1, 2, 3] 0 5 3 (-1073741824) 0 1073741824 1 [7, 8, 9] ≠
        .ok img2) ∧
    Machine.draw_line 1000 [1, 2, 3] 0 5 3 (-1073741824) 0 1073741824 1 [7, 8, 9] =
      .error .outOfFuel := by
  refine ⟨by decide, fun fuel img2 =>
    machine_stuck_segment_no_return fuel [1, 2, 3] img2 0 5 3 [7, 8, 9], by decide⟩

/-- C14 (8-connectivity), as the code has it: for endpoints in `[-2 ^ 28, 2 ^ 28]`,
consecutive visited pixels differ by at most one in each coordinate and are never equal. -/
theorem draw_line_eight_connected_int32 (fuel : Nat) (x0 y0 x1 y1 : Int)
    (hrange : coords_in_range x0 y0 x1 y1)
    (hfuel : line_fuel x0 y0 x1 y1 ≤ fuel) :
    ∃ ps, Machine.visited fuel x0 y0 x1 y1 = some ps ∧
      List.Chain' (fun p q : Int × Int =>
        |q.1 - p.1| ≤ 1 ∧ |q.2 - p.2| ≤ 1 ∧ q ≠ p) ps := by
  obtain ⟨ps, hps, hc⟩ := draw_line_eight_connected fuel x0 y0 x1 y1 hfuel
  exact ⟨ps, by rw [machine_visited_eq fuel x0 y0 x1 y1 hrange, hps], hc⟩

theorem draw_line_eight_connected_int32_witness :
    coords_in_range 0 0 7 (-3) ∧ line_fuel 0 0 7 (-3) ≤ 8 ∧
    ∃ ps, Machine.visited 8 0 0 7 (-3) = some ps ∧
      List.Chain' (fun p q : Int × Int =>
        |q.1 - p.1| ≤ 1 ∧ |q.2 - p.2| ≤ 1 ∧ q ≠ p) ps :=
  ⟨by decide, by decide, draw_line_eight_connected_int32 8 0 0 7 (-3) (by decide) (by decide)⟩

/-- C14, the claim as stated fails: on `(-2 ^ 30, 0, 2 ^ 30, 1)` the stepping overflows and
the step stays in place: the first two pixels visited are both `(x0, y0)`. -/
theorem draw_line_eight_connected_int32_counterexample :
    Machine.first_pixels 2 (-1073741824) 0 1073741824 1 =
      [(-1073741824, 0), (-1073741824, 0)] ∧
    ¬List.Chain' (fun p q : Int × Int => |q.1 - p.1| ≤ 1 ∧ |q.2 - p.2| ≤ 1 ∧ q ≠ p)
      (Machine.first_pixels 2 (-1073741824) 0 1073741824 1) := by
  have h : Machine.first_pixels 2 (-1073741824) 0 1073741824 1 =
      [(-1073741824, 0), (-1073741824, 0)] := by decide
  refine ⟨h, ?_⟩
  rw [h]
  intro hc
  have := (List.chain'_cons.1 hc).1.2.2
  exact this rfl

/-- C15 (Bresenham accuracy), as the code has it: for endpoints in `[-2 ^ 28, 2 ^ 28]`
every visited pixel `(x, y)` is within half a pixel of the ideal line along the minor axis:
`2 * |(x - x0) * (y1 - y0) - (y - y0) * (x1 - x0)| <= max |x1 - x0| |y1 - y0|`. -/
theorem draw_line_accuracy_int32 (fuel : Nat) (x0 y0 x1 y1 : Int)
    (hrange : coords_in_range x0 y0 x1 y1)
    (hfuel : line_fuel x0 y0 x1 y1 ≤ fuel) :
    ∃ ps, Machine.visited fuel x0 y0 x1 y1 = some ps ∧
      ∀ p ∈ ps, 2 * |(p.1 - x0) * (y1 - y0) - (p.2 - y0) * (x1 - x0)| ≤
        max |x1 - x0| |y1 - y0| := by
  obtain ⟨ps, hps, hc⟩ := draw_line_accuracy fuel x0 y0 x1 y1 hfuel
  exact ⟨ps, by rw [machine_visited_eq fuel x0 y0 x1 y1 hrange, hps], hc⟩

theorem draw_line_accuracy_int32_witness :
    coords_in_range 0 0 7 (-3) ∧ line_fuel 0 0 7 (-3) ≤ 8 ∧
    ∃ ps, Machine.visited 8 0 0 7 (-3) = some ps ∧
      ∀ p ∈ ps, 2 * |(p.1 - 0) * (-3 - 0) - (p.2 - 0) * (7 - 0)| ≤
        max |(7 : Int) - 0| |(-3 : Int) - 0| :=
  ⟨by decide, by decide, draw_line_accuracy_int32 8 0 0 7 (-3) (by decide) (by decide)⟩

/-- C15, the claim as stated fails: on `(0,0,1073741825,1)` the stepping overflows and the
second pixel visited is `(0,1)`, a whole row off the ideal line where the line has hardly
left row 0: `2 * |0 * 1 - 1 * 1073741825| = 2147483650 > 1073741825`. -/
theorem draw_line_accuracy_int32_counterexample :
    Machine.first_pixels 2 0 0 1073741825 1 = [(0, 0), (0, 1)] ∧
    (∀ (fuel : Nat) (ps : List (Int × Int)),
      Machine.visited fuel 0 0 1073741825 1 = some ps →
      ¬(∀ p ∈ ps, 2 * |(p.1 - 0) * (1 - 0) - (p.2 - 0) * (1073741825 - 0)| ≤
        max |(1073741825 : Int) - 0| |(1 : Int) - 0|)) := by
  refine ⟨by decide, ?_⟩
  intro fuel ps hps hall
  have hmem : ((0 : Int), (1 : Int)) ∈ ps :=
    machine_mem_of_mem_first_pixels fuel 2 0 0 1073741825 1 ps (0, 1) hps (by decide)
  have := hall _ hmem
  revert this
  decide

/-- C16 (step count), as the code has it: for endpoints in `[-2 ^ 28, 2 ^ 28]`, `draw_line`
visits exactly `max |x1 - x0| |y1 - y0| + 1` pixels, one per loop iteration: with less fuel
than that the loop has not ended, the `k`-th pixel has advanced exactly `k` along the longer
axis towards the target, and on a batch of segments in range `draw_lines` runs through the
traces of its segments one after the other, the sum over the segments of
`max |x1 - x0| |y1 - y0| + 1` iterations. -/
theorem draw_line_step_count_int32 (fuel : Nat) (x0 y0 x1 y1 : Int)
    (hrange : coords_in_range x0 y0 x1 y1)
    (hfuel : line_fuel x0 y0 x1 y1 ≤ fuel) :
    (∃ ps, Machine.visited fuel x0 y0 x1 y1 = some ps ∧
      ps.length = max (x1 - x0).natAbs (y1 - y0).natAbs + 1 ∧
      ∀ (k : Nat) (p : Int × Int), ps[k]? = some p →
        if |y1 - y0| ≤ |x1 - x0| then p.1 = x0 + step_sign x0 x1 * (k : Int)
          else p.2 = y0 + step_sign y0 y1 * (k : Int)) ∧
    (∀ f : Nat, f < max (x1 - x0).natAbs (y1 - y0).natAbs + 1 →
      Machine.visited f x0 y0 x1 y1 = none) ∧
    (∀ lines : List Segment, (∀ l ∈ lines, segment_in_range l) →
      (∀ l ∈ lines, segment_fuel l ≤ fuel) →
      ∃ traces : List (List (Int × Int)),
        lines.map (fun l => Machine.visited fuel l.1 l.2.1 l.2.2.1 l.2.2.2) =
          traces.map some ∧
        (traces.map List.length).sum =
          (lines.map fun l => max (l.2.2.1 - l.1).natAbs (l.2.2.2 - l.2.1).natAbs + 1).sum ∧
        ∀ (img : List Nat) (height width : Int) (rest : List Int) (color : List Nat),
          Machine.draw_lines fuel img (height :: width :: rest) lines color =
            foldOutcome (Machine.plot (wrap32 width) (wrap32 height)
              (Machine.shape_channel (height :: width :: rest)) color) img
              (traces.flatMap id)) := by
  obtain ⟨⟨ps, hps, hlen, hmaj⟩, hnone, -⟩ := draw_line_step_count fuel x0 y0 x1 y1 hfuel
  refine ⟨⟨ps, by rw [machine_visited_eq fuel x0 y0 x1 y1 hrange, hps], hlen, hmaj⟩, ?_, ?_⟩
  · intro f hf
    rw [machine_visited_eq f x0 y0 x1 y1 hrange]
    exact hnone f hf
  · intro lines hr hf
    refine ⟨lines.map segment_pixels, ?_, ?_, ?_⟩
    · rw [List.map_map]
      apply List.map_congr_left
      intro l hl
      exact machine_visited_eq_line_pixels fuel _ _ _ _ (hr l hl) (hf l hl)
    · rw [List.map_map]
      congr 1
      apply List.map_congr_left
      intro l _
      exact line_pixels_length _ _ _ _
    · intro img height width rest color
      rw [machine_draw_lines_cons_cons, machine_fold_draw_line_eq fuel _ _ _ color lines hr hf,
        List.flatMap_map]
      rfl

theorem draw_line_step_count_int32_witness :
    coords_in_range 0 0 7 (-3) ∧ line_fuel 0 0 7 (-3) ≤ 8 ∧
    ((∃ ps, Machine.visited 8 0 0 7 (-3) = some ps ∧
      ps.length = max ((7 : Int) - 0).natAbs ((-3 : Int) - 0).natAbs + 1 ∧
      ∀ (k : Nat) (p : Int × Int), ps[k]? = some p →
        if |(-3 : Int) - 0| ≤ |(7 : Int) - 0| then p.1 = 0 + step_sign 0 7 * (k : Int)
          else p.2 = 0 + step_sign 0 (-3) * (k : Int)) ∧
    (∀ f : Nat, f < max ((7 : Int) - 0).natAbs ((-3 : Int) - 0).natAbs + 1 →
      Machine.visited f 0 0 7 (-3) = none) ∧
    (∀ lines : List Segment, (∀ l ∈ lines, segment_in_range l) →
      (∀ l ∈ lines, segment_fuel l ≤ 8) →
      ∃ traces : List (List (Int × Int)),
        lines.map (fun l => Machine.visited 8 l.1 l.2.1 l.2.2.1 l.2.2.2) =
          traces.map some ∧
        (traces.map List.length).sum =
          (lines.map fun l => max (l.2.2.1 - l.1).natAbs (l.2.2.2 - l.2.1).natAbs + 1).sum ∧
        ∀ (img : List Nat) (height width : Int) (rest : List Int) (color : List Nat),
          Machine.draw_lines 8 img (height :: width :: rest) lines color =
            foldOutcome (Machine.plot (wrap32 width) (wrap32 height)
              (Machine.shape_channel (height :: width :: rest)) color) img
              (traces.flatMap id))) :=
  ⟨by decide, by decide, draw_line_step_count_int32 8 0 0 7 (-3) (by decide) (by decide)⟩

/-- C16, the claim as stated fails: on `(-2 ^ 30, 0, 2 ^ 30, 1)` the claim counts
`2 ^ 31 + 1` iterations, but the stepping overflows, the longer axis does not advance (the
first two pixels are both `(x0, y0)`) and the loop has not ended after any number of
iterations. -/
theorem draw_line_step_count_int32_counterexample :
    max ((1073741824 : Int) - (-1073741824)).natAbs ((1 : Int) - 0).natAbs + 1 = 2147483649 ∧
    Machine.first_pixels 2 (-1073741824) 0 1073741824 1 =
      [(-1073741824, 0), (-1073741824, 0)] ∧
    (∀ fuel : Nat, Machine.visited fuel (-1073741824) 0 1073741824 1 = none) := by
  exact ⟨by decide, by decide, machine_stuck_segment⟩

theorem machine_draw_line_loop_no_fault (width height channel x1 y1 dx dy sx sy : Int)
    (color : List Nat) (hgeo : height * width * channel ≤ 2147483647)
    (hcol : channel ≤ (color.length : Int)) :
    ∀ (fuel : Nat) (img : List Nat) (s : LineState),
      height * width * channel ≤ (img.length : Int) →
      Machine.draw_line_loop width height channel x1 y1 dx dy sx sy color fuel img s ≠
        .error .outOfRange := by
  intro fuel
  induction fuel with
  | zero => intro img s _ h; cases h
  | succ f ih =>
    intro img s hlen
    obtain ⟨img1, hp, hl⟩ := plot_ok width height channel color img (s.x, s.y) hlen hcol
    rw [Machine.draw_line_loop, machine_plot_eq width height channel color hgeo, hp]
    simp only [Outcome.andThen]
    by_cases hend : s.x = x1 ∧ s.y = y1
    · rw [if_pos hend]
      intro h
      cases h
    · rw [if_neg hend]
      exact ih img1 _ (by rw [hl]; exact hlen)

/-- C17 (write-index safety), as the code has it: on an image whose byte count
`height * width * channel` fits in an `int`, with a buffer of at least that many bytes and a
color of at least `channel` bytes, a run of `draw_line` that ends is the run of its byte
assignments, each of them writes at an offset in `[0, height * width * channel)` inside the
buffer and reads the color at an index in `[0, channel)` inside the color, and the call
returns a buffer; whatever the number of iterations it never takes the out-of-range branch;
and the run ends for endpoints in `[-2 ^ 28, 2 ^ 28]`. -/
theorem draw_line_write_index_safe_int32 (fuel : Nat) (img : List Nat)
    (width height channel x0 y0 x1 y1 : Int) (color : List Nat)
    (hgeo : height * width * channel ≤ 2147483647)
    (hlen : height * width * channel ≤ (img.length : Int))
    (hcol : channel ≤ (color.length : Int)) :
    (∀ ps, Machine.visited fuel x0 y0 x1 y1 = some ps →
      Machine.draw_line fuel img width height channel x0 y0 x1 y1 color =
        foldOutcome (put color) img (ps.flatMap (Machine.pixel_ops width height channel)) ∧
      (∀ o ∈ ps.flatMap (Machine.pixel_ops width height channel),
        0 ≤ o.1 ∧ o.1 < height * width * channel ∧ o.1 < (img.length : Int) ∧
          (o.2 : Int) < channel ∧ o.2 < color.length) ∧
      ∃ img2, Machine.draw_line fuel img width height channel x0 y0 x1 y1 color = .ok img2) ∧
    (∀ f : Nat, Machine.draw_line f img width height channel x0 y0 x1 y1 color ≠
      .error .outOfRange) ∧
    (coords_in_range x0 y0 x1 y1 → line_fuel x0 y0 x1 y1 ≤ fuel →
      ∃ ps, Machine.visited fuel x0 y0 x1 y1 = some ps) := by
  refine ⟨?_, ?_, fun hrange hfuel => ⟨_, machine_visited_eq_line_pixels fuel x0 y0 x1 y1 hrange
    hfuel⟩⟩
  · intro ps hps
    have hd := machine_draw_line_eq_fold fuel img width height channel x0 y0 x1 y1 color ps hps
    refine ⟨?_, ?_, ?_⟩
    · rw [hd, machine_fold_plot_eq_fold_put]
    · intro o ho
      obtain ⟨p, -, hop⟩ := List.mem_flatMap.1 ho
      rw [machine_pixel_ops_eq width height channel p hgeo] at hop
      obtain ⟨h0, h1⟩ := pixel_ops_bound _ _ _ _ _ hop
      obtain ⟨-, hlt, -⟩ := (mem_pixel_ops _ _ _ _ _).1 hop
      exact ⟨h0, h1, by omega, hlt, by omega⟩
    · obtain ⟨img2, hrun, -⟩ := fold_plot_spec width height channel color ps img hlen hcol
      exact ⟨img2, by rw [hd, machine_fold_plot_eq width height channel color hgeo, hrun]⟩
  · intro f
    unfold Machine.draw_line
    exact machine_draw_line_loop_no_fault width height channel _ _ _ _ _ _ color hgeo hcol f
      img _ hlen

theorem draw_line_write_index_safe_int32_witness :
    (2 : Int) * 2 * 3 ≤ 2147483647 ∧
    (2 : Int) * 2 * 3 ≤ ((List.replicate 12 0).length : Int) ∧
    (3 : Int) ≤ (([7, 8, 9, 10] : List Nat).length : Int) ∧
    ((∀ ps, Machine.visited 6 (-2) 0 3 3 = some ps →
      Machine.draw_line 6 (List.replicate 12 0) 2 2 3 (-2) 0 3 3 [7, 8, 9, 10] =
        foldOutcome (put [7, 8, 9, 10]) (List.replicate 12 0)
          (ps.flatMap (Machine.pixel_ops 2 2 3)) ∧
      (∀ o ∈ ps.flatMap (Machine.pixel_ops 2 2 3),
        0 ≤ o.1 ∧ o.1 < 2 * 2 * 3 ∧ o.1 < ((List.replicate 12 0).length : Int) ∧
          (o.2 : Int) < 3 ∧ o.2 < ([7, 8, 9, 10] : List Nat).length) ∧
      ∃ img2, Machine.draw_line 6 (List.replicate 12 0) 2 2 3 (-2) 0 3 3 [7, 8, 9, 10] =
        .ok img2) ∧
    (∀ f : Nat, Machine.draw_line f (List.replicate 12 0) 2 2 3 (-2) 0 3 3 [7, 8, 9, 10] ≠
      .error .outOfRange) ∧
    (coords_in_range (-2) 0 3 3 → line_fuel (-2) 0 3 3 ≤ 6 →
      ∃ ps, Machine.visited 6 (-2) 0 3 3 = some ps)) ∧
    Machine.draw_line 6 (List.replicate 12 0) 2 2 3 (-2) 0 3 3 [7, 8, 9, 10] =
      .ok [0, 0, 0, 0, 0, 0, 7, 8, 9, 0, 0, 0] :=
  ⟨by decide, by decide, by decide,
    draw_line_write_index_safe_int32 6 (List.replicate 12 0) 2 2 3 (-2) 0 3 3 [7, 8, 9, 10]
      (by decide) (by decide) (by decide), by decide⟩

/-- The write of a pixel of a single-channel image whose `int` offset is negative. -/
theorem machine_plot_single_channel_neg (width height x0 y0 : Int) (c : Nat)
    (img : List Nat) (hin : in_image width height (x0, y0))
    (hoff : Machine.offset width 1 x0 y0 0 < 0) :
    Machine.plot width height 1 [c] img (x0, y0) = .error .outOfRange := by
  unfold Machine.plot
  rw [if_pos hin]
  unfold Machine.write_pixel
  have hr : List.range (1 : Int).toNat = [0] := by decide
  rw [hr]
  simp only [foldOutcome, Machine.write_channel]
  have hp : put [c] img (Machine.offset width 1 x0 y0 0, 0) = .error .outOfRange := by
    unfold put store
    simp only [List.getElem?_cons_zero]
    rw [if_neg (by omega)]
  rw [hp]
  rfl

/-- C17, the claim as stated fails: on the single-channel image of 3 rows and `2 ^ 30`
columns, with a buffer of `3 * 2 ^ 30` bytes, the offset of pixel `(5, 2)` overflows to
`-2147483643`: the write of the degenerate segment `(5,2,5,2)` is outside the buffer. -/
theorem draw_line_write_index_int32_counterexample :
    ((0 : Int) < 1073741824 ∧ (0 : Int) < 3 ∧ (0 : Int) < 1) ∧
    (3 : Int) * 1073741824 * 1 ≤ ((List.replicate 3221225472 0).length : Int) ∧
    (1 : Int) ≤ (([9] : List Nat).length : Int) ∧
    in_image 1073741824 3 (5, 2) ∧
    Machine.offset 1073741824 1 5 2 0 = -2147483643 ∧
    (∀ img : List Nat,
      Machine.draw_line 1 img 1073741824 3 1 5 2 5 2 [9] = .error .outOfRange) := by
  refine ⟨by decide, ?_, by decide, by decide, by decide, ?_⟩
  · rw [List.length_replicate]
    decide
  · intro img
    rw [(machine_draw_line_point 0 img 1073741824 3 1 5 2 [9]).2]
    exact machine_plot_single_channel_neg 1073741824 3 5 2 9 img (by decide) (by decide)

/-- C18 (frame), as the code has it: on an image whose byte count
`height * width * channel` fits in an `int`, whenever `draw_line` returns a buffer, and it
does for endpoints in `[-2 ^ 28, 2 ^ 28]` on a buffer of at least `height * width * channel`
bytes with a color of at least `channel` bytes, the buffer has the length of the initial
one, every byte that is not a channel byte `y * width * channel + x * channel + i` of a
visited pixel inside the image is as before, and every such channel byte holds
`color[i]`. -/
theorem draw_line_frame_int32 (fuel : Nat) (img : List Nat)
    (width height channel x0 y0 x1 y1 : Int) (color : List Nat)
    (hgeo : height * width * channel ≤ 2147483647) :
    (height * width * channel ≤ (img.length : Int) → channel ≤ (color.length : Int) →
      coords_in_range x0 y0 x1 y1 → line_fuel x0 y0 x1 y1 ≤ fuel →
      ∃ img2, Machine.draw_line fuel img width height channel x0 y0 x1 y1 color =
        .ok img2) ∧
    (∀ img2, Machine.draw_line fuel img width height channel x0 y0 x1 y1 color = .ok img2 →
      ∃ ps, Machine.visited fuel x0 y0 x1 y1 = some ps ∧ img2.length = img.length ∧
        (∀ j : Int, (∀ p ∈ ps, in_image width height p → ∀ i : Nat, (i : Int) < channel →
            j ≠ p.2 * width * channel + p.1 * channel + (i : Int)) →
          byte_at img2 j = byte_at img j) ∧
        (∀ p ∈ ps, in_image width height p → ∀ i : Nat, (i : Int) < channel →
          ∃ v, color[i]? = some v ∧
            byte_at img2 (p.2 * width * channel + p.1 * channel + (i : Int)) = some v)) := by
  constructor
  · intro hlen hcol hrange hfuel
    obtain ⟨img2, hrun, -⟩ := fold_plot_spec width height channel color
      (line_pixels x0 y0 x1 y1) img hlen hcol
    exact ⟨img2, by
      rw [machine_draw_line_eq_fold_line_pixels fuel img width height channel x0 y0 x1 y1 color
        hrange hfuel, machine_fold_plot_eq width height channel color hgeo, hrun]⟩
  · intro img2 hrun
    obtain ⟨ps, hps⟩ := machine_draw_line_ok_trace fuel img img2 width height channel
      x0 y0 x1 y1 color hrun
    rw [machine_draw_line_eq_fold fuel img width height channel x0 y0 x1 y1 color ps hps,
      machine_fold_plot_eq width height channel color hgeo] at hrun
    obtain ⟨hl, hfr⟩ := fold_plot_frame width height channel color ps img img2 hrun
    exact ⟨ps, hps, hl, hfr, fold_plot_written width height channel color ps img img2 hrun⟩

theorem draw_line_frame_int32_witness :
    (2 : Int) * 2 * 3 ≤ 2147483647 ∧
    ((((2 : Int) * 2 * 3 ≤ ((List.replicate 12 0).length : Int) →
      (3 : Int) ≤ (([7, 8, 9] : List Nat).length : Int) →
      coords_in_range (-2) 0 3 3 → line_fuel (-2) 0 3 3 ≤ 6 →
      ∃ img2, Machine.draw_line 6 (List.replicate 12 0) 2 2 3 (-2) 0 3 3 [7, 8, 9] =
        .ok img2) ∧
    (∀ img2, Machine.draw_line 6 (List.replicate 12 0) 2 2 3 (-2) 0 3 3 [7, 8, 9] = .ok img2 →
      ∃ ps, Machine.visited 6 (-2) 0 3 3 = some ps ∧
        img2.length = (List.replicate 12 0).length ∧
        (∀ j : Int, (∀ p ∈ ps, in_image 2 2 p → ∀ i : Nat, (i : Int) < 3 →
            j ≠ p.2 * 2 * 3 + p.1 * 3 + (i : Int)) →
          byte_at img2 j = byte_at (List.replicate 12 0) j) ∧
        (∀ p ∈ ps, in_image 2 2 p → ∀ i : Nat, (i : Int) < 3 →
          ∃ v, ([7, 8, 9] : List Nat)[i]? = some v ∧
            byte_at img2 (p.2 * 2 * 3 + p.1 * 3 + (i : Int)) = some v)))) ∧
    Machine.draw_line 6 (List.replicate 12 0) 2 2 3 (-2) 0 3 3 [7, 8, 9] =
      .ok [0, 0, 0, 0, 0, 0, 7, 8, 9, 0, 0, 0] :=
  ⟨by decide,
    draw_line_frame_int32 6 (List.replicate 12 0) 2 2 3 (-2) 0 3 3 [7, 8, 9] (by decide),
    by decide⟩

/-- C18, the claim as stated fails: on the single-channel image of 5 rows and `2 ^ 30`
columns the degenerate segment `(3,4,3,4)` visits the pixel `(3,4)` only, its offset
overflows to 3, and the call changes byte 3 from 0 to 9 although byte 3 is no channel byte
`4 * 2 ^ 30 + 3 + i` of the visited pixel. -/
theorem draw_line_frame_int32_counterexample :
    Machine.visited 1 3 4 3 4 = some [(3, 4)] ∧
    Machine.draw_line 1 (List.replicate 5368709120 0) 1073741824 5 1 3 4 3 4 [9] =
      .ok ((List.replicate 5368709120 0).set 3 9) ∧
    (∀ p ∈ [((3 : Int), (4 : Int))], in_image 1073741824 5 p → ∀ i : Nat, (i : Int) < 1 →
      (3 : Int) ≠ p.2 * 1073741824 * 1 + p.1 * 1 + (i : Int)) ∧
    byte_at (List.replicate 5368709120 0) 3 = some 0 ∧
    byte_at ((List.replicate 5368709120 0).set 3 9) 3 = some 9 := by
  refine ⟨(machine_draw_line_point 0 [] 0 0 0 3 4 []).1, ?_, ?_, ?_, ?_⟩
  · rw [(machine_draw_line_point 0 _ 1073741824 5 1 3 4 [9]).2]
    exact machine_plot_single_channel 1073741824 5 3 4 9 _ 3 (by decide) (by decide)
      (by rw [List.length_replicate]; decide)
  · intro p hp _ i hi
    rw [List.mem_singleton] at hp
    subst hp
    simp only
    omega
  · have e : (3 : Int) = ((3 : Nat) : Int) := rfl
    rw [e]
    exact byte_at_replicate _ 3 (by decide)
  · have e : (3 : Int) = ((3 : Nat) : Int) := rfl
    rw [e]
    exact byte_at_set_self _ 3 9 (by rw [List.length_replicate]; decide)

theorem mem_machine_pixel_ops (width height channel : Int) (p : Int × Int) (o : Int × Nat) :
    o ∈ Machine.pixel_ops width height channel p ↔
      in_image width height p ∧ (o.2 : Int) < channel ∧
        o.1 = Machine.offset width channel p.1 p.2 o.2 := by
  unfold Machine.pixel_ops
  by_cases h : in_image width height p
  · rw [if_pos h]
    simp only [List.mem_map, List.mem_range, h, true_and]
    constructor
    · rintro ⟨i, hi, rfl⟩
      exact ⟨by simp only; omega, rfl⟩
    · rintro ⟨h1, h2⟩
      exact ⟨o.2, by omega, by rw [← h2]⟩
  · rw [if_neg h]
    simp [h]

theorem machine_plot_congr_color (width height channel : Int) (color color2 : List Nat)
    (h : ∀ i : Nat, (i : Int) < channel → color[i]? = color2[i]?) (img : List Nat)
    (p : Int × Int) :
    Machine.plot width height channel color img p =
      Machine.plot width height channel color2 img p := by
  rw [machine_plot_eq_fold_put, machine_plot_eq_fold_put]
  exact foldOutcome_congr _ _ _
    (fun o ho im => put_congr_color color color2 im o
      (h o.2 ((mem_machine_pixel_ops _ _ _ _ _).1 ho).2.1)) img

theorem machine_draw_line_loop_congr_color (width height channel x1 y1 dx dy sx sy : Int)
    (color color2 : List Nat)
    (h : ∀ i : Nat, (i : Int) < channel → color[i]? = color2[i]?) :
    ∀ (fuel : Nat) (img : List Nat) (s : LineState),
      Machine.draw_line_loop width height channel x1 y1 dx dy sx sy color fuel img s =
        Machine.draw_line_loop width height channel x1 y1 dx dy sx sy color2 fuel img s := by
  intro fuel
  induction fuel with
  | zero => intro img s; rfl
  | succ f ih =>
    intro img s
    rw [Machine.draw_line_loop, Machine.draw_line_loop,
      machine_plot_congr_color width height channel color color2 h]
    cases Machine.plot width height channel color2 img (s.x, s.y) with
    | error e => rfl
    | ok img1 =>
      simp only [Outcome.andThen]
      by_cases hend : s.x = x1 ∧ s.y = y1
      · rw [if_pos hend, if_pos hend]
      · rw [if_neg hend, if_neg hend]
        exact ih img1 _

theorem machine_fold_plot_short_color (width height channel : Int) (color : List Nat)
    (hshort : (color.length : Int) < channel) (ps : List (Int × Int)) (p : Int × Int)
    (hp : p ∈ ps) (hin : in_image width height p) (img : List Nat) :
    foldOutcome (Machine.plot width height channel color) img ps = .error .outOfRange := by
  rw [machine_fold_plot_eq_fold_put]
  refine fold_put_fault color
    (Machine.offset width channel p.1 p.2 color.length, color.length) ?_ _ ?_ img
  · simp
  · exact List.mem_flatMap.2 ⟨p, hp, (mem_machine_pixel_ops _ _ _ _ _).2 ⟨hin, hshort, rfl⟩⟩

theorem machine_fold_plot_degenerate (width height channel : Int) (color : List Nat)
    (hdeg : height ≤ 0 ∨ width ≤ 0 ∨ channel ≤ 0) (ps : List (Int × Int)) (img : List Nat) :
    foldOutcome (Machine.plot width height channel color) img ps = .ok img := by
  have hnil : ps.flatMap (Machine.pixel_ops width height channel) = [] := by
    rw [List.flatMap_eq_nil_iff]
    intro p _
    rw [List.eq_nil_iff_forall_not_mem]
    intro o ho
    obtain ⟨⟨h1, h2, h3, h4⟩, h5, -⟩ := (mem_machine_pixel_ops _ _ _ _ _).1 ho
    have : (0 : Int) ≤ (o.2 : Int) := Int.ofNat_nonneg _
    omega
  rw [machine_fold_plot_eq_fold_put, hnil]
  rfl

/-- C5 (color length), as the code has it: `draw_lines` makes no check of the color length.
With a color of at least `channel` bytes the call is the call with the color cut to its
first `channel` bytes, extra bytes are ignored. With a color of fewer bytes and segments
with endpoints in `[-2 ^ 28, 2 ^ 28]` the call returns normally, the buffer unchanged, when
no segment visits a pixel inside the image, and otherwise the write of a pixel reads the
color out of range. Width, height and channel are the shape entries narrowed to `int`. -/
theorem draw_lines_color_length_unchecked_int32 (fuel : Nat) (img : List Nat)
    (height width : Int) (rest : List Int) (lines : List Segment) (color : List Nat) :
    (Machine.shape_channel (height :: width :: rest) ≤ (color.length : Int) →
      Machine.draw_lines fuel img (height :: width :: rest) lines color =
        Machine.draw_lines fuel img (height :: width :: rest) lines
          (color.take (Machine.shape_channel (height :: width :: rest)).toNat)) ∧
    ((color.length : Int) < Machine.shape_channel (height :: width :: rest) →
      (∀ l ∈ lines, segment_in_range l) →
      (∀ l ∈ lines, segment_fuel l ≤ fuel) →
      ((∀ l ∈ lines, ∀ ps, Machine.visited fuel l.1 l.2.1 l.2.2.1 l.2.2.2 = some ps →
          ∀ p ∈ ps, ¬in_image (wrap32 width) (wrap32 height) p) →
        Machine.draw_lines fuel img (height :: width :: rest) lines color = .ok img) ∧
      ((∃ l ∈ lines, ∃ ps, Machine.visited fuel l.1 l.2.1 l.2.2.1 l.2.2.2 = some ps ∧
          ∃ p ∈ ps, in_image (wrap32 width) (wrap32 height) p) →
        Machine.draw_lines fuel img (height :: width :: rest) lines color =
          .error .outOfRange)) := by
  refine ⟨fun _ => ?_, fun hshort hrange hfuel => ⟨fun hout => ?_, fun hin => ?_⟩⟩
  · rw [machine_draw_lines_cons_cons, machine_draw_lines_cons_cons]
    apply foldOutcome_congr_all
    intro im l
    unfold Machine.draw_line
    apply machine_draw_line_loop_congr_color
    intro i hi
    rw [List.getElem?_take_of_lt (by omega)]
  · rw [machine_draw_lines_cons_cons,
      machine_fold_draw_line_eq fuel _ _ _ color lines hrange hfuel]
    refine machine_fold_plot_outside _ _ _ _ _ ?_ img
    intro p hp
    obtain ⟨l, hl, hpl⟩ := List.mem_flatMap.1 hp
    exact hout l hl _ (machine_visited_eq_line_pixels fuel _ _ _ _ (hrange l hl) (hfuel l hl))
      p hpl
  · obtain ⟨l, hl, ps, hps, p, hp, hinp⟩ := hin
    rw [machine_visited_eq_line_pixels fuel _ _ _ _ (hrange l hl) (hfuel l hl)] at hps
    cases hps
    rw [machine_draw_lines_cons_cons,
      machine_fold_draw_line_eq fuel _ _ _ color lines hrange hfuel]
    exact machine_fold_plot_short_color _ _ _ color hshort _ p
      (List.mem_flatMap.2 ⟨l, hl, hp⟩) hinp img

theorem draw_lines_color_length_unchecked_int32_witness :
    (Machine.shape_channel [1, 1, 3] ≤ (([1, 2, 3, 4] : List Nat).length : Int) ∧
      Machine.draw_lines 1 [0, 0, 0] [1, 1, 3] [(0, 0, 0, 0)] [1, 2, 3, 4] =
        Machine.draw_lines 1 [0, 0, 0] [1, 1, 3] [(0, 0, 0, 0)]
          (([1, 2, 3, 4] : List Nat).take (Machine.shape_channel [1, 1, 3]).toNat)) ∧
    ((([1, 2] : List Nat).length : Int) < Machine.shape_channel [1, 1, 3] ∧
      (∀ l ∈ ([(0, 0, 0, 0)] : List Segment), segment_in_range l) ∧
      (∀ l ∈ ([(0, 0, 0, 0)] : List Segment), segment_fuel l ≤ 1) ∧
      (∃ l ∈ ([(0, 0, 0, 0)] : List Segment), ∃ ps,
        Machine.visited 1 l.1 l.2.1 l.2.2.1 l.2.2.2 = some ps ∧
          ∃ p ∈ ps, in_image (wrap32 1) (wrap32 1) p) ∧
      Machine.draw_lines 1 [0, 0, 0] [1, 1, 3] [(0, 0, 0, 0)] [1, 2] = .error .outOfRange) :=
  ⟨⟨by decide, (draw_lines_color_length_unchecked_int32 1 [0, 0, 0] 1 1 [3] [(0, 0, 0, 0)]
      [1, 2, 3, 4]).1 (by decide)⟩,
    by decide, by decide, by decide,
    ⟨(0, 0, 0, 0), by decide, [(0, 0)], by decide, (0, 0), by decide, by decide⟩,
    ((draw_lines_color_length_unchecked_int32 1 [0, 0, 0] 1 1 [3] [(0, 0, 0, 0)] [1, 2]).2
      (by decide) (by decide) (by decide)).2
      ⟨(0, 0, 0, 0), by decide, [(0, 0)], by decide, (0, 0), by decide, by decide⟩⟩

/-- C5, the claim as stated fails: a color of 4 bytes on a 3-channel image is accepted, the
call returns normally and has written the pixel. -/
theorem draw_lines_color_length_int32_counterexample :
    (([1, 2, 3, 4] : List Nat).length : Int) ≠ Machine.shape_channel [1, 1, 3] ∧
    Machine.draw_lines 1 [0, 0, 0] [1, 1, 3] [(0, 0, 0, 0)] [1, 2, 3, 4] = .ok [1, 2, 3] ∧
    ([1, 2, 3] : List Nat) ≠ [0, 0, 0] := by
  decide

/-- C6 (shape), as the code has it: `draw_lines` makes no check of the shape. With a
dimensionality of 2 or more other than 3 it draws as on the single-channel image of
`shape[0]` rows and `shape[1]` columns; with a non-positive height, width or channel count
(the shape entries narrowed to `int`) and segments with endpoints in `[-2 ^ 28, 2 ^ 28]` it
returns normally with the buffer unchanged; with fewer than 2 dimensions it reads
`shape[0]` or `shape[1]` out of range. -/
theorem draw_lines_shape_unchecked_int32 (fuel : Nat) (img : List Nat) (height width : Int)
    (rest : List Int) (lines : List Segment) (color : List Nat) :
    ((height :: width :: rest).length ≠ 3 →
      Machine.draw_lines fuel img (height :: width :: rest) lines color =
        Machine.draw_lines fuel img [height, width] lines color) ∧
    ((∀ l ∈ lines, segment_in_range l) → (∀ l ∈ lines, segment_fuel l ≤ fuel) →
      (wrap32 height ≤ 0 ∨ wrap32 width ≤ 0 ∨
        Machine.shape_channel (height :: width :: rest) ≤ 0) →
      Machine.draw_lines fuel img (height :: width :: rest) lines color = .ok img) ∧
    Machine.draw_lines fuel img [] lines color = .error .outOfRange ∧
    Machine.draw_lines fuel img [height] lines color = .error .outOfRange := by
  refine ⟨fun hne => ?_, fun hrange hfuel hdeg => ?_, rfl, rfl⟩
  · rw [machine_draw_lines_cons_cons, machine_draw_lines_cons_cons]
    have h1 : Machine.shape_channel (height :: width :: rest) = 1 := by
      unfold Machine.shape_channel; rw [if_neg hne]
    have h2 : Machine.shape_channel [height, width] = 1 := rfl
    rw [h1, h2]
  · rw [machine_draw_lines_cons_cons,
      machine_fold_draw_line_eq fuel _ _ _ color lines hrange hfuel]
    exact machine_fold_plot_degenerate _ _ _ color hdeg _ img

theorem draw_lines_shape_unchecked_int32_witness :
    (([1, 1, 1, 1] : List Int).length ≠ 3 ∧
      Machine.draw_lines 1 [0] [1, 1, 1, 1] [(0, 0, 0, 0)] [7] =
        Machine.draw_lines 1 [0] [1, 1] [(0, 0, 0, 0)] [7]) ∧
    ((∀ l ∈ ([(0, 0, 3, 0)] : List Segment), segment_in_range l) ∧
      (∀ l ∈ ([(0, 0, 3, 0)] : List Segment), segment_fuel l ≤ 4) ∧
      (wrap32 0 ≤ 0 ∨ wrap32 5 ≤ 0 ∨ Machine.shape_channel [0, 5] ≤ 0) ∧
      Machine.draw_lines 4 [] [0, 5] [(0, 0, 3, 0)] [7] = .ok []) :=
  ⟨⟨by decide,
      (draw_lines_shape_unchecked_int32 1 [0] 1 1 [1, 1] [(0, 0, 0, 0)] [7]).1 (by decide)⟩,
    by decide, by decide, by decide,
    (draw_lines_shape_unchecked_int32 4 [] 0 5 [] [(0, 0, 3, 0)] [7]).2.1 (by decide)
      (by decide) (by decide)⟩

/-- C6, the claim as stated fails: a 4-dimensional image is accepted and written, and an
image with a zero dimension is accepted, the call returning normally. -/
theorem draw_lines_shape_int32_counterexample :
    ([1, 1, 1, 1] : List Int).length ≠ 2 ∧ ([1, 1, 1, 1] : List Int).length ≠ 3 ∧
    Machine.draw_lines 1 [0] [1, 1, 1, 1] [(0, 0, 0, 0)] [7] = .ok [7] ∧
    ([7] : List Nat) ≠ [0] ∧
    Machine.draw_lines 4 [] [0, 5] [(0, 0, 3, 0)] [7] = .ok [] := by
  decide

/-- C10 (order independence), as the code has it: on an image whose byte count
`height * width * channel` (the shape entries narrowed to `int`) fits in an `int`, for every
buffer and color, every list of segments with endpoints in `[-2 ^ 28, 2 ^ 28]` and fuel
enough for each segment, `draw_lines` on a permutation of the list gives the same outcome
(the same final buffer) as on the list itself. -/
theorem draw_lines_order_independent_int32 (fuel : Nat) (img : List Nat)
    (height width : Int) (rest : List Int) (lines lines2 : List Segment) (color : List Nat)
    (hperm : lines.Perm lines2)
    (hrange : ∀ l ∈ lines, segment_in_range l)
    (hfuel : ∀ l ∈ lines, segment_fuel l ≤ fuel)
    (hgeo : wrap32 height * wrap32 width * Machine.shape_channel (height :: width :: rest) ≤
      2147483647) :
    Machine.draw_lines fuel img (height :: width :: rest) lines2 color =
      Machine.draw_lines fuel img (height :: width :: rest) lines color := by
  rw [machine_draw_lines_cons_cons, machine_draw_lines_cons_cons,
    machine_fold_draw_line_eq fuel _ _ _ color lines hrange hfuel,
    machine_fold_draw_line_eq fuel _ _ _ color lines2
      (fun l hl => hrange l (hperm.mem_iff.2 hl)) (fun l hl => hfuel l (hperm.mem_iff.2 hl)),
    machine_fold_plot_eq _ _ _ color hgeo, machine_fold_plot_eq _ _ _ color hgeo]
  exact (fold_plot_perm _ _ _ color (hperm.flatMap_right segment_pixels) img).symm

theorem draw_lines_order_independent_int32_witness :
    ([(0, 0, 2, 1), (2, 0, 0, 1)] : List Segment).Perm [(2, 0, 0, 1), (0, 0, 2, 1)] ∧
    (∀ l ∈ ([(0, 0, 2, 1), (2, 0, 0, 1)] : List Segment), segment_in_range l) ∧
    (∀ l ∈ ([(0, 0, 2, 1), (2, 0, 0, 1)] : List Segment), segment_fuel l ≤ 3) ∧
    wrap32 2 * wrap32 3 * Machine.shape_channel [2, 3, 3] ≤ 2147483647 ∧
    Machine.draw_lines 3 (List.replicate 18 0) [2, 3, 3] [(2, 0, 0, 1), (0, 0, 2, 1)]
        [7, 8, 9] =
      Machine.draw_lines 3 (List.replicate 18 0) [2, 3, 3] [(0, 0, 2, 1), (2, 0, 0, 1)]
        [7, 8, 9] ∧
    Machine.draw_lines 3 (List.replicate 18 0) [2, 3, 3] [(0, 0, 2, 1), (2, 0, 0, 1)]
        [7, 8, 9] = .ok [7, 8, 9, 0, 0, 0, 7, 8, 9, 7, 8, 9, 7, 8, 9, 7, 8, 9] :=
  ⟨List.Perm.swap _ _ _, by decide, by decide, by decide,
    draw_lines_order_independent_int32 3 (List.replicate 18 0) 2 3 [3] _ _ [7, 8, 9]
      (List.Perm.swap _ _ _) (by decide) (by decide) (by decide), by decide⟩

/-- The write of a pixel of a 3-channel image whose `int` offsets are `k`, `k + 1`,
`k + 2`. -/
theorem machine_plot_three_channel (width height x0 y0 : Int) (a b c : Nat) (img : List Nat)
    (k : Nat) (hin : in_image width height (x0, y0))
    (h0 : Machine.offset width 3 x0 y0 0 = (k : Int))
    (h1 : Machine.offset width 3 x0 y0 1 = ((k + 1 : Nat) : Int))
    (h2 : Machine.offset width 3 x0 y0 2 = ((k + 2 : Nat) : Int))
    (hk : k + 2 < img.length) :
    Machine.plot width height 3 [a, b, c] img (x0, y0) =
      .ok (((img.set k a).set (k + 1) b).set (k + 2) c) := by
  unfold Machine.plot
  rw [if_pos hin]
  unfold Machine.write_pixel
  have hr : List.range (3 : Int).toNat = [0, 1, 2] := by decide
  rw [hr]
  simp only [foldOutcome, Machine.write_channel, h0, h1, h2]
  have hp0 : put [a, b, c] img ((k : Int), 0) = .ok (img.set k a) := by
    rw [put_ok_iff]
    exact ⟨a, rfl, Int.ofNat_nonneg k, Int.ofNat_lt.2 (by omega), by simp⟩
  have hp1 : put [a, b, c] (img.set k a) (((k + 1 : Nat) : Int), 1) =
      .ok ((img.set k a).set (k + 1) b) := by
    rw [put_ok_iff]
    exact ⟨b, rfl, Int.ofNat_nonneg _, Int.ofNat_lt.2 (by rw [List.length_set]; omega),
      by simp⟩
  have hp2 : put [a, b, c] ((img.set k a).set (k + 1) b) (((k + 2 : Nat) : Int), 2) =
      .ok (((img.set k a).set (k + 1) b).set (k + 2) c) := by
    rw [put_ok_iff]
    exact ⟨c, rfl, Int.ofNat_nonneg _,
      Int.ofNat_lt.2 (by rw [List.length_set, List.length_set]; omega),
      by rw [Int.toNat_ofNat]⟩
  rw [hp0]
  simp only [Outcome.andThen]
  rw [hp1]
  simp only [Outcome.andThen]
  rw [hp2]

/-- On the image of shape `(40000, 40000, 3)` the offset of pixel `(15766, 35791)`
overflows to 2: its bytes are 2, 3, 4, and byte 2 is also the third byte of pixel
`(0, 0)`. -/
theorem machine_colliding_pixels (img : List Nat) (h : 4 < img.length) :
    Machine.draw_lines 1 img [40000, 40000, 3]
        [(0, 0, 0, 0), (15766, 35791, 15766, 35791)] [7, 8, 9] =
      .ok ((((((img.set 0 7).set 1 8).set 2 9).set 2 7).set 3 8).set 4 9) ∧
    Machine.draw_lines 1 img [40000, 40000, 3]
        [(15766, 35791, 15766, 35791), (0, 0, 0, 0)] [7, 8, 9] =
      .ok ((((((img.set 2 7).set 3 8).set 4 9).set 0 7).set 1 8).set 2 9) := by
  have hw : wrap32 40000 = 40000 := by decide
  have hc : Machine.shape_channel [40000, 40000, 3] = 3 := by decide
  have hA : ∀ im : List Nat, 4 < im.length →
      Machine.draw_line 1 im 40000 40000 3 0 0 0 0 [7, 8, 9] =
        .ok (((im.set 0 7).set 1 8).set 2 9) := by
    intro im him
    rw [(machine_draw_line_point 0 im 40000 40000 3 0 0 [7, 8, 9]).2]
    exact machine_plot_three_channel 40000 40000 0 0 7 8 9 im 0 (by decide) (by decide)
      (by decide) (by decide) (by omega)
  have hB : ∀ im : List Nat, 4 < im.length →
      Machine.draw_line 1 im 40000 40000 3 15766 35791 15766 35791 [7, 8, 9] =
        .ok (((im.set 2 7).set 3 8).set 4 9) := by
    intro im him
    rw [(machine_draw_line_point 0 im 40000 40000 3 15766 35791 [7, 8, 9]).2]
    exact machine_plot_three_channel 40000 40000 15766 35791 7 8 9 im 2 (by decide)
      (by decide) (by decide) (by decide) (by omega)
  constructor
  · rw [machine_draw_lines_cons_cons, hw, hc]
    simp only [foldOutcome]
    rw [hA img h]
    simp only [Outcome.andThen]
    rw [hB _ (by simp only [List.length_set]; exact h)]
  · rw [machine_draw_lines_cons_cons, hw, hc]
    simp only [foldOutcome]
    rw [hB img h]
    simp only [Outcome.andThen]
    rw [hA _ (by simp only [List.length_set]; exact h)]

/-- C10, the claim as stated fails: on the image of shape `(40000, 40000, 3)`, with a
buffer of `40000 * 40000 * 3` bytes and a color of 3 bytes, the offsets of pixel
`(15766, 35791)` overflow onto bytes 2, 3, 4, and byte 2 is the third byte of pixel
`(0, 0)`: drawing `(0, 0)` and then `(15766, 35791)` leaves `color[0]` in byte 2, the other
order leaves `color[2]`. -/
theorem draw_lines_order_int32_counterexample :
    ([(0, 0, 0, 0), (15766, 35791, 15766, 35791)] : List Segment).Perm
      [(15766, 35791, 15766, 35791), (0, 0, 0, 0)] ∧
    (40000 : Int) * 40000 * 3 ≤ ((List.replicate 4800000000 0).length : Int) ∧
    (([7, 8, 9] : List Nat).length : Int) = Machine.shape_channel [40000, 40000, 3] ∧
    (∃ img1 img2,
      Machine.draw_lines 1 (List.replicate 4800000000 0) [40000, 40000, 3]
        [(0, 0, 0, 0), (15766, 35791, 15766, 35791)] [7, 8, 9] = .ok img1 ∧
      Machine.draw_lines 1 (List.replicate 4800000000 0) [40000, 40000, 3]
        [(15766, 35791, 15766, 35791), (0, 0, 0, 0)] [7, 8, 9] = .ok img2 ∧
      byte_at img1 2 = some 7 ∧ byte_at img2 2 = some 9) ∧
    Machine.draw_lines 1 (List.replicate 4800000000 0) [40000, 40000, 3]
        [(15766, 35791, 15766, 35791), (0, 0, 0, 0)] [7, 8, 9] ≠
      Machine.draw_lines 1 (List.replicate 4800000000 0) [40000, 40000, 3]
        [(0, 0, 0, 0), (15766, 35791, 15766, 35791)] [7, 8, 9] := by
  have hlen : 4 < (List.replicate 4800000000 0).length := by
    rw [List.length_replicate]; decide
  obtain ⟨h1, h2⟩ := machine_colliding_pixels (List.replicate 4800000000 0) hlen
  have hl2 : 2 < (List.replicate 4800000000 0).length := by omega
  have b1 : byte_at (((((((List.replicate 4800000000 0).set 0 7).set 1 8).set 2 9).set 2
      7).set 3 8).set 4 9) 2 = some 7 := by
    have e : (2 : Int) = ((2 : Nat) : Int) := rfl
    rw [e, byte_at_set_ne _ _ _ _ (by decide), byte_at_set_ne _ _ _ _ (by decide),
      byte_at_set_self _ 2 7 (by simp only [List.length_set]; exact hl2)]
  have b2 : byte_at (((((((List.replicate 4800000000 0).set 2 7).set 3 8).set 4 9).set 0
      7).set 1 8).set 2 9) 2 = some 9 := by
    have e : (2 : Int) = ((2 : Nat) : Int) := rfl
    rw [e, byte_at_set_self _ 2 9 (by simp only [List.length_set]; exact hl2)]
  refine ⟨List.Perm.swap _ _ _, ?_, by decide, ⟨_, _, h1, h2, b1, b2⟩, ?_⟩
  · rw [List.length_replicate]
    decide
  · rw [h1, h2]
    intro heq
    have himg := Outcome.ok.inj heq
    rw [← himg, b2] at b1
    revert b1
    decide

/-- C11 (batch contract), as the code has it: on an image of two or more dimensions
`draw_lines` is the left fold of `draw_line` over the segments in input order, on the same
buffer and color, with `height`, `width` and, for exactly three dimensions, `channel` the
entries `shape[0]`, `shape[1]`, `shape[2]` narrowed to `int` (`channel = 1` otherwise), so
with the entries themselves when they are in the range of an `int`; an empty list of
segments returns the buffer as it was. -/
theorem draw_lines_batch_contract_int32 (fuel : Nat) (img : List Nat) (height width : Int)
    (rest : List Int) (lines : List Segment) (color : List Nat) :
    Machine.draw_lines fuel img (height :: width :: rest) lines color =
      lines.foldl (fun (r : Outcome) (l : Segment) => r.andThen fun im =>
        Machine.draw_line fuel im (wrap32 width) (wrap32 height)
          (match rest with
            | [c] => wrap32 c
            | _ => 1) l.1 l.2.1 l.2.2.1 l.2.2.2 color) (.ok img) ∧
    (in_int32 height → in_int32 width → (∀ c ∈ rest, in_int32 c) →
      Machine.draw_lines fuel img (height :: width :: rest) lines color =
        lines.foldl (fun (r : Outcome) (l : Segment) => r.andThen fun im =>
          Machine.draw_line fuel im width height
            (match rest with
              | [c] => c
              | _ => 1) l.1 l.2.1 l.2.2.1 l.2.2.2 color) (.ok img)) ∧
    Machine.draw_lines fuel img (height :: width :: rest) [] color = .ok img := by
  have hmain : Machine.draw_lines fuel img (height :: width :: rest) lines color =
      lines.foldl (fun (r : Outcome) (l : Segment) => r.andThen fun im =>
        Machine.draw_line fuel im (wrap32 width) (wrap32 height)
          (match rest with
            | [c] => wrap32 c
            | _ => 1) l.1 l.2.1 l.2.2.1 l.2.2.2 color) (.ok img) := by
    rw [machine_draw_lines_cons_cons, machine_shape_channel_cons_cons, foldl_andThen_eq]
    rfl
  refine ⟨hmain, ?_, ?_⟩
  · intro hh hw hr
    rw [hmain, wrap32_eq _ hh, wrap32_eq _ hw]
    match rest, hr with
    | [], _ => rfl
    | [c], hr => simp only [wrap32_eq _ (hr c (List.mem_singleton.2 rfl))]
    | _ :: _ :: _, _ => rfl
  · rw [machine_draw_lines_cons_cons]
    rfl

theorem draw_lines_batch_contract_int32_witness :
    in_int32 2 ∧ in_int32 3 ∧ (∀ c ∈ ([3] : List Int), in_int32 c) ∧
    Machine.draw_lines 3 (List.replicate 18 0) [2, 3, 3] [(0, 0, 2, 1), (2, 0, 0, 1)]
        [7, 8, 9] =
      ([(0, 0, 2, 1), (2, 0, 0, 1)] : List Segment).foldl
        (fun (r : Outcome) (l : Segment) => r.andThen fun im =>
          Machine.draw_line 3 im 3 2 3 l.1 l.2.1 l.2.2.1 l.2.2.2 [7, 8, 9])
        (.ok (List.replicate 18 0)) :=
  ⟨by unfold in_int32; decide, by unfold in_int32; decide,
    by intro c hc; rw [List.mem_singleton.1 hc]; unfold in_int32; decide,
    (draw_lines_batch_contract_int32 3 (List.replicate 18 0) 2 3 [3]
      [(0, 0, 2, 1), (2, 0, 0, 1)] [7, 8, 9]).2.1 (by unfold in_int32; decide)
      (by unfold in_int32; decide)
      (by intro c hc; rw [List.mem_singleton.1 hc]; unfold in_int32; decide)⟩

/-- On the image of shape `(1, 2 ^ 31)` the width is narrowed to `-2 ^ 31`: the batch
draws nothing, the fold of `draw_line` with `width = 2 ^ 31` sets byte 0. -/
theorem machine_narrowed_width (img : List Nat) (h : 0 < img.length) :
    Machine.draw_lines 1 img [1, 2147483648] [(0, 0, 0, 0)] [9] = .ok img ∧
    ([(0, 0, 0, 0)] : List Segment).foldl
        (fun (r : Outcome) (l : Segment) => r.andThen fun im =>
          Machine.draw_line 1 im 2147483648 1 1 l.1 l.2.1 l.2.2.1 l.2.2.2 [9])
        (.ok img) = .ok (img.set 0 9) := by
  constructor
  · rw [machine_draw_lines_cons_cons]
    simp only [foldOutcome]
    rw [(machine_draw_line_point 0 _ _ _ _ 0 0 [9]).2]
    have hout : ¬in_image (wrap32 2147483648) (wrap32 1) ((0 : Int), (0 : Int)) := by decide
    unfold Machine.plot
    rw [if_neg hout]
    rfl
  · simp only [List.foldl, Outcome.andThen]
    rw [(machine_draw_line_point 0 _ 2147483648 1 1 0 0 [9]).2]
    exact machine_plot_single_channel 2147483648 1 0 0 9 _ 0 (by decide) (by decide) h

/-- C11, the claim as stated fails: on the image of shape `(1, 2 ^ 31)` the width
`shape[1] = 2 ^ 31` is narrowed to the `int` `-2 ^ 31`, no pixel passes the bounds check and
`draw_lines` leaves the pixel `(0, 0)` of the segment `(0,0,0,0)` unset, where the left fold
of `draw_line` with `width = shape[1]` sets it. -/
theorem draw_lines_batch_contract_int32_counterexample :
    wrap32 2147483648 = -2147483648 ∧
    Machine.draw_lines 1 (List.replicate 2147483648 0) [1, 2147483648] [(0, 0, 0, 0)] [9] =
      .ok (List.replicate 2147483648 0) ∧
    ([(0, 0, 0, 0)] : List Segment).foldl
        (fun (r : Outcome) (l : Segment) => r.andThen fun im =>
          Machine.draw_line 1 im 2147483648 1 1 l.1 l.2.1 l.2.2.1 l.2.2.2 [9])
        (.ok (List.replicate 2147483648 0)) =
      .ok ((List.replicate 2147483648 0).set 0 9) ∧
    byte_at (List.replicate 2147483648 0) 0 = some 0 ∧
    byte_at ((List.replicate 2147483648 0).set 0 9) 0 = some 9 := by
  have hlen : 0 < (List.replicate 2147483648 0).length := by
    rw [List.length_replicate]; decide
  have e : (0 : Int) = ((0 : Nat) : Int) := rfl
  obtain ⟨h1, h2⟩ := machine_narrowed_width (List.replicate 2147483648 0) hlen
  refine ⟨by decide, h1, h2, ?_, ?_⟩
  · rw [e]
    exact byte_at_replicate _ 0 (by decide)
  · rw [e]
    exact byte_at_set_self _ 0 9 hlen

end ImageDraw
